import Mathlib

/-!
# Shamir secret sharing over GF(2^deg): a shallow embedding of `ssss.c`

Multi-precision integers (`mpz_t`) are natural numbers, arrays of field elements
are functions from the index, byte buffers and C strings are lists, the
process-wide field context (`degree`, `poly`) is an explicit value passed to every
operation, and loops are structural recursions that follow the source loop by loop.
-/

namespace SSSS

/-! ## Field context -/

def MAXDEGREE : Nat := 1024

def MAXTOKENLEN : Nat := 128

/-- The table `irred_coeff` of the source, entry for entry. -/
def irred_coeff : List Nat := [
  4,3,1,5,3,1,4,3,1,7,3,2,5,4,3,5,3,2,7,4,2,4,3,1,10,9,3,9,4,2,7,6,2,10,9,
  6,4,3,1,5,4,3,4,3,1,7,2,1,5,3,2,7,4,2,6,3,2,5,3,2,15,3,2,11,3,2,9,8,7,7,
  2,1,5,3,2,9,3,1,7,3,1,9,8,3,9,4,2,8,5,3,15,14,10,10,5,2,9,6,2,9,3,2,9,5,
  2,11,10,1,7,3,2,11,2,1,9,7,4,4,3,1,8,3,1,7,4,1,7,2,1,13,11,6,5,3,2,7,3,2,
  8,7,5,12,3,2,13,10,6,5,3,2,5,3,2,9,5,2,9,7,2,13,4,3,4,3,1,11,6,4,18,9,6,
  19,18,13,11,3,2,15,9,6,4,3,1,16,5,2,15,14,6,8,5,2,15,11,2,11,6,2,7,5,3,8,
  3,1,19,16,9,11,9,6,15,7,6,13,4,3,14,13,3,13,6,3,9,5,2,19,13,6,19,10,3,11,
  6,5,9,2,1,14,3,2,13,3,1,7,5,4,11,9,8,11,6,5,23,16,9,19,14,6,23,10,2,8,3,
  2,5,4,3,9,6,4,4,3,2,13,8,6,13,11,1,13,10,3,11,6,5,19,17,4,15,14,7,13,9,6,
  9,7,3,9,7,1,14,3,2,11,8,2,11,6,4,13,5,2,11,5,1,11,4,1,19,10,3,21,10,6,13,
  3,1,15,7,5,19,18,10,7,5,3,12,7,2,7,5,1,14,9,6,10,3,2,15,13,12,12,11,9,16,
  9,7,12,9,3,9,5,2,17,10,6,24,9,3,17,15,13,5,4,3,19,17,8,15,6,3,19,6,1 ]

/-- The globals `degree` and `poly`, set together by `field_init`. -/
structure FieldCtx where
  degree : Nat
  poly : Nat
deriving DecidableEq, Repr

def field_size_valid (deg : Nat) : Bool :=
  decide (8 ≤ deg) && decide (deg ≤ MAXDEGREE) && decide (deg % 8 = 0)

/-- GMP `mpz_setbit`: set bit `e` of `p`. -/
def mpz_setbit (p e : Nat) : Nat := p ||| 2 ^ e

/-- GMP `mpz_tstbit`. -/
def mpz_tstbit (p e : Nat) : Bool := p.testBit e

def mpz_sizeinbase2_aux : Nat → Nat → Nat
  | 0, _ => 0
  | fuel + 1, a => if a = 0 then 0 else mpz_sizeinbase2_aux fuel (a / 2) + 1

/-- The macro `mpz_sizeinbits`: the number of binary digits of `a`, and 0 for 0. -/
def mpz_sizeinbits (a : Nat) : Nat := mpz_sizeinbase2_aux a a

def field_init (deg : Nat) : FieldCtx :=
  let poly := 0
  let poly := mpz_setbit poly deg
  let poly := mpz_setbit poly (irred_coeff.getD (3 * (deg / 8 - 1) + 0) 0)
  let poly := mpz_setbit poly (irred_coeff.getD (3 * (deg / 8 - 1) + 1) 0)
  let poly := mpz_setbit poly (irred_coeff.getD (3 * (deg / 8 - 1) + 2) 0)
  let poly := mpz_setbit poly 0
  { degree := deg, poly := poly }

/-! ## Field arithmetic -/

def field_add (x y : Nat) : Nat := x ^^^ y

/-- The body of the `for(i = 1; i < degree; i++)` loop of `field_mult`, run
`k` more times from loop counter `i` with the current `b` and `z`. -/
def field_mult_loop (F : FieldCtx) (y : Nat) : Nat → Nat → Nat → Nat → Nat
  | 0, _, _, z => z
  | k + 1, i, b, z =>
    let b := b <<< 1
    let b := if mpz_tstbit b F.degree then b ^^^ F.poly else b
    let z := if mpz_tstbit y i then z ^^^ b else z
    field_mult_loop F y k (i + 1) b z

def field_mult (F : FieldCtx) (x y : Nat) : Nat :=
  let b := x
  let z := if mpz_tstbit y 0 then b else 0
  field_mult_loop F y (F.degree - 1) 1 b z

/-- The `while (mpz_cmp_ui(u, 1))` loop of `field_invert`; `none` when the loop
has not ended after `fuel` iterations. -/
def field_invert_loop : Nat → Nat → Nat → Nat → Nat → Option Nat
  | 0, _, _, _, _ => none
  | fuel + 1, u, v, z, g =>
    if u = 1 then some z
    else
      let i : Int := (mpz_sizeinbits u : Int) - (mpz_sizeinbits v : Int)
      if i < 0 then
        field_invert_loop fuel (v ^^^ (u <<< (-i).toNat)) u (g ^^^ (z <<< (-i).toNat)) z
      else
        field_invert_loop fuel (u ^^^ (v <<< i.toNat)) v (z ^^^ (g <<< i.toNat)) g

/-- The function `field_invert`: `none` when `assert(x != 0)` fails or the loop has
not ended after `fuel` iterations. -/
def field_invert (F : FieldCtx) (fuel : Nat) (x : Nat) : Option Nat :=
  if x = 0 then none else field_invert_loop fuel x F.poly 1 0

/-! ## Polynomial evaluation -/

/-- The loop `for(i = n - 1; i > 0; i--)` of `horner`, entered with counter `i`. -/
def horner_loop (F : FieldCtx) (x : Nat) (coeff : Nat → Nat) : Nat → Nat → Nat
  | 0, y => y
  | i + 1, y => horner_loop F x coeff i (field_mult F (field_add y (coeff (i + 1))) x)

def horner (F : FieldCtx) (n : Nat) (x : Nat) (coeff : Nat → Nat) : Nat :=
  field_add (horner_loop F x coeff (n - 1) x) (coeff 0)

/-! ## Split: the coefficient vector and the shares -/

/-- The array `coeff` of `split` for threshold `m + 1`: `coeff[0]` is the (imported,
possibly diffused) secret `c0` and `coeff[1..m]` are the values `c` read from the
random source. -/
def split_coeff (c0 : Nat) (m : Nat) (c : Fin m → Nat) : Nat → Nat :=
  fun k => if k = 0 then c0 else if h : k - 1 < m then c ⟨k - 1, h⟩ else 0

/-- The values `y` of the shares with the indices `xs 0, ..., xs (T - 2)` that `split`
computes for the secret `c0` and the random coefficients `c`. -/
def share_values (F : FieldCtx) (T : Nat) (c0 : Nat) (xs : Nat → Nat)
    (c : Fin (T - 1) → Nat) : Fin (T - 1) → Nat :=
  fun j => horner F T (xs j) (split_coeff c0 (T - 1) c)

/-- The `m`-tuples of field elements. -/
def field_tuples (deg m : Nat) : Set (Fin m → Nat) := {c | ∀ k, c k < 2 ^ deg}

/-! ## Reconstruction -/

/-- A matrix `mpz_t A[n][n]`, addressed `A row col`. -/
abbrev Mat := Nat → Nat → Nat

/-- An array `mpz_t b[n]`. -/
abbrev Vec := Nat → Nat

def Mat.set (A : Mat) (r c v : Nat) : Mat :=
  fun r' c' => if r' = r ∧ c' = c then v else A r' c'

def Vec.set (b : Vec) (i v : Nat) : Vec :=
  fun i' => if i' = i then v else b i'

/-- The search `for(found = false, j = i + 1; j < n; j++)` for a column with a
non-zero entry in row `i`: `k` columns remain from column `j`. -/
def find_pivot (A : Mat) (i : Nat) : Nat → Nat → Option Nat
  | 0, _ => none
  | k + 1, j => if A i j ≠ 0 then some j else find_pivot A i k (j + 1)

/-- The loop `for(k = i; k < n; k++) MPZ_SWAP(AA[k][i], AA[k][j])`: `c` rows remain
from row `k`. -/
def swap_cols_loop (i j : Nat) : Nat → Nat → Mat → Mat
  | 0, _, A => A
  | c + 1, k, A =>
    let h := A k i
    let A := A.set k i (A k j)
    let A := A.set k j h
    swap_cols_loop i j c (k + 1) A

/-- The loop `for(k = i + 1; k < n; k++)` that rescales column `j` and adds
column `i` to it: `c` rows remain from row `k`. -/
def elim_rows (F : FieldCtx) (i j : Nat) : Nat → Nat → Mat → Mat
  | 0, _, A => A
  | c + 1, k, A =>
    let h := field_mult F (A k i) (A i j)
    let A := A.set k j (field_mult F (A k j) (A i i))
    let A := A.set k j (field_add (A k j) h)
    elim_rows F i j c (k + 1) A

/-- The loop `for(j = i + 1; j < n; j++)` over the columns right of the pivot:
`c` columns remain from column `j`. -/
def elim_cols (F : FieldCtx) (n i : Nat) : Nat → Nat → Mat × Vec → Mat × Vec
  | 0, _, s => s
  | c + 1, j, (A, b) =>
    if A i j ≠ 0 then
      let A := elim_rows F i j (n - (i + 1)) (i + 1) A
      let h := field_mult F (b i) (A i j)
      let b := b.set j (field_mult F (b j) (A i i))
      let b := b.set j (field_add (b j) h)
      elim_cols F n i c (j + 1) (A, b)
    else elim_cols F n i c (j + 1) (A, b)

/-- The body of the outer loop of `restore_secret` for pivot position `i`;
`none` is the `return false`. -/
def restore_step (F : FieldCtx) (n i : Nat) (s : Mat × Vec) : Option (Mat × Vec) :=
  let (A, b) := s
  if A i i = 0 then
    match find_pivot A i (n - (i + 1)) (i + 1) with
    | none => none
    | some j =>
      let A := swap_cols_loop i j (n - i) i A
      let h := b i
      let b := b.set i (b j)
      let b := b.set j h
      some (elim_cols F n i (n - (i + 1)) (i + 1) (A, b))
  else some (elim_cols F n i (n - (i + 1)) (i + 1) (A, b))

/-- The outer loop `for(i = 0; i < n; i++)` of `restore_secret`: `c` pivots remain
from position `i`; `none` is the `return false`. -/
def restore_loop (F : FieldCtx) (n : Nat) : Nat → Nat → Mat × Vec → Option (Mat × Vec)
  | 0, _, s => some s
  | c + 1, i, s =>
    match restore_step F n i s with
    | none => none
    | some s' => restore_loop F n c (i + 1) s'

/-- How a call of `restore_secret` ends: it returns `false`, it returns `true`
leaving the arrays `A` and `b`, or the call of `field_invert` does not return. -/
inductive RestoreResult where
  | returned_false : RestoreResult
  | returned_true (A : Mat) (b : Vec) : RestoreResult
  | no_return : RestoreResult

def restore_secret (F : FieldCtx) (fuel : Nat) (n : Nat) (A : Mat) (b : Vec) : RestoreResult :=
  match restore_loop F n n 0 (A, b) with
  | none => RestoreResult.returned_false
  | some (A, b) =>
    match field_invert F fuel (A (n - 1) (n - 1)) with
    | none => RestoreResult.no_return
    | some h => RestoreResult.returned_true A (b.set (n - 1) (field_mult F (b (n - 1)) h))

/-! ## Combine: building the linear system -/

/-- The loop `for(j = opt_threshold - 2; j >= 0; j--)` of `combine` filling column
`i` upwards with the powers of `x`; `c` is `j + 1`. -/
def combine_col_loop (F : FieldCtx) (i x : Nat) : Nat → Mat → Mat
  | 0, A => A
  | j + 1, A => combine_col_loop F i x j (A.set j i (field_mult F (A (j + 1) i) x))

/-- The part of the body of the share loop of `combine` that follows the parsing
of share `i`, whose index is `x` and whose value is `yv`. -/
def combine_share (F : FieldCtx) (T i : Nat) (x yv : Nat) (s : Mat × Vec) : Mat × Vec :=
  let (A, y) := s
  let A := A.set (T - 1) i 1
  let A := combine_col_loop F i x (T - 1) A
  let y := y.set i yv
  let x := field_mult F x (A 0 i)
  let y := y.set i (field_add (y i) x)
  (A, y)

/-- The share loop `for (i = 0; i < opt_threshold; i++)` of `combine` on parsed
shares `(index, value)`: `c` shares remain from share `i`. -/
def combine_build_loop (F : FieldCtx) (T : Nat) (shares : Nat → Nat × Nat) :
    Nat → Nat → Mat × Vec → Mat × Vec
  | 0, _, s => s
  | c + 1, i, s =>
    combine_build_loop F T shares c (i + 1)
      (combine_share F T i (shares i).1 (shares i).2 s)

def combine_build (F : FieldCtx) (T : Nat) (shares : Nat → Nat × Nat) : Mat × Vec :=
  combine_build_loop F T shares T 0 (fun _ _ => 0, fun _ => 0)

/-- The end of `combine` before the diffusion layer: `some (Except.error msg)` is
the call `fatal(msg)`, `some (Except.ok y)` leaves `y[opt_threshold - 1] = y`, and
`none` means that `restore_secret` did not return. -/
def combine_solve (F : FieldCtx) (fuel : Nat) (T : Nat) (shares : Nat → Nat × Nat) :
    Option (Except String Nat) :=
  let (A, y) := combine_build F T shares
  match restore_secret F fuel T A y with
  | RestoreResult.returned_false =>
    some (Except.error "shares inconsistent. Perhaps a single share was used twice")
  | RestoreResult.returned_true _ y => some (Except.ok (y (T - 1)))
  | RestoreResult.no_return => none

/-! ## Diffusion layer -/

/-- The term `(((v << 4) ^ (v >> 5)) + v) ^ sum` of a round, in `uint32_t` arithmetic. -/
def xtea_mix (v sum : Nat) : Nat :=
  ((((v <<< 4) % 2 ^ 32) ^^^ (v >>> 5)) + v) % 2 ^ 32 ^^^ sum

def xtea_delta : Nat := 0x9E3779B9

/-- One iteration of the loop of `encipher_block` on `(v[0], v[1], sum)`. -/
def encipher_round (s : Nat × Nat × Nat) : Nat × Nat × Nat :=
  let v0 := (s.1 + xtea_mix s.2.1 s.2.2) % 2 ^ 32
  let sum := (s.2.2 + xtea_delta) % 2 ^ 32
  let v1 := (s.2.1 + xtea_mix v0 sum) % 2 ^ 32
  (v0, v1, sum)

/-- One iteration of the loop of `decipher_block` on `(v[0], v[1], sum)`; the
subtractions wrap around modulo `2^32`. -/
def decipher_round (s : Nat × Nat × Nat) : Nat × Nat × Nat :=
  let v1 := (s.2.1 + (2 ^ 32 - xtea_mix s.1 s.2.2 % 2 ^ 32)) % 2 ^ 32
  let sum := (s.2.2 + (2 ^ 32 - xtea_delta)) % 2 ^ 32
  let v0 := (s.1 + (2 ^ 32 - xtea_mix v1 sum % 2 ^ 32)) % 2 ^ 32
  (v0, v1, sum)

def encipher_block (v : Nat × Nat) : Nat × Nat :=
  let s := encipher_round^[32] (v.1, v.2, 0)
  (s.1, s.2.1)

def decipher_block (v : Nat × Nat) : Nat × Nat :=
  let s := decipher_round^[32] (v.1, v.2, 0xC6EF3720)
  (s.1, s.2.1)

/-- A byte buffer (`uint8_t v[]`); reading outside of it gives 0. -/
abbrev Bytes := List Nat

def Bytes.rd (v : Bytes) (i : Nat) : Nat := v.getD i 0

/-- The big-endian load of `v[i]` in `encode_slice` from four bytes of `data`. -/
def load32 (data : Bytes) (idx len i : Nat) : Nat :=
  (data.rd ((idx + 4 * i) % len) <<< 24 ||| data.rd ((idx + 4 * i + 1) % len) <<< 16 |||
    data.rd ((idx + 4 * i + 2) % len) <<< 8 ||| data.rd ((idx + 4 * i + 3) % len)) % 2 ^ 32

/-- The big-endian store of `v[i]` in `encode_slice` into four bytes (`uint8_t`) of
`data`. -/
def store32 (data : Bytes) (idx len i : Nat) (w : Nat) : Bytes :=
  let data := data.set ((idx + 4 * i + 0) % len) ((w >>> 24) % 256)
  let data := data.set ((idx + 4 * i + 1) % len) ((w >>> 16) &&& 0xff)
  let data := data.set ((idx + 4 * i + 2) % len) ((w >>> 8) &&& 0xff)
  data.set ((idx + 4 * i + 3) % len) (w &&& 0xff)

def encode_slice (data : Bytes) (idx len : Nat) (process_block : Nat × Nat → Nat × Nat) :
    Bytes :=
  let v := (load32 data idx len 0, load32 data idx len 1)
  let v := process_block v
  let data := store32 data idx len 0 v.1
  store32 data idx len 1 v.2

inductive encdec where
  | ENCODE : encdec
  | DECODE : encdec
deriving DecidableEq

/-- Byte `i` of the layout of `mpz_export(v, &t, -1, 2, 1, 0, x)`: 16-bit words,
least significant word first, each word stored most significant byte first. -/
def export_byte (x i : Nat) : Nat :=
  if i % 2 = 0 then (x >>> (16 * (i / 2) + 8)) % 256 else (x >>> (16 * (i / 2))) % 256

/-- GMP `mpz_export(v, &t, -1, 2, 1, 0, x)`: only the `(mpz_sizeinbits x + 15) / 16`
words that `x` has are written over `v`. -/
def mpz_export_2be (v : Bytes) (x : Nat) : Bytes :=
  (List.range (max v.length (2 * ((mpz_sizeinbits x + 15) / 16)))).map
    (fun i => if i < 2 * ((mpz_sizeinbits x + 15) / 16) then export_byte x i else v.rd i)

/-- GMP `mpz_import(x, count, -1, 2, 1, 0, v)`: the number whose 16-bit words, least
significant word first and each stored most significant byte first, are the first
`count` words of `v`. -/
def mpz_import_2be : Nat → Bytes → Nat
  | 0, _ => 0
  | w + 1, v => mpz_import_2be w v + (v.rd (2 * w) * 256 + v.rd (2 * w + 1)) * 2 ^ (16 * w)

/-- The loop `for(i = 0; i < 40 * degree_bytes; i += 2)` of `encode_mpz`: `c`
iterations remain from offset `i`. -/
def encode_loop (len : Nat) : Nat → Nat → Bytes → Bytes
  | 0, _, v => v
  | c + 1, i, v => encode_loop len c (i + 2) (encode_slice v i len encipher_block)

/-- The loop `for(i = 40 * degree_bytes - 2; i >= 0; i -= 2)` of `encode_mpz`: `c`
iterations remain, the next one at offset `2 * (c - 1)`. -/
def decode_loop (len : Nat) : Nat → Bytes → Bytes
  | 0, v => v
  | c + 1, v => decode_loop len c (encode_slice v (2 * c) len decipher_block)

/-- The function `encode_mpz`; `none` when the final `assert` fails. -/
def encode_mpz (F : FieldCtx) (x : Nat) (encdecmode : encdec) : Option Nat :=
  let degree_bytes := F.degree / 8
  let v : Bytes := List.replicate ((F.degree + 8) / 16 * 2) 0
  let v := mpz_export_2be v x
  let v := if F.degree % 16 = 8 then v.set (degree_bytes - 1) (v.rd degree_bytes) else v
  let v :=
    if encdecmode = encdec.ENCODE then encode_loop degree_bytes ((40 * degree_bytes + 1) / 2) 0 v
    else decode_loop degree_bytes ((40 * degree_bytes) / 2) v
  let v :=
    if F.degree % 16 = 8 then
      (v.set degree_bytes (v.rd (degree_bytes - 1))).set (degree_bytes - 1) 0
    else v
  let x := mpz_import_2be ((F.degree + 8) / 16) v
  if mpz_sizeinbits x ≤ F.degree then some x else none

/-! ## Text of field elements and of share lines

A C string is the list of its characters without the NUL byte that ends it, a byte
being the character with that code; `fatal(msg)` is `Except.error msg`. The warnings, which go to `stderr` and
change no result, are left out. -/

/-- The digits of `x` in base `base`, most significant first, put in front of `acc`;
no digit for 0. -/
def digits_be_aux (base : Nat) : Nat → Nat → List Nat → List Nat
  | 0, _, acc => acc
  | fuel + 1, x, acc =>
    if x = 0 then acc else digits_be_aux base fuel (x / base) (x % base :: acc)

def digits_be (base x : Nat) : List Nat := digits_be_aux base x x []

/-- GMP `mpz_sizeinbase(x, 16)`: the number of hex digits of `x`, and 1 for 0. -/
def mpz_sizeinbase16 (x : Nat) : Nat := if x = 0 then 1 else (digits_be 16 x).length

/-- GMP `mpz_out_str(stream, 16, x)`: lower-case hex digits without leading zeros,
and `0` for 0. -/
def mpz_out_str16 (x : Nat) : List Char :=
  if x = 0 then ['0'] else (digits_be 16 x).map Nat.digitChar

/-- GMP `mpz_import(x, count, 1, 1, 0, 0, s)`: the bytes of `s`, most significant
first. -/
def mpz_import_be (s : List Nat) : Nat := s.foldl (fun acc b => acc * 256 + b) 0

/-- GMP `mpz_export(buf, &t, 1, 1, 0, 0, x)`: the bytes of `x`, most significant
first, none for 0. -/
def mpz_export_be (x : Nat) : List Nat := digits_be 256 x

/-- C `isspace` in the "C" locale. -/
def isspace (c : Char) : Bool :=
  c = ' ' || c = '\t' || c = '\n' || c = '\x0b' || c = '\x0c' || c = '\r'

/-- The digit table of GMP for bases up to 36: the value of a digit character, in
either case, and no value for any other character. -/
def digit_value (c : Char) : Option Nat :=
  if '0' ≤ c ∧ c ≤ '9' then some (c.toNat - '0'.toNat)
  else if 'a' ≤ c ∧ c ≤ 'z' then some (c.toNat - 'a'.toNat + 10)
  else if 'A' ≤ c ∧ c ≤ 'Z' then some (c.toNat - 'A'.toNat + 10)
  else none

/-- The digit loop of `mpz_set_str`: white space is skipped, any other character
must be a digit of the base. -/
def set_str_digits (base : Nat) : List Char → Nat → Option Nat
  | [], acc => some acc
  | c :: cs, acc =>
    if isspace c then set_str_digits base cs acc
    else
      match digit_value c with
      | some d => if d < base then set_str_digits base cs (acc * base + d) else none
      | none => none

/-- GMP `mpz_set_str(x, s, base)` for a base from 2 to 36: leading white space, an
optional minus sign, then at least one digit, then digits and white space up to the
end of the string; `none` is the return value -1. -/
def mpz_set_str (s : List Char) (base : Nat) : Option Int :=
  let s := s.dropWhile isspace
  let negative := s.head? = some '-'
  let s := if negative then s.tail else s
  match s.head?.bind digit_value with
  | none => none
  | some d =>
    if d < base then
      match set_str_digits base s 0 with
      | some v => some (if negative then -(v : Int) else (v : Int))
      | none => none
    else none

def field_import (F : FieldCtx) (s : List Char) (hexmode : Bool) : Except String Nat :=
  if hexmode then
    if s.length > F.degree / 4 then Except.error "input string too long"
    else
      match mpz_set_str s 16 with
      | none => Except.error "invalid syntax"
      | some x => if x < 0 then Except.error "invalid syntax" else Except.ok x.toNat
  else
    if s.length > F.degree / 8 then Except.error "input string too long"
    else Except.ok (mpz_import_be (s.map Char.toNat))

/-- What `field_print` writes to `stream`. The padding count of the hex mode is an
`int` in the source and the loop runs while it is positive, which the truncated
subtraction gives. -/
def field_print (F : FieldCtx) (x : Nat) (hexmode : Bool) : List Char :=
  if hexmode then
    List.replicate (F.degree / 4 - mpz_sizeinbase16 x) '0' ++ mpz_out_str16 x ++ ['\n']
  else
    (mpz_export_be x).map (fun b => if 32 ≤ b ∧ b < 127 then Char.ofNat b else '.') ++ ['\n']

/-- The loop `for(fmt_len = 1, i = opt_number; i >= 10; i /= 10, fmt_len++)` of
`split`. -/
def fmt_len_loop : Nat → Nat → Nat → Nat
  | 0, _, fmt_len => fmt_len
  | fuel + 1, i, fmt_len => if i ≥ 10 then fmt_len_loop fuel (i / 10) (fmt_len + 1) else fmt_len

def fmt_len (opt_number : Nat) : Nat := fmt_len_loop opt_number opt_number 1

/-- C `printf("%0*d", width, i)` for `i >= 0`: decimal digits, zero-padded on the
left to `width`. -/
def printf_0d (width i : Nat) : List Char :=
  let ds := if i = 0 then ['0'] else (digits_be 10 i).map Nat.digitChar
  List.replicate (width - ds.length) '0' ++ ds

/-- The line that the share loop of `split` prints for share number `i + 1` whose
value is `y`. -/
def print_share (F : FieldCtx) (opt_token : Option (List Char)) (width : Nat) (i : Nat)
    (y : Nat) : List Char :=
  (match opt_token with
    | some t => t ++ ['-']
    | none => []) ++
  printf_0d width (i + 1) ++ ['-'] ++ field_print F y true

/-- The shares that `split` prints: one line per share number `1..opt_number`. -/
def split_lines (F : FieldCtx) (opt_token : Option (List Char)) (opt_threshold opt_number : Nat)
    (coeff : Nat → Nat) : List (List Char) :=
  (List.range opt_number).map (fun i =>
    print_share F opt_token (fmt_len opt_number) i (horner F opt_threshold (i + 1) coeff))

/-- C `strchr(s, '-')` followed by `*p++ = 0`: the text before the first `-` and the
text after it. -/
def cut_dash (s : List Char) : Option (List Char × List Char) :=
  if '-' ∈ s then some (s.takeWhile (fun c => c != '-'), (s.dropWhile (fun c => c != '-')).tail)
  else none

def atoi_digits : List Char → Nat → Nat
  | [], acc => acc
  | c :: cs, acc =>
    if '0' ≤ c ∧ c ≤ '9' then atoi_digits cs (acc * 10 + (c.toNat - '0'.toNat)) else acc

/-- C `strtol(s, NULL, 10)` with a `long` of 64 bits: white space, an optional
sign, then decimal digits up to the first other character; a value outside the
range of `long` gives `LONG_MAX` or `LONG_MIN`. -/
def strtol10 (s : List Char) : Int :=
  let s := s.dropWhile isspace
  let v : Int :=
    match s with
    | '-' :: cs => -(atoi_digits cs 0 : Int)
    | '+' :: cs => (atoi_digits cs 0 : Int)
    | _ => (atoi_digits s 0 : Int)
  max (-(2 ^ 63)) (min v (2 ^ 63 - 1))

/-- C `atoi` as the GNU C library has it, `(int) strtol(s, NULL, 10)`: the
conversion to the 32-bit `int` keeps the low 32 bits in two's complement. -/
def atoi (s : List Char) : Int := (strtol10 s + 2 ^ 31) % 2 ^ 32 - 2 ^ 31

/-- The statement `buf[strcspn(buf, "\r\n")] = 0` on the text that `fgets` has
put into `buf`: the C string that is left ends before the first CR or LF, and
before the first NUL byte, where every string function stops. -/
def cut_line (buf : List Char) : List Char :=
  buf.takeWhile (fun c => c != '\r' && c != '\n' && c != '\x00')

/-- The parsing of one share line in `combine`, from `buf[strcspn(buf, "\r\n")]`
to `atoi`: `s` is 0 for the first share and the field size later on. The result is
the field size, the share index and the text `b` of the share value. -/
def combine_parse (s : Nat) (buf : List Char) : Except String (Nat × Int × List Char) :=
  let buf := cut_line buf
  match cut_dash buf with
  | none => Except.error "invalid syntax"
  | some (p0, rest) =>
    let ab : List Char × List Char :=
      match cut_dash rest with
      | some (p1, b) => (p1, b)
      | none => (p0, rest)
    let a := ab.1
    let b := ab.2
    if s = 0 then
      if field_size_valid (4 * b.length) then
        if atoi a = 0 then Except.error "invalid share"
        else Except.ok (4 * b.length, atoi a, b)
      else Except.error "share has illegal length"
    else if s ≠ 4 * b.length then Except.error "shares have different security levels"
    else if atoi a = 0 then Except.error "invalid share"
    else Except.ok (s, atoi a, b)

/-! ## Polynomials over GF(2) as bit fields (reference definitions) -/

/-- Carry-less product accumulated over the low `k` bits of `b`. -/
def clmul_aux (a b : Nat) : Nat → Nat
  | 0 => 0
  | k + 1 => clmul_aux a b k ^^^ (if b.testBit k then a <<< k else 0)

/-- Carry-less product: the product in GF(2)[X] of the polynomials whose
coefficient bit fields are `a` and `b`. -/
def clmul (a b : Nat) : Nat := clmul_aux a b (mpz_sizeinbits b)

def polymod_aux (p : Nat) : Nat → Nat → Nat
  | 0, a => a
  | fuel + 1, a =>
    if mpz_sizeinbits a < mpz_sizeinbits p then a
    else polymod_aux p fuel (a ^^^ (p <<< (mpz_sizeinbits a - mpz_sizeinbits p)))

/-- Remainder of the polynomial `a` on division by the polynomial `p` in GF(2)[X]:
cancel the leading term of `a` with a shifted copy of `p` until the degree of `a`
is below the degree of `p`. -/
def polymod (a p : Nat) : Nat := polymod_aux p (mpz_sizeinbits a) a

/-- Irreducibility over GF(2): `p` has degree at least 1 and is not the carry-less
product of two polynomials of degree at least 1. -/
def GF2Irreducible (p : Nat) : Prop :=
  2 ≤ p ∧ ∀ a b : Nat, 2 ≤ a → 2 ≤ b → clmul a b ≠ p

/-- The sum (xor) of `f 0, ..., f (n - 1)`. -/
def xor_sum (f : Nat → Nat) : Nat → Nat
  | 0 => 0
  | k + 1 => field_add (xor_sum f k) (f k)

/-- Powers in the field: `x` multiplied `k` times into 1 by `field_mult`. -/
def field_pow (F : FieldCtx) (x : Nat) : Nat → Nat
  | 0 => 1
  | k + 1 => field_mult F (field_pow F x k) x

/-! ## Abstraction used by the proofs -/

open Polynomial in
/-- The element of GF(2)[X] whose coefficient of `X^i` is bit `i` of `n`. -/
noncomputable def toPoly (n : Nat) : (ZMod 2)[X] :=
  ∑ i in Finset.range n, if n.testBit i then X ^ i else 0

/-- The class of the bit field `a` in GF(2)[X] modulo the field polynomial. -/
noncomputable def toField (F : FieldCtx) (a : Nat) : AdjoinRoot (toPoly F.poly) :=
  AdjoinRoot.mk (toPoly F.poly) (toPoly a)

/-- The field polynomial has degree exactly `degree`, which is positive. -/
def PolyOK (F : FieldCtx) : Prop :=
  1 ≤ F.degree ∧ 2 ^ F.degree ≤ F.poly ∧ F.poly < 2 ^ (F.degree + 1)

/-- Columns `i` and `j` exchanged in the rows `k, ..., k + c - 1`. -/
def swapped (i j k c : Nat) (A : Mat) : Mat :=
  fun r col =>
    if k ≤ r ∧ r < k + c then (if col = i then A r j else if col = j then A r i else A r col)
    else A r col

/-- The entry that the elimination with pivot `i` writes at row `r` of column `col`. -/
def elim_entry (F : FieldCtx) (i : Nat) (A : Mat) (r col : Nat) : Nat :=
  field_add (field_mult F (A r col) (A i i)) (field_mult F (A r i) (A i col))

/-- The matrix after the elimination with pivot `i` has run over the columns
`j, ..., j + c - 1`. -/
def elim_mat (F : FieldCtx) (n i j c : Nat) (A : Mat) : Mat :=
  fun r col =>
    if j ≤ col ∧ col < j + c ∧ A i col ≠ 0 ∧ i + 1 ≤ r ∧ r < n then elim_entry F i A r col
    else A r col

/-- The right-hand side after the elimination with pivot `i` has run over the
columns `j, ..., j + c - 1`. -/
def elim_vec (F : FieldCtx) (i j c : Nat) (A : Mat) (b : Vec) : Vec :=
  fun col =>
    if j ≤ col ∧ col < j + c ∧ A i col ≠ 0 then
      field_add (field_mult F (b col) (A i i)) (field_mult F (b i) (A i col))
    else b col

/-- The `k`-th of the eight bytes of the block `w`, most significant byte of `w.1`
first. -/
def slice_byte (w : Nat × Nat) (k : Nat) : Nat :=
  if k < 4 then (w.1 >>> (8 * (3 - k))) % 256 else (w.2 >>> (8 * (7 - k))) % 256

/-- A buffer of `L` bytes. -/
def IsBuf (L : Nat) (v : Bytes) : Prop := v.length = L ∧ ∀ i, Bytes.rd v i < 256

/-- The exchange of the column numbers `i` and `j`. -/
def transp (i j c : Nat) : Nat := if c = i then j else if c = j then i else c

/-- Among the columns `i, ..., n - 1` of `A`, restricted to the rows `i, ..., n - 1`,
two are equal or one is zero. -/
def Degenerate (n i : Nat) (A : Mat) : Prop :=
  (∃ a b, a ≠ b ∧ i ≤ a ∧ a < n ∧ i ≤ b ∧ b < n ∧ ∀ r, i ≤ r → r < n → A r a = A r b) ∨
  (∃ c, i ≤ c ∧ c < n ∧ ∀ r, i ≤ r → r < n → A r c = 0)

/-- The invariant of the outer loop of `restore_secret` before pivot `i`, for a
system with solution `U`: the live entries are reduced, every live column is an
equation that `U` satisfies, and the live columns have no common non-zero
annihilator (the live system is regular). -/
structure ElimInv (F : FieldCtx) (n i : Nat) (U : Nat → AdjoinRoot (toPoly F.poly))
    (A : Mat) (b : Vec) : Prop where
  range : ∀ r c, i ≤ r → r < n → i ≤ c → c < n → A r c < 2 ^ F.degree
  brange : ∀ c, i ≤ c → c < n → b c < 2 ^ F.degree
  sol : ∀ c, i ≤ c → c < n →
    ∑ r in Finset.Ico i n, toField F (A r c) * U r = toField F (b c)
  ker : ∀ w : Nat → AdjoinRoot (toPoly F.poly),
    (∀ c, i ≤ c → c < n → ∑ r in Finset.Ico i n, toField F (A r c) * w r = 0) →
    ∀ r, i ≤ r → r < n → w r = 0

/-- What the pivot column `i` satisfies once the pivot is in place. -/
def PivotFact (F : FieldCtx) (n i : Nat) (U : Nat → AdjoinRoot (toPoly F.poly))
    (A : Mat) (b : Vec) : Prop :=
  A i i ≠ 0 ∧ A i i < 2 ^ F.degree ∧ b i < 2 ^ F.degree ∧
  ∑ r in Finset.Ico i n, toField F (A r i) * U r = toField F (b i)

/-- The loop invariant of `field_invert` for the argument `x`: the cofactor
congruences, the coprimality of `u` and `v`, and the degree bounds. -/
structure InvertInv (F : FieldCtx) (x u v z g : Nat) : Prop where
  zx : toField F z * toField F x = toField F u
  gx : toField F g * toField F x = toField F v
  v2 : 2 ≤ v
  cop : IsCoprime (toPoly u) (toPoly v)
  szv : Nat.size z + Nat.size v ≤ F.degree + 2
  sgu : Nat.size g + Nat.size u ≤ F.degree + 2

/-! ## The random source -/

/-- The result of one call of `read` on the random source: the error return, or
the bytes that the call delivers. -/
inductive ReadResult where
  | failed : ReadResult
  | bytes (bs : List Nat) : ReadResult
deriving DecidableEq, Repr

/-- The loop `for(count = 0; count < degree / 8; count += i)` of `cprng_read`:
`need` is `degree / 8`, `buf` holds the `count` bytes read so far and the list holds
the results of the calls of `read` still to come, of which a call delivers at most
the `need - count` bytes it asks for. The result is the buffer, or the fatal error,
with the results of the calls not made; `none` when the results are used up before
the buffer is full, that is when the next `read` does not return. -/
def cprng_read_loop (need : Nat) :
    List ReadResult → Nat → Bytes → Option (Except String Bytes × List ReadResult)
  | [], count, buf => if count < need then none else some (Except.ok buf, [])
  | r :: rest, count, buf =>
    if count < need then
      match r with
      | ReadResult.failed => some (Except.error "couldn't read from /dev/urandom", rest)
      | ReadResult.bytes bs =>
        let got := bs.take (need - count)
        cprng_read_loop need rest (count + got.length) (buf ++ got)
    else some (Except.ok buf, r :: rest)

/-- The function `cprng_read`: the loop, then
`mpz_import(x, degree / 8, 1, 1, 0, 0, buf)`. -/
def cprng_read (F : FieldCtx) (reads : List ReadResult) :
    Option (Except String Nat × List ReadResult) :=
  match cprng_read_loop (F.degree / 8) reads 0 [] with
  | none => none
  | some (Except.error e, rest) => some (Except.error e, rest)
  | some (Except.ok buf, rest) =>
    some (Except.ok (mpz_import_be (buf.take (F.degree / 8))), rest)

/-! ## The programs `ssss-split` and `ssss-combine`

A run ends in `some (Except.ok out)` with the text `out` written to `stdout`, in
`some (Except.error msg)` for `fatal(msg)`, or in `none` when an assertion aborts
it or a call does not return. The random source is taken to open and close
without error, and the texts for `stderr` are left out. -/

/-- The options set by `getopt` in `main`. -/
structure Opts where
  opt_hex : Bool
  opt_diffusion : Bool
  opt_security : Nat
  opt_threshold : Int
  opt_number : Int
  opt_token : Option (List Char)

/-- The security level that `split` uses for the secret `buf`: the option when it
is non-zero, else `4 * ((strlen(buf) + 1) & ~1)` in hex mode and `8 * strlen(buf)`
in text mode (`size_t` has 64 bits, the result is cast to `unsigned int`), which has
to be a valid field size. -/
def split_security (opt_hex : Bool) (opt_security : Nat) (buf : List Char) :
    Except String Nat :=
  if opt_security = 0 then
    let sec :=
      (if opt_hex then 4 * ((buf.length + 1) &&& (2 ^ 64 - 2)) else 8 * buf.length) % 2 ^ 32
    if field_size_valid sec then Except.ok sec
    else Except.error "security level invalid (secret too long?)"
  else Except.ok opt_security

/-- The loop `for(i = 1; i < opt_threshold; i++)` of `split` that reads the
coefficients from the random source: `c` coefficients remain and `coeff` holds the
coefficients so far. -/
def split_read_coeff (F : FieldCtx) :
    Nat → List ReadResult → List Nat → Option (Except String (List Nat))
  | 0, _, coeff => some (Except.ok coeff)
  | c + 1, reads, coeff =>
    match cprng_read F reads with
    | none => none
    | some (Except.error e, _) => some (Except.error e)
    | some (Except.ok x, rest) => split_read_coeff F c rest (coeff ++ [x])

/-- The part of `split` after the import of the secret `c0` into `coeff[0]`: the
diffusion layer, the coefficients from the random source and the lines of the
shares. -/
def split_shares (o : Opts) (F : FieldCtx) (c0 : Nat) (reads : List ReadResult) :
    Option (Except String (List (List Char))) :=
  match (if o.opt_diffusion = true ∧ 64 ≤ F.degree then encode_mpz F c0 encdec.ENCODE
         else some c0) with
  | none => none
  | some c0 =>
    match split_read_coeff F (o.opt_threshold.toNat - 1) reads [c0] with
    | none => none
    | some (Except.error e) => some (Except.error e)
    | some (Except.ok coeff) =>
      some (Except.ok (split_lines F o.opt_token o.opt_threshold.toNat
        o.opt_number.toNat (fun k => coeff.getD k 0)))

/-- The function `split` from the call of `fgets`, whose result is `line` (`none`
for the null pointer): the lines of the shares. -/
def split (o : Opts) (line : Option (List Char)) (reads : List ReadResult) :
    Option (Except String (List (List Char))) :=
  match line with
  | none => some (Except.error "I/O error while reading secret")
  | some buf =>
    let buf := cut_line buf
    match split_security o.opt_hex o.opt_security buf with
    | Except.error e => some (Except.error e)
    | Except.ok sec =>
      if field_size_valid sec then
        let F := field_init sec
        match field_import F buf o.opt_hex with
        | Except.error e => some (Except.error e)
        | Except.ok c0 => split_shares o F c0 reads
      else none

/-- The branch of `main` for `ssss-split` after the options are read: the checks
of the parameters, then `split`. -/
def main_split (o : Opts) (line : Option (List Char)) (reads : List ReadResult) :
    Option (Except String (List (List Char))) :=
  if o.opt_threshold < 2 then
    some (Except.error "invalid parameters: invalid threshold value")
  else if o.opt_number < o.opt_threshold then
    some (Except.error "invalid parameters: number of shares smaller than threshold")
  else if o.opt_security ≠ 0 ∧ field_size_valid o.opt_security = false then
    some (Except.error "invalid parameters: invalid security level")
  else if (match o.opt_token with
      | some t => decide (t.length > MAXTOKENLEN)
      | none => false) = true then
    some (Except.error "invalid parameters: token too long")
  else split o line reads

/-- GMP `mpz_set_ui(x, j)` for an `int j`: the argument is converted to
`unsigned long`, which has 64 bits. -/
def mpz_set_ui_int (j : Int) : Nat := (j % 2 ^ 64).toNat

/-- The share loop `for (i = 0; i < opt_threshold; i++)` of `combine` on the texts
that the calls of `fgets` return (`none` for the null pointer, also when there is no
text left): `c` shares remain from share `i`, and `s` is 0 before the first share
and the field size after it. The import of the value, which can end in a fatal
error, stands before the writes to `A` here, which changes no result. -/
def combine_loop (T : Nat) :
    Nat → Nat → Nat → List (Option (List Char)) → Mat × Vec → Except String (Nat × Mat × Vec)
  | 0, _, s, _, st => Except.ok (s, st)
  | c + 1, i, s, lines, st =>
    match lines.head? with
    | none => Except.error "I/O error while reading shares"
    | some none => Except.error "I/O error while reading shares"
    | some (some buf) =>
      match combine_parse s buf with
      | Except.error e => Except.error e
      | Except.ok (s, j, b) =>
        let F := field_init s
        match field_import F b true with
        | Except.error e => Except.error e
        | Except.ok yv =>
          combine_loop T c (i + 1) s lines.tail (combine_share F T i (mpz_set_ui_int j) yv st)

/-- The function `combine`: the share loop, `restore_secret` (whose call of
`field_invert` is given `fuel` iterations), the diffusion layer and the text of the
secret. -/
def combine (o : Opts) (fuel : Nat) (lines : List (Option (List Char))) :
    Option (Except String (List Char)) :=
  match combine_loop o.opt_threshold.toNat o.opt_threshold.toNat 0 0 lines
      (fun _ _ => 0, fun _ => 0) with
  | Except.error e => some (Except.error e)
  | Except.ok (s, A, y) =>
    let F := field_init s
    match restore_secret F fuel o.opt_threshold.toNat A y with
    | RestoreResult.returned_false =>
      some (Except.error "shares inconsistent. Perhaps a single share was used twice")
    | RestoreResult.no_return => none
    | RestoreResult.returned_true _ y =>
      match (if o.opt_diffusion = true ∧ 64 ≤ F.degree then
          encode_mpz F (y (o.opt_threshold.toNat - 1)) encdec.DECODE
        else some (y (o.opt_threshold.toNat - 1))) with
      | none => none
      | some x => some (Except.ok (field_print F x o.opt_hex))

/-- The branch of `main` for `ssss-combine` after the options are read. -/
def main_combine (o : Opts) (fuel : Nat) (lines : List (Option (List Char))) :
    Option (Except String (List Char)) :=
  if o.opt_threshold < 2 then
    some (Except.error "invalid parameters: invalid threshold value")
  else combine o fuel lines

/-! ## Notions used by the statements -/

/-- The number of set bits of `p`. -/
def bit_count (p : Nat) : Nat :=
  (List.range (mpz_sizeinbits p)).countP (fun i => mpz_tstbit p i)

/-- The part of the loop invariant of `restore_secret` before pivot `i` that holds
for every system with a solution `U`: the live entries are reduced and every live
column is an equation that `U` satisfies. -/
structure SolInv (F : FieldCtx) (n i : Nat) (U : Nat → AdjoinRoot (toPoly F.poly))
    (A : Mat) (b : Vec) : Prop where
  range : ∀ r c, i ≤ r → r < n → i ≤ c → c < n → A r c < 2 ^ F.degree
  brange : ∀ c, i ≤ c → c < n → b c < 2 ^ F.degree
  sol : ∀ c, i ≤ c → c < n →
    ∑ r in Finset.Ico i n, toField F (A r c) * U r = toField F (b c)

open Polynomial


/-! ## Bit fields and GF(2)[X] -/

theorem sizeinbase2_aux_eq_size (fuel a : Nat) (h : a ≤ fuel) :
    mpz_sizeinbase2_aux fuel a = Nat.size a := by
  induction fuel generalizing a with
  | zero =>
    have : a = 0 := by omega
    subst this
    simp [mpz_sizeinbase2_aux]
  | succ f ih =>
    unfold mpz_sizeinbase2_aux
    by_cases ha : a = 0
    · simp [ha]
    · rw [if_neg ha, ih (a / 2) (by omega)]
      have hb : Nat.bit (a.bodd) (a / 2) = a := by
        rw [← Nat.div2_val]; exact Nat.bit_decomp a
      have h2 : Nat.size (Nat.bit (a.bodd) (a / 2)) = (Nat.size (a / 2)).succ :=
        Nat.size_bit (by rw [hb]; exact ha)
      rw [hb] at h2
      exact h2.symm

theorem sizeinbits_eq_size (a : Nat) : mpz_sizeinbits a = Nat.size a :=
  sizeinbase2_aux_eq_size a a le_rfl

theorem coeff_toPoly (n i : Nat) :
    (toPoly n).coeff i = if n.testBit i then 1 else 0 := by
  unfold toPoly
  rw [finset_sum_coeff]
  have h1 : ∀ b ∈ Finset.range n,
      (if n.testBit b then (X : (ZMod 2)[X]) ^ b else 0).coeff i
        = if i = b then (if n.testBit b then 1 else 0) else 0 := by
    intro b _
    by_cases hb : n.testBit b <;> simp [hb, coeff_X_pow]
  rw [Finset.sum_congr rfl h1, Finset.sum_ite_eq]
  by_cases hi : i ∈ Finset.range n
  · simp [hi]
  · rw [if_neg hi]
    have : n.testBit i = false := by
      apply Nat.testBit_lt_two_pow
      have : n ≤ i := by simpa using hi
      exact lt_of_le_of_lt this (Nat.lt_two_pow i)
    simp [this]

theorem toPoly_zero : toPoly 0 = 0 := by
  ext i; simp [coeff_toPoly]

theorem toPoly_xor (a b : Nat) : toPoly (a ^^^ b) = toPoly a + toPoly b := by
  ext i
  simp only [coeff_toPoly, coeff_add, Nat.testBit_xor]
  cases a.testBit i <;> cases b.testBit i <;> simp
  decide

theorem toPoly_shiftLeft (a k : Nat) : toPoly (a <<< k) = X ^ k * toPoly a := by
  ext i
  simp only [coeff_toPoly, coeff_X_pow_mul', Nat.testBit_shiftLeft]
  by_cases h : k ≤ i <;> simp [h]

theorem toPoly_two_pow (k : Nat) : toPoly (2 ^ k) = X ^ k := by
  ext i
  simp only [coeff_toPoly, coeff_X_pow, Nat.testBit_two_pow]
  by_cases h : k = i <;> simp [h, eq_comm]

theorem toPoly_one : toPoly 1 = 1 := by
  simpa using toPoly_two_pow 0

theorem toPoly_inj {a b : Nat} (h : toPoly a = toPoly b) : a = b := by
  apply Nat.eq_of_testBit_eq
  intro i
  have := congrArg (fun p => p.coeff i) h
  simp only [coeff_toPoly] at this
  cases ha : a.testBit i <;> cases hb : b.testBit i <;> simp [ha, hb] at this <;> rfl

theorem toPoly_eq_zero {a : Nat} : toPoly a = 0 ↔ a = 0 := by
  constructor
  · intro h; exact toPoly_inj (h.trans toPoly_zero.symm)
  · rintro rfl; exact toPoly_zero

theorem degree_toPoly_lt {a k : Nat} : (toPoly a).degree < k ↔ a < 2 ^ k := by
  rw [degree_lt_iff_coeff_zero]
  constructor
  · intro h
    apply Nat.lt_pow_two_of_testBit
    intro i hi
    have := h i hi
    rw [coeff_toPoly] at this
    cases hb : a.testBit i
    · rfl
    · simp [hb] at this
  · intro h m hm
    rw [coeff_toPoly]
    have : a.testBit m = false :=
      Nat.testBit_lt_two_pow (lt_of_lt_of_le h (Nat.pow_le_pow_right (by norm_num) hm))
    simp [this]

theorem toPoly_surj (p : (ZMod 2)[X]) : ∃ a : Nat, toPoly a = p := by
  induction p using Polynomial.induction_on' with
  | h_add p q hp hq =>
    obtain ⟨a, rfl⟩ := hp
    obtain ⟨b, rfl⟩ := hq
    exact ⟨a ^^^ b, toPoly_xor a b⟩
  | h_monomial n c =>
    have hc : c = 0 ∨ c = 1 := by
      revert c; decide
    rcases hc with rfl | rfl
    · exact ⟨0, by simp [toPoly_zero]⟩
    · exact ⟨2 ^ n, by rw [toPoly_two_pow, ← monomial_one_right_eq_X_pow]⟩

theorem toField_xor (F : FieldCtx) (a b : Nat) :
    toField F (a ^^^ b) = toField F a + toField F b := by
  simp [toField, toPoly_xor]

theorem toField_zero (F : FieldCtx) : toField F 0 = 0 := by
  simp [toField, toPoly_zero]

theorem toField_one (F : FieldCtx) : toField F 1 = 1 := by
  simp [toField, toPoly_one]

theorem toField_poly (F : FieldCtx) : toField F F.poly = 0 := by
  simp [toField]

theorem toField_shiftLeft (F : FieldCtx) (a k : Nat) :
    toField F (a <<< k) = AdjoinRoot.root (toPoly F.poly) ^ k * toField F a := by
  simp [toField, toPoly_shiftLeft]

theorem toField_add_self (F : FieldCtx) (a : AdjoinRoot (toPoly F.poly)) : a + a = 0 := by
  obtain ⟨p, rfl⟩ := AdjoinRoot.mk_surjective a
  rw [← map_add]
  have : p + p = 0 := by
    ext i
    have h : ∀ c : ZMod 2, c + c = 0 := by decide
    simp [h]
  rw [this, map_zero]

theorem degree_toPoly_poly {F : FieldCtx} (h : PolyOK F) :
    (toPoly F.poly).degree = F.degree := by
  apply le_antisymm
  · rw [degree_le_iff_coeff_zero]
    intro m hm
    have hm' : F.degree + 1 ≤ m := by exact_mod_cast hm
    exact (degree_lt_iff_coeff_zero _ _).mp (degree_toPoly_lt.mpr h.2.2) m hm'
  · by_contra hlt
    have : F.poly < 2 ^ F.degree := degree_toPoly_lt.mp (not_le.mp hlt)
    have := h.2.1
    omega

theorem toPoly_poly_ne_zero {F : FieldCtx} (h : PolyOK F) : toPoly F.poly ≠ 0 := by
  intro h0
  have := toPoly_eq_zero.mp h0
  have := h.2.1
  have : 0 < 2 ^ F.degree := Nat.two_pow_pos _
  omega

/-- Two bit fields below `2^degree` in the same class modulo the field polynomial
are equal. -/
theorem toField_inj {F : FieldCtx} (h : PolyOK F) {a b : Nat}
    (ha : a < 2 ^ F.degree) (hb : b < 2 ^ F.degree)
    (hab : toField F a = toField F b) : a = b := by
  have hd : toPoly F.poly ∣ toPoly a - toPoly b := AdjoinRoot.mk_eq_mk.mp hab
  have hx : toPoly a - toPoly b = toPoly (a ^^^ b) := by
    rw [toPoly_xor]
    have : toPoly b + toPoly b = 0 := by
      have := toPoly_xor b b
      rw [Nat.xor_self, toPoly_zero] at this
      exact this.symm
    linear_combination (-1 : (ZMod 2)[X]) * this
  rw [hx] at hd
  have hlt : a ^^^ b < 2 ^ F.degree := Nat.xor_lt_two_pow ha hb
  have h0 : toPoly (a ^^^ b) = 0 := by
    apply eq_zero_of_dvd_of_degree_lt hd
    rw [degree_toPoly_poly h]
    exact degree_toPoly_lt.mpr hlt
  have := toPoly_eq_zero.mp h0
  exact Nat.xor_eq_zero.mp this

theorem toField_eq_zero {F : FieldCtx} (h : PolyOK F) {a : Nat}
    (ha : a < 2 ^ F.degree) : toField F a = 0 ↔ a = 0 := by
  constructor
  · intro h0
    exact toField_inj h ha (Nat.two_pow_pos _) (h0.trans (toField_zero F).symm)
  · rintro rfl; exact toField_zero F

/-! ## `field_mult` multiplies modulo the field polynomial -/

/-- One shift-and-reduce step of `field_mult` keeps `b` below `2^degree` and
multiplies its class by `X`. -/
theorem reduce_step {F : FieldCtx} (h : PolyOK F) {b : Nat} (hb : b < 2 ^ F.degree) :
    (if mpz_tstbit (b <<< 1) F.degree then (b <<< 1) ^^^ F.poly else b <<< 1) < 2 ^ F.degree ∧
    toField F (if mpz_tstbit (b <<< 1) F.degree then (b <<< 1) ^^^ F.poly else b <<< 1)
      = AdjoinRoot.root (toPoly F.poly) * toField F b := by
  have hb1 : b <<< 1 < 2 ^ (F.degree + 1) := by
    rw [Nat.shiftLeft_eq, pow_succ]; omega
  have hpn : F.poly.testBit F.degree = true := by
    by_contra hc
    have hf : F.poly.testBit F.degree = false := by simpa using hc
    have : F.poly < 2 ^ F.degree := by
      apply Nat.lt_pow_two_of_testBit
      intro i hi
      rcases Nat.eq_or_lt_of_le hi with rfl | hlt
      · exact hf
      · exact Nat.testBit_lt_two_pow
          (lt_of_lt_of_le h.2.2 (Nat.pow_le_pow_right (by norm_num) hlt))
    have := h.2.1
    omega
  unfold mpz_tstbit
  by_cases ht : (b <<< 1).testBit F.degree = true
  · rw [if_pos ht]
    constructor
    · apply Nat.lt_pow_two_of_testBit
      intro i hi
      rw [Nat.testBit_xor]
      rcases Nat.eq_or_lt_of_le hi with rfl | hlt
      · rw [ht, hpn]; rfl
      · have hle : 2 ^ (F.degree + 1) ≤ 2 ^ i := Nat.pow_le_pow_right (by norm_num) hlt
        rw [Nat.testBit_lt_two_pow (lt_of_lt_of_le hb1 hle),
          Nat.testBit_lt_two_pow (lt_of_lt_of_le h.2.2 hle)]
        rfl
    · rw [toField_xor, toField_poly, add_zero, toField_shiftLeft, pow_one]
  · rw [if_neg ht]
    have hf : (b <<< 1).testBit F.degree = false := by simpa using ht
    constructor
    · apply Nat.lt_pow_two_of_testBit
      intro i hi
      rcases Nat.eq_or_lt_of_le hi with rfl | hlt
      · exact hf
      · exact Nat.testBit_lt_two_pow
          (lt_of_lt_of_le hb1 (Nat.pow_le_pow_right (by norm_num) hlt))
    · rw [toField_shiftLeft, pow_one]

theorem toPoly_mod_two_pow_succ (y i : Nat) :
    toPoly (y % 2 ^ (i + 1)) = toPoly (y % 2 ^ i) + (if y.testBit i then X ^ i else 0) := by
  ext j
  simp only [coeff_add, coeff_toPoly, Nat.testBit_mod_two_pow]
  by_cases hji : j = i
  · subst hji
    cases hy : y.testBit j <;> simp [hy, coeff_X_pow]
  · by_cases hlt : j < i
    · have : j < i + 1 := by omega
      cases hy : y.testBit i <;> simp [hlt, this, hji, coeff_X_pow]
    · have : ¬ j < i + 1 := by omega
      cases hy : y.testBit i <;> simp [hlt, this, hji, coeff_X_pow]

theorem field_mult_loop_spec {F : FieldCtx} (h : PolyOK F) (x y : Nat) :
    ∀ (k i b z : Nat), b < 2 ^ F.degree → z < 2 ^ F.degree →
      toField F b = AdjoinRoot.root (toPoly F.poly) ^ (i - 1) * toField F x →
      1 ≤ i →
      toField F z = toField F x * toField F (y % 2 ^ i) →
      field_mult_loop F y k i b z < 2 ^ F.degree ∧
      toField F (field_mult_loop F y k i b z) = toField F x * toField F (y % 2 ^ (i + k)) := by
  intro k
  induction k with
  | zero =>
    intro i b z _ hz _ _ hzv
    exact ⟨hz, by simpa [field_mult_loop] using hzv⟩
  | succ k ih =>
    intro i b z hb hz hbv hi hzv
    obtain ⟨hb', hbv'⟩ := reduce_step h hb
    simp only [field_mult_loop]
    generalize (if mpz_tstbit (b <<< 1) F.degree then (b <<< 1) ^^^ F.poly else b <<< 1) = b'
      at hb' hbv' ⊢
    have hbv2 : toField F b' = AdjoinRoot.root (toPoly F.poly) ^ (i + 1 - 1) * toField F x := by
      rw [hbv', hbv, ← mul_assoc, ← pow_succ']
      congr 2
      omega
    have hsplit : toField F (y % 2 ^ (i + 1))
        = toField F (y % 2 ^ i)
          + (if mpz_tstbit y i then AdjoinRoot.root (toPoly F.poly) ^ i else 0) := by
      unfold toField mpz_tstbit
      rw [toPoly_mod_two_pow_succ, map_add]
      congr 1
      split <;> simp
    have hz' : (if mpz_tstbit y i then z ^^^ b' else z) < 2 ^ F.degree := by
      split <;> [exact Nat.xor_lt_two_pow hz hb'; exact hz]
    have hzv' : toField F (if mpz_tstbit y i then z ^^^ b' else z)
        = toField F x * toField F (y % 2 ^ (i + 1)) := by
      rw [hsplit]
      by_cases hy : mpz_tstbit y i = true
      · rw [if_pos hy, if_pos hy, toField_xor, hzv, hbv2]
        simp only [Nat.add_sub_cancel]
        ring
      · rw [if_neg hy, if_neg hy, hzv]
        simp
    have key := ih (i + 1) b' (if mpz_tstbit y i then z ^^^ b' else z)
      hb' hz' hbv2 (by omega) hzv'
    have e : i + 1 + k = i + (k + 1) := by omega
    rw [e] at key
    exact key

theorem toPoly_mod_two (y : Nat) : toPoly (y % 2 ^ 1) = if y.testBit 0 then 1 else 0 := by
  have := toPoly_mod_two_pow_succ y 0
  simpa [toPoly_zero, Nat.mod_one] using this

/-- The result of `field_mult` is reduced, and its class is the product of the
classes of the operands. -/
theorem field_mult_spec {F : FieldCtx} (h : PolyOK F) {x y : Nat}
    (hx : x < 2 ^ F.degree) (hy : y < 2 ^ F.degree) :
    field_mult F x y < 2 ^ F.degree ∧
    toField F (field_mult F x y) = toField F x * toField F y := by
  unfold field_mult
  have hz : (if mpz_tstbit y 0 then x else 0) < 2 ^ F.degree := by
    split <;> [exact hx; exact Nat.two_pow_pos _]
  have key := field_mult_loop_spec h x y (F.degree - 1) 1 x
    (if mpz_tstbit y 0 then x else 0) hx hz (by simp) le_rfl
    (by
      unfold toField mpz_tstbit
      rw [toPoly_mod_two]
      by_cases hy0 : y.testBit 0 = true
      · simp [hy0]
      · simp [hy0, toPoly_zero])
  have e : 1 + (F.degree - 1) = F.degree := by have := h.1; omega
  rw [e, Nat.mod_eq_of_lt hy] at key
  exact key

theorem field_mult_lt {F : FieldCtx} (h : PolyOK F) {x y : Nat}
    (hx : x < 2 ^ F.degree) (hy : y < 2 ^ F.degree) : field_mult F x y < 2 ^ F.degree :=
  (field_mult_spec h hx hy).1

theorem toField_mult {F : FieldCtx} (h : PolyOK F) {x y : Nat}
    (hx : x < 2 ^ F.degree) (hy : y < 2 ^ F.degree) :
    toField F (field_mult F x y) = toField F x * toField F y :=
  (field_mult_spec h hx hy).2

/-! ## The context built by `field_init` -/

theorem irred_coeff_lt : ∀ k, k < 128 → ∀ j, j < 3 →
    irred_coeff.getD (3 * k + j) 0 < 8 * (k + 1) := by
  decide

theorem field_size_valid_iff (deg : Nat) :
    field_size_valid deg = true ↔ 8 ≤ deg ∧ deg ≤ 1024 ∧ deg % 8 = 0 := by
  simp [field_size_valid, MAXDEGREE, and_assoc]

theorem testBit_top {a k : Nat} (h1 : 2 ^ k ≤ a) (h2 : a < 2 ^ (k + 1)) :
    a.testBit k = true := by
  by_contra hc
  have hf : a.testBit k = false := by simpa using hc
  have : a < 2 ^ k := by
    apply Nat.lt_pow_two_of_testBit
    intro i hi
    rcases Nat.eq_or_lt_of_le hi with rfl | hlt
    · exact hf
    · exact Nat.testBit_lt_two_pow
        (lt_of_lt_of_le h2 (Nat.pow_le_pow_right (by norm_num) hlt))
  omega

theorem field_init_degree (deg : Nat) : (field_init deg).degree = deg := rfl

theorem field_init_ok {deg : Nat} (hv : field_size_valid deg = true) :
    PolyOK (field_init deg) := by
  rw [field_size_valid_iff] at hv
  obtain ⟨h8, h1024, hmod⟩ := hv
  have hk : deg / 8 - 1 < 128 := by omega
  have hdeg : 8 * (deg / 8 - 1 + 1) = deg := by omega
  have ha := irred_coeff_lt _ hk 0 (by norm_num)
  have hb := irred_coeff_lt _ hk 1 (by norm_num)
  have hc := irred_coeff_lt _ hk 2 (by norm_num)
  rw [hdeg] at ha hb hc
  refine ⟨by simp [field_init]; omega, ?_, ?_⟩
  · apply Nat.testBit_implies_ge
    simp [field_init, mpz_setbit, Nat.testBit_or, Nat.testBit_two_pow]
  · apply Nat.lt_pow_two_of_testBit
    intro i hi
    simp only [field_init, mpz_setbit, Nat.testBit_or, Nat.testBit_two_pow, Nat.zero_testBit,
      Bool.false_or, Bool.or_eq_false_iff, decide_eq_false_iff_not]
    simp only [field_init] at hi
    refine ⟨⟨⟨⟨?_, ?_⟩, ?_⟩, ?_⟩, ?_⟩ <;> omega

/-! ## Carry-less product and remainder -/

theorem mod_two_pow_size (b : Nat) : b % 2 ^ mpz_sizeinbits b = b := by
  rw [sizeinbits_eq_size]
  exact Nat.mod_eq_of_lt (Nat.lt_size_self b)

theorem toPoly_clmul_aux (a b k : Nat) :
    toPoly (clmul_aux a b k) = toPoly a * toPoly (b % 2 ^ k) := by
  induction k with
  | zero => simp [clmul_aux, Nat.mod_one, toPoly_zero]
  | succ k ih =>
    rw [clmul_aux, toPoly_xor, ih, toPoly_mod_two_pow_succ]
    by_cases hb : b.testBit k = true
    · rw [if_pos hb, if_pos hb, toPoly_shiftLeft]; ring
    · rw [if_neg hb, if_neg hb, toPoly_zero]; ring

theorem toPoly_clmul (a b : Nat) : toPoly (clmul a b) = toPoly a * toPoly b := by
  rw [clmul, toPoly_clmul_aux, mod_two_pow_size]

theorem clmul_comm (a b : Nat) : clmul a b = clmul b a :=
  toPoly_inj (by rw [toPoly_clmul, toPoly_clmul, mul_comm])

theorem xor_lt_of_top {a w k : Nat} (ha1 : 2 ^ k ≤ a) (ha2 : a < 2 ^ (k + 1))
    (hw1 : 2 ^ k ≤ w) (hw2 : w < 2 ^ (k + 1)) : a ^^^ w < 2 ^ k := by
  apply Nat.lt_pow_two_of_testBit
  intro i hi
  rw [Nat.testBit_xor]
  rcases Nat.eq_or_lt_of_le hi with rfl | hlt
  · rw [testBit_top ha1 ha2, testBit_top hw1 hw2]; rfl
  · have hle : 2 ^ (k + 1) ≤ 2 ^ i := Nat.pow_le_pow_right (by norm_num) hlt
    rw [Nat.testBit_lt_two_pow (lt_of_lt_of_le ha2 hle),
      Nat.testBit_lt_two_pow (lt_of_lt_of_le hw2 hle)]
    rfl

theorem size_bounds {a : Nat} (ha : a ≠ 0) :
    2 ^ (Nat.size a - 1) ≤ a ∧ a < 2 ^ (Nat.size a - 1 + 1) := by
  have hpos : 0 < Nat.size a := Nat.size_pos.mpr (Nat.pos_of_ne_zero ha)
  constructor
  · exact Nat.lt_size.mp (by omega)
  · have : Nat.size a - 1 + 1 = Nat.size a := by omega
    rw [this]; exact Nat.lt_size_self a

/-- Cancelling the leading bit: when `a` and `w` have the same bit length, their
xor is shorter. -/
theorem size_xor_lt {a w : Nat} (ha : a ≠ 0) (hs : Nat.size a = Nat.size w) :
    Nat.size (a ^^^ w) < Nat.size a := by
  have hpos : 0 < Nat.size a := Nat.size_pos.mpr (Nat.pos_of_ne_zero ha)
  have hw : w ≠ 0 := by
    intro h0; rw [h0, Nat.size_zero] at hs; omega
  obtain ⟨a1, a2⟩ := size_bounds ha
  obtain ⟨w1, w2⟩ := size_bounds hw
  rw [← hs] at w1 w2
  have := xor_lt_of_top a1 a2 w1 w2
  have : Nat.size (a ^^^ w) ≤ Nat.size a - 1 := Nat.size_le.mpr this
  omega

theorem polymod_aux_spec {p : Nat} (hp : p ≠ 0) :
    ∀ (fuel a : Nat), Nat.size a ≤ fuel + Nat.size p - 1 →
      Nat.size (polymod_aux p fuel a) < Nat.size p ∧
      ∃ q, toPoly (polymod_aux p fuel a) = toPoly a + toPoly p * q := by
  have hpp : 0 < Nat.size p := Nat.size_pos.mpr (Nat.pos_of_ne_zero hp)
  intro fuel
  induction fuel with
  | zero =>
    intro a ha
    exact ⟨by simp only [polymod_aux]; omega, 0, by simp [polymod_aux]⟩
  | succ f ih =>
    intro a ha
    rw [polymod_aux, sizeinbits_eq_size, sizeinbits_eq_size]
    by_cases hlt : Nat.size a < Nat.size p
    · rw [if_pos hlt]
      exact ⟨hlt, 0, by simp⟩
    · rw [if_neg hlt]
      have ha0 : a ≠ 0 := by
        intro h0; rw [h0, Nat.size_zero] at hlt; omega
      have hs : Nat.size a = Nat.size (p <<< (Nat.size a - Nat.size p)) := by
        rw [Nat.size_shiftLeft hp]; omega
      have hdec := size_xor_lt ha0 hs
      obtain ⟨h1, q, hq⟩ := ih (a ^^^ (p <<< (Nat.size a - Nat.size p))) (by omega)
      refine ⟨h1, q + X ^ (Nat.size a - Nat.size p), ?_⟩
      rw [hq, toPoly_xor, toPoly_shiftLeft]
      ring

theorem polymod_spec {p : Nat} (hp : p ≠ 0) (a : Nat) :
    Nat.size (polymod a p) < Nat.size p ∧
    ∃ q, toPoly (polymod a p) = toPoly a + toPoly p * q := by
  have hpp : 0 < Nat.size p := Nat.size_pos.mpr (Nat.pos_of_ne_zero hp)
  apply polymod_aux_spec hp
  rw [sizeinbits_eq_size]; omega

theorem size_poly {F : FieldCtx} (h : PolyOK F) : Nat.size F.poly = F.degree + 1 := by
  apply le_antisymm
  · exact Nat.size_le.mpr h.2.2
  · exact Nat.lt_size.mpr h.2.1

theorem poly_ne_zero {F : FieldCtx} (h : PolyOK F) : F.poly ≠ 0 := by
  have := h.2.1
  have : 0 < 2 ^ F.degree := Nat.two_pow_pos _
  omega

theorem polymod_lt {F : FieldCtx} (h : PolyOK F) (a : Nat) :
    polymod a F.poly < 2 ^ F.degree := by
  have := (polymod_spec (poly_ne_zero h) a).1
  rw [size_poly h] at this
  exact Nat.size_le.mp (by omega)

theorem toField_polymod {F : FieldCtx} (h : PolyOK F) (a : Nat) :
    toField F (polymod a F.poly) = toField F a := by
  obtain ⟨q, hq⟩ := (polymod_spec (poly_ne_zero h) a).2
  unfold toField
  rw [hq, map_add, map_mul, AdjoinRoot.mk_self, zero_mul, add_zero]

theorem field_mult_eq_polymod {F : FieldCtx} (h : PolyOK F) {x y : Nat}
    (hx : x < 2 ^ F.degree) (hy : y < 2 ^ F.degree) :
    field_mult F x y = polymod (clmul x y) F.poly := by
  apply toField_inj h (field_mult_lt h hx hy) (polymod_lt h _)
  rw [toField_mult h hx hy, toField_polymod h]
  unfold toField
  rw [toPoly_clmul, map_mul]

/-! ## Irreducibility -/

theorem natDegree_toPoly {a : Nat} (ha : a ≠ 0) : (toPoly a).natDegree = Nat.size a - 1 := by
  have hne : toPoly a ≠ 0 := fun h => ha (toPoly_eq_zero.mp h)
  have hpos : 0 < Nat.size a := Nat.size_pos.mpr (Nat.pos_of_ne_zero ha)
  have key : ∀ k, (toPoly a).natDegree < k ↔ Nat.size a ≤ k := by
    intro k
    rw [natDegree_lt_iff_degree_lt hne, degree_toPoly_lt, Nat.size_le]
  have h1 := (key (Nat.size a)).mpr le_rfl
  have h2 : ¬ (toPoly a).natDegree < Nat.size a - 1 := by
    rw [key]; omega
  omega

theorem not_isUnit_toPoly {a : Nat} (ha : 2 ≤ a) : ¬ IsUnit (toPoly a) := by
  intro hu
  have h0 := natDegree_eq_zero_of_isUnit hu
  rw [natDegree_toPoly (by omega)] at h0
  have : 2 ≤ Nat.size a := Nat.lt_size.mpr (by simpa using ha)
  omega

theorem irreducible_toPoly {p : Nat} (h : GF2Irreducible p) : Irreducible (toPoly p) := by
  rw [irreducible_iff]
  refine ⟨not_isUnit_toPoly h.1, ?_⟩
  intro f g hfg
  obtain ⟨a, rfl⟩ := toPoly_surj f
  obtain ⟨b, rfl⟩ := toPoly_surj g
  rw [← toPoly_clmul] at hfg
  have hp : clmul a b = p := (toPoly_inj hfg).symm
  have hpne : toPoly p ≠ 0 := fun h0 => by
    have := toPoly_eq_zero.mp h0
    have := h.1
    omega
  have hane : a ≠ 0 := by
    rintro rfl
    apply hpne
    rw [← hp, toPoly_clmul, toPoly_zero, zero_mul]
  have hbne : b ≠ 0 := by
    rintro rfl
    apply hpne
    rw [← hp, toPoly_clmul, toPoly_zero, mul_zero]
  by_cases ha : 2 ≤ a
  · by_cases hb : 2 ≤ b
    · exact absurd hp (h.2 a b ha hb)
    · right
      have : b = 1 := by omega
      rw [this, toPoly_one]; exact isUnit_one
  · left
    have : a = 1 := by omega
    rw [this, toPoly_one]; exact isUnit_one

/-- A polynomial is irreducible when no polynomial of positive degree at most
half its own divides it. -/
theorem gf2Irreducible_of_no_small_divisor {p : Nat} (hp : 2 ≤ p)
    (h : ∀ a, 2 ≤ a → a < 2 ^ ((Nat.size p - 1) / 2 + 1) → polymod p a ≠ 0) :
    GF2Irreducible p := by
  refine ⟨hp, ?_⟩
  have key : ∀ a b, 2 ≤ a → 2 ≤ b → Nat.size a ≤ Nat.size b → clmul a b ≠ p := by
    intro a b ha hb hab hprod
    have hane : a ≠ 0 := by omega
    have hbne : b ≠ 0 := by omega
    have hpne : p ≠ 0 := by omega
    have hdeg : (toPoly p).natDegree = (toPoly a).natDegree + (toPoly b).natDegree := by
      rw [← hprod, toPoly_clmul]
      exact natDegree_mul (fun h0 => hane (toPoly_eq_zero.mp h0))
        (fun h0 => hbne (toPoly_eq_zero.mp h0))
    rw [natDegree_toPoly hane, natDegree_toPoly hbne, natDegree_toPoly hpne] at hdeg
    have hsa : 2 ≤ Nat.size a := Nat.lt_size.mpr (by simpa using ha)
    have hsmall : a < 2 ^ ((Nat.size p - 1) / 2 + 1) := by
      apply Nat.size_le.mp
      omega
    apply h a ha hsmall
    obtain ⟨hr, q, hq⟩ := polymod_spec hane p
    apply toPoly_eq_zero.mp
    have hdvd : toPoly a ∣ toPoly (polymod p a) := by
      rw [hq, ← hprod, toPoly_clmul]
      exact dvd_add (dvd_mul_right _ _) (dvd_mul_right _ _)
    apply eq_zero_of_dvd_of_degree_lt hdvd
    have hlt : polymod p a < 2 ^ (Nat.size a - 1) := Nat.size_le.mp (by omega)
    have := degree_toPoly_lt.mpr hlt
    refine lt_of_lt_of_le this ?_
    rw [← natDegree_toPoly hane]
    exact le_of_eq (degree_eq_natDegree (fun h0 => hane (toPoly_eq_zero.mp h0))).symm
  intro a b ha hb
  rcases le_total (Nat.size a) (Nat.size b) with hab | hab
  · exact key a b ha hb hab
  · rw [clmul_comm]; exact key b a hb ha hab

theorem size_283 : Nat.size 283 = 9 := by
  rw [← sizeinbits_eq_size]; decide

/-- The polynomial `x^8 + x^4 + x^3 + x + 1` of the 8-bit field is irreducible. -/
theorem gf2Irreducible_deg8 : GF2Irreducible (field_init 8).poly := by
  have hp : (field_init 8).poly = 283 := by decide
  rw [hp]
  apply gf2Irreducible_of_no_small_divisor (by norm_num)
  rw [size_283]
  have : ∀ a, a < 32 → 2 ≤ a → polymod 283 a ≠ 0 := by decide
  intro a h2 hlt
  exact this a (by simpa using hlt) h2

/-! ## `field_invert` -/

theorem size_xor_le (a b : Nat) : Nat.size (a ^^^ b) ≤ max (Nat.size a) (Nat.size b) := by
  apply Nat.size_le.mpr
  apply Nat.xor_lt_two_pow
  · exact lt_of_lt_of_le (Nat.lt_size_self a) (Nat.pow_le_pow_right (by norm_num) (le_max_left _ _))
  · exact lt_of_lt_of_le (Nat.lt_size_self b) (Nat.pow_le_pow_right (by norm_num) (le_max_right _ _))

theorem size_shiftLeft_le (g k : Nat) : Nat.size (g <<< k) ≤ Nat.size g + k := by
  by_cases hg : g = 0
  · subst hg; simp
  · rw [Nat.size_shiftLeft hg]

theorem InvertInv.u_ne_zero {F : FieldCtx} {x u v z g : Nat} (h : InvertInv F x u v z g) :
    u ≠ 0 := by
  rintro rfl
  have := h.cop
  rw [toPoly_zero, isCoprime_zero_left] at this
  exact not_isUnit_toPoly h.v2 this

/-- One reduction `u ^= v << k`, `z ^= g << k` with `k` the difference of the bit
lengths keeps the invariant and shortens `u`. -/
theorem InvertInv.step {F : FieldCtx} {x u v z g : Nat} (h : InvertInv F x u v z g)
    (hle : Nat.size v ≤ Nat.size u) :
    InvertInv F x (u ^^^ (v <<< (Nat.size u - Nat.size v))) v
      (z ^^^ (g <<< (Nat.size u - Nat.size v))) g ∧
    Nat.size (u ^^^ (v <<< (Nat.size u - Nat.size v))) < Nat.size u := by
  have hv0 : v ≠ 0 := by have := h.v2; omega
  have hs : Nat.size u = Nat.size (v <<< (Nat.size u - Nat.size v)) := by
    rw [Nat.size_shiftLeft hv0]; omega
  have hdec := size_xor_lt h.u_ne_zero hs
  refine ⟨⟨?_, h.gx, h.v2, ?_, ?_, ?_⟩, hdec⟩
  · rw [toField_xor, toField_xor, toField_shiftLeft, toField_shiftLeft, add_mul, h.zx,
      mul_assoc, h.gx]
  · rw [toPoly_xor, toPoly_shiftLeft]
    exact h.cop.add_mul_right_left _
  · have h1 := size_xor_le z (g <<< (Nat.size u - Nat.size v))
    have h2 := size_shiftLeft_le g (Nat.size u - Nat.size v)
    have h3 := h.szv
    have h4 := h.sgu
    rcases le_max_iff.mp h1 with h5 | h5 <;> omega
  · have := h.sgu
    omega

theorem InvertInv.swap {F : FieldCtx} {x u v z g : Nat} (h : InvertInv F x u v z g)
    (hu : u ≠ 1) : InvertInv F x v u g z :=
  ⟨h.gx, h.zx, by have := h.u_ne_zero; omega, h.cop.symm, h.sgu, h.szv⟩

theorem field_invert_loop_spec {F : FieldCtx} {x : Nat} :
    ∀ (fuel u v z g : Nat), InvertInv F x u v z g →
      Nat.size u + Nat.size v ≤ fuel + 2 →
      ∃ r, field_invert_loop fuel u v z g = some r ∧ r < 2 ^ F.degree ∧
        toField F r * toField F x = 1 := by
  intro fuel
  induction fuel with
  | zero =>
    intro u v z g h hm
    exfalso
    have h1 : 0 < Nat.size u := Nat.size_pos.mpr (Nat.pos_of_ne_zero h.u_ne_zero)
    have h2 : 2 ≤ Nat.size v := Nat.lt_size.mpr (by simpa using h.v2)
    omega
  | succ f ih =>
    intro u v z g h hm
    have hsv : 2 ≤ Nat.size v := Nat.lt_size.mpr (by simpa using h.v2)
    rw [field_invert_loop]
    by_cases hu : u = 1
    · rw [if_pos hu]
      refine ⟨z, rfl, ?_, ?_⟩
      · apply Nat.size_le.mp
        have := h.szv
        omega
      · rw [h.zx, hu, toField_one]
    · rw [if_neg hu]
      simp only [sizeinbits_eq_size]
      by_cases hlt : (Nat.size u : Int) - (Nat.size v : Int) < 0
      · rw [if_pos hlt]
        have hk : (-((Nat.size u : Int) - (Nat.size v : Int))).toNat
            = Nat.size v - Nat.size u := by omega
        rw [hk]
        obtain ⟨hinv, hdec⟩ := (h.swap hu).step (by omega)
        exact ih _ _ _ _ hinv (by omega)
      · rw [if_neg hlt]
        have hk : ((Nat.size u : Int) - (Nat.size v : Int)).toNat
            = Nat.size u - Nat.size v := by omega
        rw [hk]
        obtain ⟨hinv, hdec⟩ := h.step (by omega)
        exact ih _ _ _ _ hinv (by omega)

theorem isCoprime_of_lt {F : FieldCtx} (h : PolyOK F) (hirr : GF2Irreducible F.poly)
    {x : Nat} (hx0 : x ≠ 0) (hx : x < 2 ^ F.degree) :
    IsCoprime (toPoly x) (toPoly F.poly) := by
  apply IsCoprime.symm
  rw [(irreducible_toPoly hirr).coprime_iff_not_dvd]
  intro hd
  apply hx0
  apply toPoly_eq_zero.mp
  apply eq_zero_of_dvd_of_degree_lt hd
  rw [degree_toPoly_poly h]
  exact degree_toPoly_lt.mpr hx

/-- With enough fuel, `field_invert` returns a reduced `z` whose class is the
inverse of the class of `x`. -/
theorem field_invert_spec {F : FieldCtx} (h : PolyOK F) (hirr : GF2Irreducible F.poly)
    {x : Nat} (hx0 : x ≠ 0) (hx : x < 2 ^ F.degree) {fuel : Nat} (hf : 2 * F.degree ≤ fuel) :
    ∃ z, field_invert F fuel x = some z ∧ z < 2 ^ F.degree ∧
      toField F z * toField F x = 1 := by
  rw [field_invert, if_neg hx0]
  apply field_invert_loop_spec
  · refine ⟨by rw [toField_one, one_mul], by rw [toField_zero, zero_mul, toField_poly], ?_,
      isCoprime_of_lt h hirr hx0 hx, ?_, ?_⟩
    · have := h.2.1
      have : 2 ^ 1 ≤ 2 ^ F.degree := Nat.pow_le_pow_right (by norm_num) h.1
      omega
    · rw [Nat.size_one, size_poly h]; omega
    · have : Nat.size x ≤ F.degree := Nat.size_le.mpr hx
      rw [Nat.size_zero]; omega
  · have : Nat.size x ≤ F.degree := Nat.size_le.mpr hx
    rw [size_poly h]
    have := h.1
    omega

/-! ## Horner evaluation -/

theorem one_lt_two_pow_degree {F : FieldCtx} (h : PolyOK F) : 1 < 2 ^ F.degree := by
  have : 2 ^ 1 ≤ 2 ^ F.degree := Nat.pow_le_pow_right (by norm_num) h.1
  omega

theorem field_pow_spec {F : FieldCtx} (h : PolyOK F) {x : Nat} (hx : x < 2 ^ F.degree)
    (k : Nat) :
    field_pow F x k < 2 ^ F.degree ∧ toField F (field_pow F x k) = toField F x ^ k := by
  induction k with
  | zero => exact ⟨one_lt_two_pow_degree h, by simp [field_pow, toField_one]⟩
  | succ k ih =>
    rw [field_pow]
    exact ⟨field_mult_lt h ih.1 hx, by rw [toField_mult h ih.1 hx, ih.2, pow_succ]⟩

theorem xor_sum_lt {d : Nat} {f : Nat → Nat} (n : Nat) (hf : ∀ k, k < n → f k < 2 ^ d) :
    xor_sum f n < 2 ^ d := by
  induction n with
  | zero => exact Nat.two_pow_pos _
  | succ n ih =>
    rw [xor_sum]
    exact Nat.xor_lt_two_pow (ih (fun k hk => hf k (by omega))) (hf n (by omega))

theorem toField_xor_sum (F : FieldCtx) (f : Nat → Nat) (n : Nat) :
    toField F (xor_sum f n) = ∑ k in Finset.range n, toField F (f k) := by
  induction n with
  | zero => simp [xor_sum, toField_zero]
  | succ n ih => rw [xor_sum, field_add, toField_xor, ih, Finset.sum_range_succ]

theorem horner_loop_spec {F : FieldCtx} (h : PolyOK F) {x : Nat} (hx : x < 2 ^ F.degree)
    (coeff : Nat → Nat) :
    ∀ (i y : Nat), y < 2 ^ F.degree → (∀ k, 1 ≤ k → k ≤ i → coeff k < 2 ^ F.degree) →
      horner_loop F x coeff i y < 2 ^ F.degree ∧
      toField F (horner_loop F x coeff i y)
        = toField F y * toField F x ^ i
          + ∑ k in Finset.range i, toField F (coeff (k + 1)) * toField F x ^ (k + 1) := by
  intro i
  induction i with
  | zero =>
    intro y hy _
    exact ⟨hy, by simp [horner_loop]⟩
  | succ i ih =>
    intro y hy hc
    rw [horner_loop, field_add]
    have hy' : y ^^^ coeff (i + 1) < 2 ^ F.degree :=
      Nat.xor_lt_two_pow hy (hc (i + 1) (by omega) le_rfl)
    obtain ⟨h1, h2⟩ := ih (field_mult F (y ^^^ coeff (i + 1)) x) (field_mult_lt h hy' hx)
      (fun k hk1 hk2 => hc k hk1 (by omega))
    refine ⟨h1, ?_⟩
    rw [h2, toField_mult h hy' hx, toField_xor, Finset.sum_range_succ]
    ring

/-- The class of the value of `horner` is the monic polynomial of degree `n` with
the lower coefficients `coeff`, evaluated at the class of `x`. -/
theorem horner_spec {F : FieldCtx} (h : PolyOK F) {n x : Nat} {coeff : Nat → Nat}
    (hn : 1 ≤ n) (hx : x < 2 ^ F.degree) (hc : ∀ k, k < n → coeff k < 2 ^ F.degree) :
    horner F n x coeff < 2 ^ F.degree ∧
    toField F (horner F n x coeff)
      = toField F x ^ n + ∑ k in Finset.range n, toField F (coeff k) * toField F x ^ k := by
  obtain ⟨h1, h2⟩ := horner_loop_spec h hx coeff (n - 1) x hx
    (fun k _ hk2 => hc k (by omega))
  rw [horner, field_add]
  refine ⟨Nat.xor_lt_two_pow h1 (hc 0 (by omega)), ?_⟩
  rw [toField_xor, h2]
  obtain ⟨m, rfl⟩ : ∃ m, n = m + 1 := ⟨n - 1, by omega⟩
  simp only [Nat.add_sub_cancel]
  rw [Finset.sum_range_succ' _ m]
  simp only [pow_zero, mul_one]
  ring

/-- C4 (Horner correctness): `horner(n, x, coeff)` is `x^n` plus the sum of
`coeff[k] * x^k` for `k` in `0..n-1`, with products and powers by `field_mult` and
sums by xor; the leading term `x^n` is included. -/
theorem horner_correct (deg n x : Nat) (coeff : Nat → Nat)
    (hdeg : field_size_valid deg = true) (hn : 1 ≤ n) (hx : x < 2 ^ deg)
    (hc : ∀ k, k < n → coeff k < 2 ^ deg) :
    horner (field_init deg) n x coeff
      = field_add (field_pow (field_init deg) x n)
          (xor_sum (fun k => field_mult (field_init deg) (coeff k)
            (field_pow (field_init deg) x k)) n) := by
  have h := field_init_ok hdeg
  have hx' : x < 2 ^ (field_init deg).degree := hx
  have hc' : ∀ k, k < n → coeff k < 2 ^ (field_init deg).degree := hc
  obtain ⟨h1, h2⟩ := horner_spec h hn hx' hc'
  have hterm : ∀ k, k < n →
      field_mult (field_init deg) (coeff k) (field_pow (field_init deg) x k)
        < 2 ^ (field_init deg).degree :=
    fun k hk => field_mult_lt h (hc' k hk) (field_pow_spec h hx' k).1
  apply toField_inj h h1
  · exact Nat.xor_lt_two_pow (field_pow_spec h hx' n).1 (xor_sum_lt n hterm)
  · rw [h2, field_add, toField_xor, (field_pow_spec h hx' n).2, toField_xor_sum]
    congr 1
    apply Finset.sum_congr rfl
    intro k hk
    rw [toField_mult h (hc' k (Finset.mem_range.mp hk)) (field_pow_spec h hx' k).1,
      (field_pow_spec h hx' k).2]

theorem horner_correct_witness :
    field_size_valid 8 = true ∧
    horner (field_init 8) 3 7 (fun k => k + 1)
      = field_add (field_pow (field_init 8) 7 3)
          (xor_sum (fun k => field_mult (field_init 8) (k + 1)
            (field_pow (field_init 8) 7 k)) 3) :=
  ⟨by decide, horner_correct 8 3 7 (fun k => k + 1) (by decide) (by decide) (by decide)
    (fun k hk => by
      have : k + 1 < 4 := by omega
      exact lt_of_lt_of_le this (by decide))⟩

/-- C5 (`field_mult` is field multiplication): for in-range operands the result
is the carry-less product reduced modulo the polynomial set up by `field_init`,
and it is in range. -/
theorem field_mult_correct (deg x y : Nat) (hdeg : field_size_valid deg = true)
    (hx : x < 2 ^ deg) (hy : y < 2 ^ deg) :
    field_mult (field_init deg) x y = polymod (clmul x y) (field_init deg).poly ∧
    field_mult (field_init deg) x y < 2 ^ deg :=
  ⟨field_mult_eq_polymod (field_init_ok hdeg) hx hy,
    field_mult_lt (field_init_ok hdeg) hx hy⟩

theorem field_mult_correct_witness :
    field_size_valid 8 = true ∧ 0x53 < 2 ^ 8 ∧ 0xCA < 2 ^ 8 ∧
    field_mult (field_init 8) 0x53 0xCA = polymod (clmul 0x53 0xCA) (field_init 8).poly ∧
    field_mult (field_init 8) 0x53 0xCA < 2 ^ 8 :=
  ⟨by decide, by decide, by decide,
    field_mult_correct 8 0x53 0xCA (by decide) (by decide) (by decide)⟩

/-- C6 (inverse correctness): when the table polynomial of a valid `deg` is
irreducible and `1 <= x < 2^deg`, the loop of `field_invert` ends (within
`2 * deg` iterations) and the result `z` is in range with `field_mult(x, z) = 1`. -/
theorem field_invert_correct (deg x fuel : Nat) (hdeg : field_size_valid deg = true)
    (hirr : GF2Irreducible (field_init deg).poly) (hx1 : 1 ≤ x) (hx : x < 2 ^ deg)
    (hfuel : 2 * deg ≤ fuel) :
    ∃ z, field_invert (field_init deg) fuel x = some z ∧ z < 2 ^ deg ∧
      field_mult (field_init deg) x z = 1 := by
  have h := field_init_ok hdeg
  have hx' : x < 2 ^ (field_init deg).degree := hx
  obtain ⟨z, hz, hzlt, hzx⟩ := field_invert_spec h hirr (by omega) hx' hfuel
  refine ⟨z, hz, hzlt, ?_⟩
  apply toField_inj h (field_mult_lt h hx' hzlt) (one_lt_two_pow_degree h)
  rw [toField_mult h hx' hzlt, mul_comm, hzx, toField_one]

theorem field_invert_correct_witness :
    field_size_valid 8 = true ∧ GF2Irreducible (field_init 8).poly ∧
    ∃ z, field_invert (field_init 8) 16 0x53 = some z ∧ z < 2 ^ 8 ∧
      field_mult (field_init 8) 0x53 z = 1 :=
  ⟨by decide, gf2Irreducible_deg8,
    field_invert_correct 8 0x53 16 (by decide) gf2Irreducible_deg8 (by decide) (by decide)
      (by decide)⟩

/-! ## The loops of `restore_secret` in closed form -/

theorem find_pivot_none {A : Mat} {i : Nat} :
    ∀ (k j : Nat), find_pivot A i k j = none → ∀ c, j ≤ c → c < j + k → A i c = 0 := by
  intro k
  induction k with
  | zero => intro j _ c h1 h2; omega
  | succ k ih =>
    intro j h c h1 h2
    rw [find_pivot] at h
    by_cases hj : A i j ≠ 0
    · rw [if_pos hj] at h; exact absurd h (by simp)
    · rw [if_neg hj] at h
      rcases Nat.eq_or_lt_of_le h1 with rfl | hlt
      · simpa using hj
      · exact ih (j + 1) h c hlt (by omega)

theorem find_pivot_some {A : Mat} {i : Nat} :
    ∀ (k j p : Nat), find_pivot A i k j = some p → j ≤ p ∧ p < j + k ∧ A i p ≠ 0 := by
  intro k
  induction k with
  | zero => intro j p h; simp [find_pivot] at h
  | succ k ih =>
    intro j p h
    rw [find_pivot] at h
    by_cases hj : A i j ≠ 0
    · rw [if_pos hj] at h
      have : j = p := by simpa using h
      subst this
      exact ⟨le_rfl, by omega, hj⟩
    · rw [if_neg hj] at h
      obtain ⟨h1, h2, h3⟩ := ih (j + 1) p h
      exact ⟨by omega, by omega, h3⟩

theorem swap_cols_loop_eq {i j : Nat} (hij : i ≠ j) :
    ∀ (c k : Nat) (A : Mat), swap_cols_loop i j c k A = swapped i j k c A := by
  intro c
  induction c with
  | zero =>
    intro k A
    funext r col
    have : ¬ (k ≤ r ∧ r < k + 0) := by omega
    simp only [swap_cols_loop, swapped, if_neg this]
  | succ c ih =>
    intro k A
    rw [swap_cols_loop]
    rw [ih]
    funext r col
    simp only [swapped, Mat.set]
    by_cases hr : r = k
    · subst hr
      have h1 : ¬ (r + 1 ≤ r ∧ r < r + 1 + c) := by omega
      have h2 : r ≤ r ∧ r < r + (c + 1) := by omega
      rw [if_neg h1, if_pos h2]
      by_cases h1 : col = i
      · subst h1; simp [hij]
      · by_cases h2 : col = j
        · subst h2; simp [h1]
        · simp [h1, h2]
    · by_cases hin : k + 1 ≤ r ∧ r < k + 1 + c
      · have h2 : k ≤ r ∧ r < k + (c + 1) := by omega
        rw [if_pos hin, if_pos h2]
        simp [hr]
      · have h2 : ¬ (k ≤ r ∧ r < k + (c + 1)) := by omega
        rw [if_neg hin, if_neg h2]
        simp [hr]

theorem elim_rows_eq (F : FieldCtx) {i j : Nat} :
    ∀ (c k : Nat) (A : Mat), i < k →
      ∀ r col, elim_rows F i j c k A r col
        = if col = j ∧ k ≤ r ∧ r < k + c then elim_entry F i A r col else A r col := by
  intro c
  induction c with
  | zero =>
    intro k A _ r col
    have : ¬ (col = j ∧ k ≤ r ∧ r < k + 0) := by omega
    rw [elim_rows, if_neg this]
  | succ c ih =>
    intro k A hik r col
    rw [elim_rows]
    rw [ih _ _ (by omega)]
    have hA2 : ∀ r' c', ((A.set k j (field_mult F (A k j) (A i i))).set k j
        (field_add ((A.set k j (field_mult F (A k j) (A i i))) k j)
          (field_mult F (A k i) (A i j)))) r' c'
        = if r' = k ∧ c' = j then elim_entry F i A k j else A r' c' := by
      intro r' c'
      simp only [Mat.set, elim_entry]
      by_cases h : r' = k ∧ c' = j
      · simp [h]
      · rw [if_neg h, if_neg h, if_neg h]
    have hki : ¬ (i = k) := by omega
    by_cases h1 : col = j ∧ k + 1 ≤ r ∧ r < k + 1 + c
    · have h2 : col = j ∧ k ≤ r ∧ r < k + (c + 1) := by omega
      rw [if_pos h1, if_pos h2]
      simp only [elim_entry, hA2]
      have e1 : ¬ (r = k ∧ col = j) := by omega
      have e2 : ¬ (i = k ∧ i = j) := by omega
      have e3 : ¬ (r = k ∧ i = j) := by omega
      have e4 : ¬ (i = k ∧ col = j) := by omega
      rw [if_neg e1, if_neg e2, if_neg e3, if_neg e4]
    · rw [if_neg h1, hA2]
      by_cases h3 : r = k ∧ col = j
      · have h2 : col = j ∧ k ≤ r ∧ r < k + (c + 1) := by omega
        rw [if_pos h3, if_pos h2, h3.1, h3.2]
      · have h2 : ¬ (col = j ∧ k ≤ r ∧ r < k + (c + 1)) := by omega
        rw [if_neg h3, if_neg h2]

theorem elim_mat_succ (F : FieldCtx) (n i : Nat) {j : Nat} (hij : i < j) (c : Nat)
    (A A1 : Mat)
    (hrow : ∀ col, A1 i col = A i col)
    (hother : ∀ r col, col ≠ j → A1 r col = A r col)
    (hj : ∀ r, A1 r j = if A i j ≠ 0 ∧ i + 1 ≤ r ∧ r < n then elim_entry F i A r j else A r j) :
    elim_mat F n i (j + 1) c A1 = elim_mat F n i j (c + 1) A := by
  funext r col
  simp only [elim_mat]
  by_cases hc : col = j
  · subst hc
    have h1 : ¬ (col + 1 ≤ col ∧ col < col + 1 + c ∧ A1 i col ≠ 0 ∧ i + 1 ≤ r ∧ r < n) := by
      rintro ⟨h, _⟩; omega
    rw [if_neg h1, hj]
    apply if_congr _ rfl rfl
    constructor
    · rintro ⟨a, b, c⟩; exact ⟨le_rfl, by omega, a, b, c⟩
    · rintro ⟨_, _, a, b, c⟩; exact ⟨a, b, c⟩
  · have he : elim_entry F i A1 r col = elim_entry F i A r col := by
      simp only [elim_entry]
      rw [hrow, hrow, hother r col hc, hother r i (by omega)]
    rw [he, hrow, hother r col hc]
    apply if_congr _ rfl rfl
    constructor
    · rintro ⟨a, b, c, d⟩; exact ⟨by omega, by omega, c, d⟩
    · rintro ⟨a, b, c, d⟩; exact ⟨by omega, by omega, c, d⟩

theorem elim_vec_succ (F : FieldCtx) (i : Nat) {j : Nat} (hij : i < j) (c : Nat)
    (A A1 : Mat) (b b1 : Vec)
    (hrow : ∀ col, A1 i col = A i col)
    (hother : ∀ col, col ≠ j → b1 col = b col)
    (hj : b1 j = if A i j ≠ 0 then
        field_add (field_mult F (b j) (A i i)) (field_mult F (b i) (A i j)) else b j) :
    elim_vec F i (j + 1) c A1 b1 = elim_vec F i j (c + 1) A b := by
  funext col
  simp only [elim_vec]
  by_cases hc : col = j
  · subst hc
    have h1 : ¬ (col + 1 ≤ col ∧ col < col + 1 + c ∧ A1 i col ≠ 0) := by
      rintro ⟨h, _⟩; omega
    rw [if_neg h1, hj]
    apply if_congr _ rfl rfl
    constructor
    · intro a; exact ⟨le_rfl, by omega, a⟩
    · rintro ⟨_, _, a⟩; exact a
  · simp only [hrow]
    rw [hother col hc, hother i (by omega)]
    apply if_congr _ rfl rfl
    constructor
    · rintro ⟨a, b, c⟩; exact ⟨by omega, by omega, c⟩
    · rintro ⟨a, b, c⟩; exact ⟨by omega, by omega, c⟩

theorem elim_cols_eq (F : FieldCtx) (n i : Nat) :
    ∀ (c j : Nat) (A : Mat) (b : Vec), i < j →
      elim_cols F n i c j (A, b) = (elim_mat F n i j c A, elim_vec F i j c A b) := by
  intro c
  induction c with
  | zero =>
    intro j A b _
    rw [elim_cols]
    congr 1
    · funext r col
      have : ¬ (j ≤ col ∧ col < j + 0 ∧ A i col ≠ 0 ∧ i + 1 ≤ r ∧ r < n) := by
        rintro ⟨h1, h2, _⟩; omega
      simp only [elim_mat, if_neg this]
    · funext col
      have : ¬ (j ≤ col ∧ col < j + 0 ∧ A i col ≠ 0) := by
        rintro ⟨h1, h2, _⟩; omega
      simp only [elim_vec, if_neg this]
  | succ c ih =>
    intro j A b hij
    rw [elim_cols]
    have hne : i ≠ j := by omega
    by_cases hp : A i j ≠ 0
    · rw [if_pos hp]
      simp only []
      rw [ih _ _ _ (by omega)]
      have hrow : ∀ col, elim_rows F i j (n - (i + 1)) (i + 1) A i col = A i col := by
        intro col
        rw [elim_rows_eq F _ _ _ (by omega), if_neg (by omega)]
      have hother : ∀ r col, col ≠ j →
          elim_rows F i j (n - (i + 1)) (i + 1) A r col = A r col := by
        intro r col hc
        rw [elim_rows_eq F _ _ _ (by omega), if_neg (by rintro ⟨h, _⟩; exact hc h)]
      congr 1
      · apply elim_mat_succ F n i hij c A _ hrow hother
        intro r
        rw [elim_rows_eq F _ _ _ (by omega)]
        apply if_congr _ rfl rfl
        constructor
        · rintro ⟨_, a, b⟩; exact ⟨hp, a, by omega⟩
        · rintro ⟨_, a, b⟩; exact ⟨rfl, a, by omega⟩
      · apply elim_vec_succ F i hij c A _ b _ hrow
        · intro col hc
          simp only [Vec.set, if_neg hc]
        · simp only [Vec.set, if_true, hrow]
          rw [if_pos hp]
    · rw [if_neg hp, ih _ _ _ (by omega)]
      have hp0 : A i j = 0 := by simpa using hp
      congr 1
      · apply elim_mat_succ F n i hij c A A (fun _ => rfl) (fun _ _ _ => rfl)
        intro r
        rw [if_neg (by rintro ⟨h, _⟩; exact h hp0)]
      · apply elim_vec_succ F i hij c A A b b (fun _ => rfl) (fun _ _ => rfl)
        rw [if_neg hp]

/-! ## The system built by `combine` -/

theorem combine_col_loop_eq (F : FieldCtx) (i x : Nat) :
    ∀ (c : Nat) (A : Mat) (m : Nat), A c i = field_pow F x m →
      ∀ r col, combine_col_loop F i x c A r col
        = if col = i ∧ r < c then field_pow F x (m + (c - r)) else A r col := by
  intro c
  induction c with
  | zero =>
    intro A m _ r col
    rw [combine_col_loop, if_neg (by omega)]
  | succ j ih =>
    intro A m hA r col
    rw [combine_col_loop]
    have hA' : (A.set j i (field_mult F (A (j + 1) i) x)) j i = field_pow F x (m + 1) := by
      simp only [Mat.set, and_self, if_true, hA, field_pow]
    rw [ih _ (m + 1) hA']
    by_cases h1 : col = i ∧ r < j
    · rw [if_pos h1, if_pos (by omega)]
      congr 1; omega
    · rw [if_neg h1]
      by_cases h2 : r = j ∧ col = i
      · rw [if_pos (by omega), h2.1, h2.2, hA']
        congr 1; omega
      · rw [if_neg (by omega)]
        simp only [Mat.set, if_neg h2]

theorem combine_share_mat (F : FieldCtx) {T : Nat} (hT : 1 ≤ T) (i x yv : Nat) (A : Mat)
    (y : Vec) (r col : Nat) :
    (combine_share F T i x yv (A, y)).1 r col
      = if col = i ∧ r < T then field_pow F x (T - 1 - r) else A r col := by
  have hbase : (A.set (T - 1) i 1) (T - 1) i = field_pow F x 0 := by
    simp [Mat.set, field_pow]
  have hcol := combine_col_loop_eq F i x (T - 1) (A.set (T - 1) i 1) 0 hbase
  simp only [combine_share]
  rw [hcol]
  by_cases h1 : col = i ∧ r < T - 1
  · rw [if_pos h1, if_pos (by omega)]
    congr 1; omega
  · rw [if_neg h1]
    by_cases h2 : r = T - 1 ∧ col = i
    · rw [if_pos (by omega), h2.1, h2.2, hbase]
      congr 1; omega
    · rw [if_neg (by omega)]
      simp only [Mat.set, if_neg h2]

theorem combine_share_vec (F : FieldCtx) {T : Nat} (hT : 1 ≤ T) (i x yv : Nat) (A : Mat)
    (y : Vec) (k : Nat) :
    (combine_share F T i x yv (A, y)).2 k
      = if k = i then field_add yv (field_mult F x (field_pow F x (T - 1))) else y k := by
  have hA := combine_share_mat F hT i x yv A y 0 i
  rw [if_pos (by omega)] at hA
  simp only [combine_share, Nat.sub_zero] at hA
  simp only [combine_share]
  by_cases hk : k = i
  · subst hk
    simp only [Vec.set, if_true]
    rw [hA]
  · simp only [Vec.set, if_neg hk]

theorem combine_build_loop_eq (F : FieldCtx) {T : Nat} (hT : 1 ≤ T) (shares : Nat → Nat × Nat) :
    ∀ (c i : Nat) (A : Mat) (y : Vec),
      (∀ r col, (combine_build_loop F T shares c i (A, y)).1 r col
        = if i ≤ col ∧ col < i + c ∧ r < T then field_pow F (shares col).1 (T - 1 - r)
          else A r col) ∧
      (∀ k, (combine_build_loop F T shares c i (A, y)).2 k
        = if i ≤ k ∧ k < i + c then
            field_add (shares k).2
              (field_mult F (shares k).1 (field_pow F (shares k).1 (T - 1)))
          else y k) := by
  intro c
  induction c with
  | zero =>
    intro i A y
    constructor
    · intro r col
      rw [combine_build_loop, if_neg (by omega)]
    · intro k
      rw [combine_build_loop, if_neg (by omega)]
  | succ c ih =>
    intro i A y
    rw [combine_build_loop]
    obtain ⟨h1, h2⟩ := ih (i + 1) (combine_share F T i (shares i).1 (shares i).2 (A, y)).1
      (combine_share F T i (shares i).1 (shares i).2 (A, y)).2
    constructor
    · intro r col
      rw [h1, combine_share_mat F hT]
      by_cases hc : col = i
      · subst hc
        rw [if_neg (by omega)]
        by_cases hr : r < T
        · rw [if_pos ⟨rfl, hr⟩, if_pos (by omega)]
        · rw [if_neg (by omega), if_neg (by omega)]
      · by_cases h : i + 1 ≤ col ∧ col < i + 1 + c ∧ r < T
        · rw [if_pos h, if_pos (by omega)]
        · rw [if_neg h, if_neg (fun h => hc h.1), if_neg (by omega)]
    · intro k
      rw [h2, combine_share_vec F hT]
      by_cases hk : k = i
      · subst hk
        rw [if_neg (by omega), if_pos rfl, if_pos (by omega)]
      · rw [if_neg hk]
        apply if_congr _ rfl rfl
        omega

/-- The matrix that `combine` builds has the powers of the share indices in its
columns: `A[r][k] = x_k^(T-1-r)`. -/
theorem combine_build_mat (F : FieldCtx) {T : Nat} (hT : 1 ≤ T) (shares : Nat → Nat × Nat)
    {r k : Nat} (hr : r < T) (hk : k < T) :
    (combine_build F T shares).1 r k = field_pow F (shares k).1 (T - 1 - r) := by
  rw [combine_build, (combine_build_loop_eq F hT shares T 0 _ _).1, if_pos (by omega)]

/-- The right-hand side that `combine` builds is the share value with the leading
term removed: `b[k] = y_k xor x_k * x_k^(T-1)`. -/
theorem combine_build_vec (F : FieldCtx) {T : Nat} (hT : 1 ≤ T) (shares : Nat → Nat × Nat)
    {k : Nat} (hk : k < T) :
    (combine_build F T shares).2 k
      = field_add (shares k).2 (field_mult F (shares k).1 (field_pow F (shares k).1 (T - 1))) := by
  rw [combine_build, (combine_build_loop_eq F hT shares T 0 _ _).2, if_pos (by omega)]

/-! ## Singular systems -/

theorem restore_step_eq (F : FieldCtx) (n i : Nat) (A : Mat) (b : Vec) :
    restore_step F n i (A, b) =
      if A i i = 0 then
        match find_pivot A i (n - (i + 1)) (i + 1) with
        | none => none
        | some j =>
          some (elim_mat F n i (i + 1) (n - (i + 1)) (swap_cols_loop i j (n - i) i A),
            elim_vec F i (i + 1) (n - (i + 1)) (swap_cols_loop i j (n - i) i A)
              ((b.set i (b j)).set j (b i)))
      else some (elim_mat F n i (i + 1) (n - (i + 1)) A,
        elim_vec F i (i + 1) (n - (i + 1)) A b) := by
  simp only [restore_step]
  split_ifs with h
  · cases hp : find_pivot A i (n - (i + 1)) (i + 1) with
    | none => rfl
    | some j => simp only [elim_cols_eq F n i _ _ _ _ (Nat.lt_succ_self i)]
  · rw [elim_cols_eq F n i _ _ _ _ (Nat.lt_succ_self i)]

theorem degenerate_elim (F : FieldCtx) {n i : Nat} {A : Mat} (hp : A i i ≠ 0)
    (h : Degenerate n i A) : Degenerate n (i + 1) (elim_mat F n i (i + 1) (n - (i + 1)) A) := by
  have key : ∀ a b, a ≠ b → i ≤ a → a < n → i < b → b < n →
      (∀ r, i ≤ r → r < n → A r a = A r b) →
      Degenerate n (i + 1) (elim_mat F n i (i + 1) (n - (i + 1)) A) := by
    intro a b hab ha1 ha2 hb1 hb2 heq
    by_cases hai : a = i
    · subst hai
      right
      refine ⟨b, hb1, hb2, ?_⟩
      intro r hr1 hr2
      have hib : A a b ≠ 0 := by rw [← heq a le_rfl ha2]; exact hp
      simp only [elim_mat]
      rw [if_pos ⟨hb1, by omega, hib, hr1, hr2⟩]
      simp only [elim_entry, field_add]
      rw [← heq r (by omega) hr2, ← heq a le_rfl ha2, Nat.xor_self]
    · left
      refine ⟨a, b, hab, by omega, ha2, hb1, hb2, ?_⟩
      intro r hr1 hr2
      have e1 := heq r (by omega) hr2
      have e2 := heq i le_rfl (by omega)
      simp only [elim_mat, elim_entry]
      rw [e1, e2]
      apply if_congr _ rfl rfl
      constructor
      · rintro ⟨_, _, c, d⟩; exact ⟨hb1, by omega, c, d⟩
      · rintro ⟨_, _, c, d⟩; exact ⟨by omega, by omega, c, d⟩
  rcases h with ⟨a, b, hab, ha1, ha2, hb1, hb2, heq⟩ | ⟨c, hc1, hc2, hz⟩
  · by_cases hbi : b = i
    · subst hbi
      exact key b a hab.symm le_rfl hb2 (by omega) ha2 (fun r h1 h2 => (heq r h1 h2).symm)
    · exact key a b hab ha1 ha2 (by omega) hb2 heq
  · have hci : c ≠ i := by
      rintro rfl
      exact hp (hz c le_rfl hc2)
    right
    refine ⟨c, by omega, hc2, ?_⟩
    intro r hr1 hr2
    simp only [elim_mat]
    rw [if_neg (by rintro ⟨_, _, h, _⟩; exact h (hz i le_rfl (by omega)))]
    exact hz r (by omega) hr2

theorem degenerate_swapped {n i j : Nat} {A : Mat} (hij : i < j) (hj : j < n)
    (h : Degenerate n i A) : Degenerate n i (swapped i j i (n - i) A) := by
  have hsw : ∀ r col, i ≤ r → r < n →
      swapped i j i (n - i) A r col
        = A r (if col = i then j else if col = j then i else col) := by
    intro r col h1 h2
    simp only [swapped]
    rw [if_pos ⟨h1, by omega⟩]
    split_ifs <;> rfl
  rcases h with ⟨a, b, hab, ha1, ha2, hb1, hb2, heq⟩ | ⟨c, hc1, hc2, hz⟩
  · left
    refine ⟨if a = i then j else if a = j then i else a,
      if b = i then j else if b = j then i else b, ?_, ?_, ?_, ?_, ?_, ?_⟩
    · split_ifs <;> omega
    · split_ifs <;> omega
    · split_ifs <;> omega
    · split_ifs <;> omega
    · split_ifs <;> omega
    · intro r h1 h2
      rw [hsw r _ h1 h2, hsw r _ h1 h2]
      have e : ∀ a, (if (if a = i then j else if a = j then i else a) = i then j
          else if (if a = i then j else if a = j then i else a) = j then i
          else (if a = i then j else if a = j then i else a)) = a := by
        intro a
        split_ifs <;> omega
      rw [e, e]
      exact heq r h1 h2
  · right
    refine ⟨if c = i then j else if c = j then i else c, ?_, ?_, ?_⟩
    · split_ifs <;> omega
    · split_ifs <;> omega
    · intro r h1 h2
      rw [hsw r _ h1 h2]
      have e : (if (if c = i then j else if c = j then i else c) = i then j
          else if (if c = i then j else if c = j then i else c) = j then i
          else (if c = i then j else if c = j then i else c)) = c := by
        split_ifs <;> omega
      rw [e]
      exact hz r h1 h2

theorem degenerate_step (F : FieldCtx) {n i : Nat} {A : Mat} (b : Vec)
    (h : Degenerate n i A) :
    restore_step F n i (A, b) = none ∨
    ∃ A' b', restore_step F n i (A, b) = some (A', b') ∧ Degenerate n (i + 1) A' := by
  rw [restore_step_eq]
  by_cases hp : A i i = 0
  · rw [if_pos hp]
    cases hf : find_pivot A i (n - (i + 1)) (i + 1) with
    | none => left; rfl
    | some j =>
      right
      obtain ⟨h1, h2, h3⟩ := find_pivot_some _ _ _ hf
      have hij : i < j := by omega
      have hjn : j < n := by omega
      refine ⟨_, _, rfl, ?_⟩
      rw [swap_cols_loop_eq (by omega)]
      apply degenerate_elim F _ (degenerate_swapped hij hjn h)
      have hlt : i < i + (n - i) := by omega
      simpa [swapped, hlt] using h3
  · rw [if_neg hp]
    exact Or.inr ⟨_, _, rfl, degenerate_elim F hp h⟩

theorem degenerate_loop (F : FieldCtx) (n : Nat) :
    ∀ (c i : Nat) (A : Mat) (b : Vec), i + c = n → Degenerate n i A →
      restore_loop F n c i (A, b) = none := by
  intro c
  induction c with
  | zero =>
    intro i A b hi h
    exfalso
    rcases h with ⟨a, b, _, ha1, ha2, _⟩ | ⟨c, hc1, hc2, _⟩ <;> omega
  | succ c ih =>
    intro i A b hi h
    rw [restore_loop]
    rcases degenerate_step F b h with hnone | ⟨A', b', hsome, hdeg⟩
    · rw [hnone]
    · rw [hsome]
      exact ih (i + 1) A' b' (by omega) hdeg

/-- A system with two equal columns makes `restore_secret` return `false`. -/
theorem restore_secret_of_equal_columns (F : FieldCtx) (fuel n : Nat) (A : Mat) (b : Vec)
    {a c : Nat} (hac : a ≠ c) (ha : a < n) (hc : c < n)
    (heq : ∀ r, r < n → A r a = A r c) :
    restore_secret F fuel n A b = RestoreResult.returned_false := by
  have hdeg : Degenerate n 0 A :=
    Or.inl ⟨a, c, hac, Nat.zero_le _, ha, Nat.zero_le _, hc, fun r _ hr => heq r hr⟩
  rw [restore_secret, degenerate_loop F n n 0 A b (by omega) hdeg]

/-- C7 (singular detection): when two of the `T` shares carry the same index,
whatever their values, `restore_secret` returns `false` on the system that
`combine` builds, and `combine` ends in the fatal error "shares inconsistent". -/
theorem singular_detection (deg T fuel : Nat) (shares : Nat → Nat × Nat) (a c : Nat)
    (hdeg : field_size_valid deg = true) (hT : 2 ≤ T) (ha : a < T) (hc : c < T)
    (hac : a ≠ c) (hx : (shares a).1 = (shares c).1) :
    restore_secret (field_init deg) fuel T (combine_build (field_init deg) T shares).1
        (combine_build (field_init deg) T shares).2 = RestoreResult.returned_false ∧
    combine_solve (field_init deg) fuel T shares
      = some (Except.error "shares inconsistent. Perhaps a single share was used twice") := by
  have hv := hdeg
  have key : restore_secret (field_init deg) fuel T (combine_build (field_init deg) T shares).1
      (combine_build (field_init deg) T shares).2 = RestoreResult.returned_false := by
    apply restore_secret_of_equal_columns _ _ _ _ _ hac ha hc
    intro r hr
    rw [combine_build_mat _ (by omega) _ hr ha, combine_build_mat _ (by omega) _ hr hc, hx]
  refine ⟨key, ?_⟩
  simp only [combine_solve]
  rw [key]

theorem singular_detection_witness :
    field_size_valid 8 = true ∧
    restore_secret (field_init 8) 16 3
        (combine_build (field_init 8) 3 (fun k => if k = 1 then (9, 77) else (5, 200 + k))).1
        (combine_build (field_init 8) 3 (fun k => if k = 1 then (9, 77) else (5, 200 + k))).2
      = RestoreResult.returned_false ∧
    combine_solve (field_init 8) 16 3 (fun k => if k = 1 then (9, 77) else (5, 200 + k))
      = some (Except.error "shares inconsistent. Perhaps a single share was used twice") :=
  ⟨by decide,
    singular_detection 8 3 16 (fun k => if k = 1 then (9, 77) else (5, 200 + k)) 0 2
      (by decide) (by decide) (by decide) (by decide) (by decide) (by decide)⟩

/-! ## Regular systems -/

/-- A polynomial of degree below `m` that vanishes at `m` distinct points is zero. -/
theorem vandermonde_kernel {K : Type*} [Field K] (m : Nat) (X : Nat → K)
    (hX : ∀ a b, a < m → b < m → X a = X b → a = b) (d : Nat → K)
    (h : ∀ k, k < m → ∑ j in Finset.range m, d j * X k ^ j = 0) :
    ∀ j, j < m → d j = 0 := by
  intro j hj
  have hm : 0 < m := by omega
  have hp : (∑ j in Finset.range m, C (d j) * (Polynomial.X : K[X]) ^ j) = 0 := by
    apply eq_zero_of_natDegree_lt_card_of_eval_eq_zero _ (f := fun k : Fin m => X k)
    · intro a b hab
      exact Fin.ext (hX a b a.2 b.2 hab)
    · intro k
      rw [eval_finset_sum]
      simpa using h k k.2
    · rw [Fintype.card_fin]
      have : (∑ j in Finset.range m, C (d j) * (Polynomial.X : K[X]) ^ j).natDegree ≤ m - 1 := by
        apply natDegree_sum_le_of_forall_le
        intro i hi
        have := Finset.mem_range.mp hi
        exact le_trans (natDegree_C_mul_X_pow_le _ _) (by omega)
      omega
  have := congrArg (fun p => p.coeff j) hp
  simp only [finset_sum_coeff, coeff_C_mul_X_pow, coeff_zero] at this
  rw [Finset.sum_eq_single j] at this
  · simpa using this
  · intro b _ hb
    rw [if_neg (fun h => hb h.symm)]
  · intro hj'
    exact absurd (Finset.mem_range.mpr hj) hj'

theorem two_eq_zero_field (F : FieldCtx) : (2 : AdjoinRoot (toPoly F.poly)) = 0 := by
  have := toField_add_self F 1
  rwa [one_add_one_eq_two] at this

theorem elim_mat_live (F : FieldCtx) {n i r c : Nat} (A : Mat)
    (hr : i + 1 ≤ r) (hrn : r < n) (hc : i + 1 ≤ c) (hcn : c < n) :
    elim_mat F n i (i + 1) (n - (i + 1)) A r c
      = if A i c ≠ 0 then elim_entry F i A r c else A r c := by
  simp only [elim_mat]
  apply if_congr _ rfl rfl
  constructor
  · rintro ⟨_, _, h, _⟩; exact h
  · intro h; exact ⟨hc, by omega, h, hr, hrn⟩

theorem elim_vec_live (F : FieldCtx) {n i c : Nat} (A : Mat) (b : Vec)
    (hc : i + 1 ≤ c) (hcn : c < n) :
    elim_vec F i (i + 1) (n - (i + 1)) A b c
      = if A i c ≠ 0 then
          field_add (field_mult F (b c) (A i i)) (field_mult F (b i) (A i c))
        else b c := by
  simp only [elim_vec]
  apply if_congr _ rfl rfl
  constructor
  · rintro ⟨_, _, h⟩; exact h
  · intro h; exact ⟨hc, by omega, h⟩

theorem elim_mat_pivot_col (F : FieldCtx) (n i c : Nat) (A : Mat) (r : Nat) :
    elim_mat F n i (i + 1) c A r i = A r i := by
  simp only [elim_mat]
  rw [if_neg (by rintro ⟨h, _⟩; omega)]

theorem elim_vec_pivot (F : FieldCtx) (i c : Nat) (A : Mat) (b : Vec) :
    elim_vec F i (i + 1) c A b i = b i := by
  simp only [elim_vec]
  rw [if_neg (by rintro ⟨h, _⟩; omega)]

/-- The live part of an eliminated column, summed against any `w`. -/
theorem elim_sum {F : FieldCtx} (h : PolyOK F) {n i : Nat} {U : Nat → AdjoinRoot (toPoly F.poly)}
    {A : Mat} {b : Vec} (hinv : ElimInv F n i U A b) (hi : i < n)
    (w : Nat → AdjoinRoot (toPoly F.poly)) {c : Nat} (hc : i + 1 ≤ c) (hcn : c < n) :
    ∑ r in Finset.Ico (i + 1) n,
        toField F (elim_mat F n i (i + 1) (n - (i + 1)) A r c) * w r
      = if A i c ≠ 0 then
          toField F (A i i) * (∑ r in Finset.Ico (i + 1) n, toField F (A r c) * w r)
            + toField F (A i c) * (∑ r in Finset.Ico (i + 1) n, toField F (A r i) * w r)
        else ∑ r in Finset.Ico (i + 1) n, toField F (A r c) * w r := by
  by_cases hq : A i c ≠ 0
  · rw [if_pos hq, Finset.mul_sum, Finset.mul_sum, ← Finset.sum_add_distrib]
    apply Finset.sum_congr rfl
    intro r hr
    obtain ⟨hr1, hr2⟩ := Finset.mem_Ico.mp hr
    rw [elim_mat_live F A hr1 hr2 hc hcn, if_pos hq, elim_entry, field_add, toField_xor,
      toField_mult h (hinv.range r c (by omega) hr2 (by omega) hcn)
        (hinv.range i i le_rfl hi le_rfl hi),
      toField_mult h (hinv.range r i (by omega) hr2 le_rfl hi)
        (hinv.range i c le_rfl hi (by omega) hcn)]
    ring
  · rw [if_neg hq]
    apply Finset.sum_congr rfl
    intro r hr
    obtain ⟨hr1, hr2⟩ := Finset.mem_Ico.mp hr
    rw [elim_mat_live F A hr1 hr2 hc hcn, if_neg hq]

theorem elimInv_elim {F : FieldCtx} (h : PolyOK F) [Fact (Irreducible (toPoly F.poly))]
    {n i : Nat} {U : Nat → AdjoinRoot (toPoly F.poly)}
    {A : Mat} {b : Vec} (hinv : ElimInv F n i U A b) (hi : i < n) (hp : A i i ≠ 0) :
    ElimInv F n (i + 1) U (elim_mat F n i (i + 1) (n - (i + 1)) A)
      (elim_vec F i (i + 1) (n - (i + 1)) A b) := by
  have hpr := hinv.range i i le_rfl hi le_rfl hi
  have hp' : toField F (A i i) ≠ 0 := fun h0 => hp ((toField_eq_zero h hpr).mp h0)
  have h2 := two_eq_zero_field F
  refine ⟨?_, ?_, ?_, ?_⟩
  · intro r c hr hrn hc hcn
    rw [elim_mat_live F A hr hrn hc hcn]
    split
    · exact Nat.xor_lt_two_pow
        (field_mult_lt h (hinv.range r c (by omega) hrn (by omega) hcn) hpr)
        (field_mult_lt h (hinv.range r i (by omega) hrn le_rfl hi)
          (hinv.range i c le_rfl hi (by omega) hcn))
    · exact hinv.range r c (by omega) hrn (by omega) hcn
  · intro c hc hcn
    rw [elim_vec_live F A b hc hcn]
    split
    · exact Nat.xor_lt_two_pow
        (field_mult_lt h (hinv.brange c (by omega) hcn) hpr)
        (field_mult_lt h (hinv.brange i le_rfl hi) (hinv.range i c le_rfl hi (by omega) hcn))
    · exact hinv.brange c (by omega) hcn
  · intro c hc hcn
    have s1 := hinv.sol c (by omega) hcn
    have s2 := hinv.sol i le_rfl hi
    rw [Finset.sum_eq_sum_Ico_succ_bot hi] at s1 s2
    rw [elim_sum h hinv hi U hc hcn, elim_vec_live F A b hc hcn]
    by_cases hq : A i c ≠ 0
    · rw [if_pos hq, if_pos hq, field_add, toField_xor,
        toField_mult h (hinv.brange c (by omega) hcn) hpr,
        toField_mult h (hinv.brange i le_rfl hi) (hinv.range i c le_rfl hi (by omega) hcn),
        ← s1, ← s2]
      linear_combination (-(toField F (A i i) * toField F (A i c) * U i)) * h2
    · rw [if_neg hq, if_neg hq, ← s1]
      have : A i c = 0 := by simpa using hq
      rw [this, toField_zero, zero_mul, zero_add]
  · intro w hw r hr hrn
    obtain ⟨w', hw'i, hw'r⟩ : ∃ w' : Nat → AdjoinRoot (toPoly F.poly),
        w' i = (toField F (A i i))⁻¹ * ∑ r in Finset.Ico (i + 1) n, toField F (A r i) * w r ∧
        ∀ r, r ≠ i → w' r = w r :=
      ⟨fun r => if r = i then
        (toField F (A i i))⁻¹ * ∑ r in Finset.Ico (i + 1) n, toField F (A r i) * w r
        else w r, by simp, fun r hr => by simp [hr]⟩
    have key := hinv.ker w' ?_ r (by omega) hrn
    · rw [hw'r r (by omega)] at key
      exact key
    · intro c hc hcn
      rw [Finset.sum_eq_sum_Ico_succ_bot hi, hw'i]
      have hrest : ∑ r in Finset.Ico (i + 1) n, toField F (A r c) * w' r
          = ∑ r in Finset.Ico (i + 1) n, toField F (A r c) * w r := by
        apply Finset.sum_congr rfl
        intro r hr
        have := (Finset.mem_Ico.mp hr).1
        rw [hw'r r (by omega)]
      rw [hrest]
      rcases Nat.eq_or_lt_of_le hc with rfl | hlt
      · rw [← mul_assoc, mul_inv_cancel₀ hp', one_mul]
        exact toField_add_self F _
      · have hwc := hw c hlt hcn
        rw [elim_sum h hinv hi w hlt hcn] at hwc
        by_cases hq : A i c ≠ 0
        · rw [if_pos hq] at hwc
          have e : ∑ r in Finset.Ico (i + 1) n, toField F (A r c) * w r
              = -((toField F (A i i))⁻¹ * (toField F (A i c)
                  * ∑ r in Finset.Ico (i + 1) n, toField F (A r i) * w r)) := by
            have := eq_neg_of_add_eq_zero_left hwc
            rw [← mul_neg, ← this, ← mul_assoc, inv_mul_cancel₀ hp', one_mul]
          rw [e]
          ring
        · rw [if_neg hq] at hwc
          have : A i c = 0 := by simpa using hq
          rw [hwc, this, toField_zero, zero_mul, add_zero]

theorem transp_invol (i j c : Nat) : transp i j (transp i j c) = c := by
  simp only [transp]
  split_ifs <;> omega

theorem transp_mem {n i j c : Nat} (hij : i < j) (hj : j < n) (hc : i ≤ c) (hcn : c < n) :
    i ≤ transp i j c ∧ transp i j c < n := by
  simp only [transp]
  split_ifs <;> omega

theorem swapped_live {n i j : Nat} (A : Mat) {r : Nat} (hr : i ≤ r) (hrn : r < n) (c : Nat) :
    swapped i j i (n - i) A r c = A r (transp i j c) := by
  simp only [swapped, transp]
  rw [if_pos ⟨hr, by omega⟩]
  split_ifs <;> rfl

theorem swap_vec {i j : Nat} (hij : i ≠ j) (b : Vec) (c : Nat) :
    ((b.set i (b j)).set j (b i)) c = b (transp i j c) := by
  simp only [Vec.set, transp]
  by_cases h1 : c = i
  · subst h1
    rw [if_neg hij, if_pos rfl, if_pos rfl]
  · by_cases h2 : c = j
    · subst h2
      rw [if_pos rfl, if_neg h1, if_pos rfl]
    · rw [if_neg h2, if_neg h1, if_neg h1, if_neg h2]

theorem elimInv_swap {F : FieldCtx} {n i j : Nat} {U : Nat → AdjoinRoot (toPoly F.poly)}
    {A : Mat} {b : Vec} (hinv : ElimInv F n i U A b) (hij : i < j) (hj : j < n) :
    ElimInv F n i U (swapped i j i (n - i) A) ((b.set i (b j)).set j (b i)) := by
  have hsum : ∀ (w : Nat → AdjoinRoot (toPoly F.poly)) (c : Nat),
      ∑ r in Finset.Ico i n, toField F (swapped i j i (n - i) A r c) * w r
        = ∑ r in Finset.Ico i n, toField F (A r (transp i j c)) * w r := by
    intro w c
    apply Finset.sum_congr rfl
    intro r hr
    obtain ⟨h1, h2⟩ := Finset.mem_Ico.mp hr
    rw [swapped_live A h1 h2]
  refine ⟨?_, ?_, ?_, ?_⟩
  · intro r c hr hrn hc hcn
    rw [swapped_live A hr hrn]
    obtain ⟨h1, h2⟩ := transp_mem hij hj hc hcn
    exact hinv.range r _ hr hrn h1 h2
  · intro c hc hcn
    rw [swap_vec (by omega)]
    obtain ⟨h1, h2⟩ := transp_mem hij hj hc hcn
    exact hinv.brange _ h1 h2
  · intro c hc hcn
    rw [hsum, swap_vec (by omega)]
    obtain ⟨h1, h2⟩ := transp_mem hij hj hc hcn
    exact hinv.sol _ h1 h2
  · intro w hw
    apply hinv.ker w
    intro c hc hcn
    obtain ⟨h1, h2⟩ := transp_mem hij hj hc hcn
    have := hw _ h1 h2
    rw [hsum, transp_invol] at this
    exact this

/-- In a regular system the search for a pivot succeeds. -/
theorem elimInv_pivot {F : FieldCtx} [Fact (Irreducible (toPoly F.poly))]
    {n i : Nat} {U : Nat → AdjoinRoot (toPoly F.poly)}
    {A : Mat} {b : Vec} (hinv : ElimInv F n i U A b) (hi : i < n) (hp : A i i = 0) :
    ∃ j, find_pivot A i (n - (i + 1)) (i + 1) = some j := by
  cases hf : find_pivot A i (n - (i + 1)) (i + 1) with
  | some j => exact ⟨j, rfl⟩
  | none =>
    exfalso
    have hz : ∀ c, i ≤ c → c < n → A i c = 0 := by
      intro c hc hcn
      rcases Nat.eq_or_lt_of_le hc with rfl | hlt
      · exact hp
      · exact find_pivot_none _ _ hf c hlt (by omega)
    obtain ⟨w, hwi, hwr⟩ : ∃ w : Nat → AdjoinRoot (toPoly F.poly),
        w i = 1 ∧ ∀ r, r ≠ i → w r = 0 :=
      ⟨fun r => if r = i then 1 else 0, by simp, fun r hr => by simp [hr]⟩
    have := hinv.ker w ?_ i le_rfl hi
    · rw [hwi] at this
      exact one_ne_zero this
    · intro c hc hcn
      apply Finset.sum_eq_zero
      intro r _
      by_cases hr : r = i
      · rw [hr, hz c hc hcn, toField_zero, zero_mul]
      · rw [hwr r hr, mul_zero]

theorem elimInv_step {F : FieldCtx} (h : PolyOK F) [Fact (Irreducible (toPoly F.poly))]
    {n i : Nat} {U : Nat → AdjoinRoot (toPoly F.poly)}
    {A : Mat} {b : Vec} (hinv : ElimInv F n i U A b) (hi : i < n) :
    ∃ A' b', restore_step F n i (A, b) = some (A', b') ∧
      ElimInv F n (i + 1) U A' b' ∧ PivotFact F n i U A' b' := by
  have main : ∀ (A : Mat) (b : Vec), ElimInv F n i U A b → A i i ≠ 0 →
      ElimInv F n (i + 1) U (elim_mat F n i (i + 1) (n - (i + 1)) A)
        (elim_vec F i (i + 1) (n - (i + 1)) A b) ∧
      PivotFact F n i U (elim_mat F n i (i + 1) (n - (i + 1)) A)
        (elim_vec F i (i + 1) (n - (i + 1)) A b) := by
    intro A b hinv hp
    refine ⟨elimInv_elim h hinv hi hp, ?_, ?_, ?_, ?_⟩
    · rw [elim_mat_pivot_col]; exact hp
    · rw [elim_mat_pivot_col]; exact hinv.range i i le_rfl hi le_rfl hi
    · rw [elim_vec_pivot]; exact hinv.brange i le_rfl hi
    · rw [elim_vec_pivot, ← hinv.sol i le_rfl hi]
      apply Finset.sum_congr rfl
      intro r _
      rw [elim_mat_pivot_col]
  rw [restore_step_eq]
  by_cases hp : A i i = 0
  · rw [if_pos hp]
    obtain ⟨j, hf⟩ := elimInv_pivot hinv hi hp
    obtain ⟨h1, h2, h3⟩ := find_pivot_some _ _ _ hf
    have hij : i < j := by omega
    have hjn : j < n := by omega
    rw [hf]
    refine ⟨_, _, rfl, ?_⟩
    rw [swap_cols_loop_eq (by omega)]
    apply main _ _ (elimInv_swap hinv hij hjn)
    rw [swapped_live A le_rfl hi]
    simpa [transp] using h3
  · rw [if_neg hp]
    exact ⟨_, _, rfl, main A b hinv hp⟩

theorem elimInv_loop {F : FieldCtx} (h : PolyOK F) [Fact (Irreducible (toPoly F.poly))]
    {n : Nat} {U : Nat → AdjoinRoot (toPoly F.poly)} :
    ∀ (c i : Nat) (A : Mat) (b : Vec), i + (c + 1) = n → ElimInv F n i U A b →
      ∃ A' b', restore_loop F n (c + 1) i (A, b) = some (A', b') ∧
        PivotFact F n (n - 1) U A' b' := by
  intro c
  induction c with
  | zero =>
    intro i A b hi hinv
    obtain ⟨A', b', hs, _, hpf⟩ := elimInv_step h hinv (by omega)
    refine ⟨A', b', ?_, ?_⟩
    · rw [restore_loop, hs]
      rfl
    · have : n - 1 = i := by omega
      rw [this]; exact hpf
  | succ c ih =>
    intro i A b hi hinv
    obtain ⟨A', b', hs, hinv', _⟩ := elimInv_step h hinv (by omega)
    obtain ⟨A'', b'', hl, hpf⟩ := ih (i + 1) A' b' (by omega) hinv'
    refine ⟨A'', b'', ?_, hpf⟩
    rw [restore_loop, hs]
    exact hl

/-- On a regular system with solution `U`, `restore_secret` returns `true` and
leaves in `b[n-1]` the reduced bit field whose class is `U (n - 1)`. -/
theorem restore_secret_regular {F : FieldCtx} (h : PolyOK F) (hirr : GF2Irreducible F.poly)
    {n : Nat} (hn : 1 ≤ n) {U : Nat → AdjoinRoot (toPoly F.poly)} {A : Mat} {b : Vec}
    (hinv : ElimInv F n 0 U A b) {fuel : Nat} (hfuel : 2 * F.degree ≤ fuel)
    {s : Nat} (hs : s < 2 ^ F.degree) (hU : U (n - 1) = toField F s) :
    ∃ A' b', restore_secret F fuel n A b = RestoreResult.returned_true A' b' ∧
      b' (n - 1) = s := by
  haveI : Fact (Irreducible (toPoly F.poly)) := ⟨irreducible_toPoly hirr⟩
  obtain ⟨m, rfl⟩ : ∃ m, n = m + 1 := ⟨n - 1, by omega⟩
  obtain ⟨A', b', hl, hp0, hpr, hbr, hsol⟩ := elimInv_loop h m 0 A b (by omega) hinv
  obtain ⟨z, hz, hzlt, hzx⟩ := field_invert_spec h hirr hp0 hpr hfuel
  simp only [Nat.add_sub_cancel] at hp0 hpr hbr hsol hz hzx hU ⊢
  refine ⟨A', b'.set m (field_mult F (b' m) z), ?_, ?_⟩
  · simp only [restore_secret, Nat.add_sub_cancel]
    rw [hl]
    simp only [hz]
  · simp only [Vec.set, if_true]
    apply toField_inj h (field_mult_lt h hbr hzlt) hs
    rw [toField_mult h hbr hzlt, ← hU, ← hsol]
    have : Finset.Ico m (m + 1) = {m} := by
      ext x; simp only [Finset.mem_Ico, Finset.mem_singleton]; omega
    rw [this, Finset.sum_singleton]
    calc toField F (A' m m) * U m * toField F z
        = (toField F z * toField F (A' m m)) * U m := by ring
      _ = U m := by rw [hzx, one_mul]

/-! ## Split and combine -/

theorem field_mult_pow_comm {F : FieldCtx} (h : PolyOK F) {x : Nat} (hx : x < 2 ^ F.degree)
    (k : Nat) : field_mult F x (field_pow F x k) = field_pow F x (k + 1) := by
  apply toField_inj h (field_mult_lt h hx (field_pow_spec h hx k).1) (field_pow_spec h hx _).1
  rw [toField_mult h hx (field_pow_spec h hx k).1, (field_pow_spec h hx k).2,
    (field_pow_spec h hx _).2, pow_succ, mul_comm]

/-- The system that `combine` builds from `T` shares of one polynomial at distinct
in-range indices is regular, and the coefficients (highest first) solve it. -/
theorem combine_build_regular {F : FieldCtx} (h : PolyOK F) {T : Nat} (hT : 1 ≤ T)
    (coeff xs : Nat → Nat) (hc : ∀ k, k < T → coeff k < 2 ^ F.degree)
    (hx : ∀ k, k < T → xs k < 2 ^ F.degree)
    (hdist : ∀ a b, a < T → b < T → xs a = xs b → a = b)
    [Fact (Irreducible (toPoly F.poly))] :
    ElimInv F T 0 (fun r => toField F (coeff (T - 1 - r)))
      (combine_build F T (fun k => (xs k, horner F T (xs k) coeff))).1
      (combine_build F T (fun k => (xs k, horner F T (xs k) coeff))).2 := by
  have hsum : ∀ (w : Nat → AdjoinRoot (toPoly F.poly)) (k : Nat), k < T →
      ∑ r in Finset.Ico 0 T,
        toField F ((combine_build F T (fun k => (xs k, horner F T (xs k) coeff))).1 r k) * w r
        = ∑ j in Finset.range T, w (T - 1 - j) * toField F (xs k) ^ j := by
    intro w k hk
    rw [← Finset.range_eq_Ico,
      ← Finset.sum_range_reflect (fun j => w (T - 1 - j) * toField F (xs k) ^ j) T]
    apply Finset.sum_congr rfl
    intro r hr
    have hr' := Finset.mem_range.mp hr
    rw [combine_build_mat F hT _ hr' hk, (field_pow_spec h (hx k hk) _).2]
    have : T - 1 - (T - 1 - r) = r := by omega
    rw [this, mul_comm]
  refine ⟨?_, ?_, ?_, ?_⟩
  · intro r k _ hr _ hk
    rw [combine_build_mat F hT _ hr hk]
    exact (field_pow_spec h (hx k hk) _).1
  · intro k _ hk
    rw [combine_build_vec F hT _ hk]
    exact Nat.xor_lt_two_pow (horner_spec h hT (hx k hk) hc).1
      (field_mult_lt h (hx k hk) (field_pow_spec h (hx k hk) _).1)
  · intro k _ hk
    rw [hsum _ k hk, combine_build_vec F hT _ hk, field_add, toField_xor,
      (horner_spec h hT (hx k hk) hc).2,
      toField_mult h (hx k hk) (field_pow_spec h (hx k hk) _).1,
      (field_pow_spec h (hx k hk) _).2, ← pow_succ']
    have e : T - 1 + 1 = T := by omega
    rw [e]
    have hsame : ∑ j in Finset.range T,
        toField F (coeff (T - 1 - (T - 1 - j))) * toField F (xs k) ^ j
        = ∑ j in Finset.range T, toField F (coeff j) * toField F (xs k) ^ j := by
      apply Finset.sum_congr rfl
      intro j hj
      have := Finset.mem_range.mp hj
      have e : T - 1 - (T - 1 - j) = j := by omega
      rw [e]
    rw [hsame]
    have := toField_add_self F (toField F (xs k) ^ T)
    linear_combination (-1 : AdjoinRoot (toPoly F.poly)) * this
  · intro w hw r _ hr
    have key := vandermonde_kernel T (fun k => toField F (xs k))
      (fun a b ha hb hab => hdist a b ha hb (toField_inj h (hx a ha) (hx b hb) hab))
      (fun j => w (T - 1 - j))
      (fun k hk => by rw [← hsum w k hk]; exact hw k (Nat.zero_le _) hk)
      (T - 1 - r) (by omega)
    have e : T - 1 - (T - 1 - r) = r := by omega
    simp only [e] at key
    exact key

/-- C1 (split/combine round trip at the engine level): for `T >= 2` shares
`y_k = horner(T, x_k, coeff)` at pairwise distinct indices in `[1, 2^deg - 1]`,
over a valid `deg` whose table polynomial is irreducible, `combine` builds
`A[r][k] = x_k^(T-1-r)` and `b[k] = y_k xor x_k^T`, and `restore_secret(T, A, b)`
returns `true` and leaves `b[T-1] = coeff[0]`. -/
theorem split_combine_round_trip (deg T fuel : Nat) (coeff xs : Nat → Nat)
    (hdeg : field_size_valid deg = true) (hirr : GF2Irreducible (field_init deg).poly)
    (hT : 2 ≤ T) (hc : ∀ k, k < T → coeff k < 2 ^ deg)
    (hx : ∀ k, k < T → 1 ≤ xs k ∧ xs k < 2 ^ deg)
    (hdist : ∀ a b, a < T → b < T → xs a = xs b → a = b)
    (hfuel : 2 * deg ≤ fuel) :
    (∀ r k, r < T → k < T →
      (combine_build (field_init deg) T
        (fun k => (xs k, horner (field_init deg) T (xs k) coeff))).1 r k
        = field_pow (field_init deg) (xs k) (T - 1 - r)) ∧
    (∀ k, k < T →
      (combine_build (field_init deg) T
        (fun k => (xs k, horner (field_init deg) T (xs k) coeff))).2 k
        = field_add (horner (field_init deg) T (xs k) coeff)
            (field_pow (field_init deg) (xs k) T)) ∧
    ∃ A' b',
      restore_secret (field_init deg) fuel T
        (combine_build (field_init deg) T
          (fun k => (xs k, horner (field_init deg) T (xs k) coeff))).1
        (combine_build (field_init deg) T
          (fun k => (xs k, horner (field_init deg) T (xs k) coeff))).2
        = RestoreResult.returned_true A' b' ∧
      b' (T - 1) = coeff 0 := by
  have h := field_init_ok hdeg
  have hT1 : 1 ≤ T := by omega
  have hx' : ∀ k, k < T → xs k < 2 ^ (field_init deg).degree := fun k hk => (hx k hk).2
  have hc' : ∀ k, k < T → coeff k < 2 ^ (field_init deg).degree := hc
  haveI : Fact (Irreducible (toPoly (field_init deg).poly)) := ⟨irreducible_toPoly hirr⟩
  refine ⟨?_, ?_, ?_⟩
  · intro r k hr hk
    exact combine_build_mat _ hT1 _ hr hk
  · intro k hk
    rw [combine_build_vec _ hT1 _ hk]
    simp only []
    rw [field_mult_pow_comm h (hx' k hk)]
    congr 2
    omega
  · apply restore_secret_regular h hirr hT1
      (combine_build_regular h hT1 coeff xs hc' hx' hdist) hfuel (hc' 0 (by omega))
    have e : T - 1 - (T - 1) = 0 := by omega
    simp only [e]

theorem split_combine_round_trip_witness :
    field_size_valid 8 = true ∧ GF2Irreducible (field_init 8).poly ∧
    ∃ A' b',
      restore_secret (field_init 8) 16 2
        (combine_build (field_init 8) 2
          (fun k => (k + 1, horner (field_init 8) 2 (k + 1) (fun k => 171 + k)))).1
        (combine_build (field_init 8) 2
          (fun k => (k + 1, horner (field_init 8) 2 (k + 1) (fun k => 171 + k)))).2
        = RestoreResult.returned_true A' b' ∧
      b' (2 - 1) = 171 + 0 :=
  ⟨by decide, gf2Irreducible_deg8,
    (split_combine_round_trip 8 2 16 (fun k => 171 + k) (fun k => k + 1) (by decide)
      gf2Irreducible_deg8 (by decide)
      (fun k hk => by
        have : 171 + k < 173 := by omega
        exact lt_of_lt_of_le this (by decide))
      (fun k hk => ⟨Nat.succ_le_succ (Nat.zero_le k), by
        have : k + 1 < 3 := by omega
        exact lt_of_lt_of_le this (by decide)⟩)
      (fun a b _ _ hab => Nat.succ_injective hab) (by decide)).2.2⟩

/-! ## Secrecy of `T - 1` shares -/

theorem split_coeff_lt {deg c0 m : Nat} {c : Fin m → Nat} (h0 : c0 < 2 ^ deg)
    (hc : ∀ k, c k < 2 ^ deg) (k : Nat) : split_coeff c0 m c k < 2 ^ deg := by
  simp only [split_coeff]
  split_ifs
  · exact h0
  · exact hc _
  · exact Nat.two_pow_pos _

theorem field_tuples_finite (deg m : Nat) : (field_tuples deg m).Finite := by
  have : field_tuples deg m = {f : Fin m → Nat | ∀ i, f i ∈ Set.Iio (2 ^ deg)} := by
    ext c; simp [field_tuples]
  rw [this]
  exact Set.Finite.pi' (fun _ => Set.finite_Iio _)

theorem share_values_injOn {F : FieldCtx} (h : PolyOK F) (hirr : GF2Irreducible F.poly)
    {T : Nat} (hT : 2 ≤ T) {c0 : Nat} (h0 : c0 < 2 ^ F.degree) {xs : Nat → Nat}
    (hx : ∀ j, j < T - 1 → 1 ≤ xs j ∧ xs j < 2 ^ F.degree)
    (hdist : ∀ a b, a < T - 1 → b < T - 1 → xs a = xs b → a = b) :
    Set.InjOn (share_values F T c0 xs) (field_tuples F.degree (T - 1)) := by
  haveI : Fact (Irreducible (toPoly F.poly)) := ⟨irreducible_toPoly hirr⟩
  intro c hc c' hc' heq
  have hcl := fun k (_ : k < T) => split_coeff_lt h0 hc k
  have hcl' := fun k (_ : k < T) => split_coeff_lt h0 hc' k
  have hval : ∀ j, j < T - 1 →
      ∑ k in Finset.range (T - 1),
        (toField F (split_coeff c0 (T - 1) c (k + 1))
          - toField F (split_coeff c0 (T - 1) c' (k + 1))) * toField F (xs j) ^ k = 0 := by
    intro j hj
    have e := congrFun heq ⟨j, hj⟩
    simp only [share_values] at e
    have e' := congrArg (toField F) e
    rw [(horner_spec h (by omega) (hx j hj).2 hcl).2,
      (horner_spec h (by omega) (hx j hj).2 hcl').2] at e'
    have e2 := add_left_cancel e'
    have hrange : Finset.range T = Finset.range (T - 1 + 1) := by
      congr 1; omega
    rw [hrange, Finset.sum_range_succ', Finset.sum_range_succ'] at e2
    have hc00 : split_coeff c0 (T - 1) c 0 = split_coeff c0 (T - 1) c' 0 := by
      simp [split_coeff]
    rw [hc00] at e2
    have e3 := add_right_cancel e2
    have hxne : toField F (xs j) ≠ 0 := by
      intro hz
      have := (toField_eq_zero h (hx j hj).2).mp hz
      have := (hx j hj).1
      omega
    apply mul_left_cancel₀ hxne
    rw [mul_zero, Finset.mul_sum]
    rw [← sub_eq_zero, ← Finset.sum_sub_distrib] at e3
    rw [← e3]
    apply Finset.sum_congr rfl
    intro k _
    ring
  have key := vandermonde_kernel (T - 1) (fun j => toField F (xs j))
    (fun a b ha hb hab => hdist a b ha hb (toField_inj h (hx a ha).2 (hx b hb).2 hab))
    (fun k => toField F (split_coeff c0 (T - 1) c (k + 1))
      - toField F (split_coeff c0 (T - 1) c' (k + 1))) hval
  funext ⟨k, hk⟩
  have hk0 := sub_eq_zero.mp (key k hk)
  have := toField_inj h (split_coeff_lt h0 hc (k + 1)) (split_coeff_lt h0 hc' (k + 1)) hk0
  simpa [split_coeff, hk] using this

/-- C2 (secrecy of `T - 1` shares): for a fixed secret coefficient `coeff[0]` and
`T - 1` pairwise distinct share indices in `[1, 2^deg - 1]`, over a valid `deg`
whose table polynomial is irreducible, the map from the random coefficients
`(coeff[1], ..., coeff[T-1])` to the share values
`(horner(T, x_1, coeff), ..., horner(T, x_{T-1}, coeff))` is a bijection of the
`(T-1)`-tuples of field elements, so that every tuple of share values comes from
exactly one tuple of coefficients whatever the secret is. -/
theorem shares_bijective (deg T c0 : Nat) (xs : Nat → Nat)
    (hdeg : field_size_valid deg = true) (hirr : GF2Irreducible (field_init deg).poly)
    (hT : 2 ≤ T) (h0 : c0 < 2 ^ deg)
    (hx : ∀ j, j < T - 1 → 1 ≤ xs j ∧ xs j < 2 ^ deg)
    (hdist : ∀ a b, a < T - 1 → b < T - 1 → xs a = xs b → a = b) :
    Set.BijOn (share_values (field_init deg) T c0 xs)
      (field_tuples deg (T - 1)) (field_tuples deg (T - 1)) := by
  have h := field_init_ok hdeg
  have hmaps : Set.MapsTo (share_values (field_init deg) T c0 xs)
      (field_tuples deg (T - 1)) (field_tuples deg (T - 1)) := by
    intro c hc j
    exact (horner_spec h (by omega) (hx j j.2).2
      (fun k _ => @split_coeff_lt (field_init deg).degree c0 (T - 1) c h0 hc k)).1
  exact ((field_tuples_finite deg (T - 1)).injOn_iff_bijOn_of_mapsTo hmaps).mp
    (share_values_injOn h hirr hT h0 hx hdist)

theorem shares_bijective_witness :
    field_size_valid 8 = true ∧ GF2Irreducible (field_init 8).poly ∧
    Set.BijOn (share_values (field_init 8) 3 171 (fun j => j + 1))
      (field_tuples 8 (3 - 1)) (field_tuples 8 (3 - 1)) :=
  ⟨by decide, gf2Irreducible_deg8,
    shares_bijective 8 3 171 (fun j => j + 1) (by decide) gf2Irreducible_deg8 (by decide)
      (by decide)
      (fun j hj => ⟨Nat.succ_le_succ (Nat.zero_le j), by
        have : j + 1 < 3 := by omega
        exact lt_of_lt_of_le this (by decide)⟩)
      (fun a b _ _ hab => Nat.succ_injective hab)⟩

/-! ## The block cipher -/

theorem encipher_round_lt (s : Nat × Nat × Nat) :
    (encipher_round s).1 < 2 ^ 32 ∧ (encipher_round s).2.1 < 2 ^ 32 ∧
    (encipher_round s).2.2 < 2 ^ 32 := by
  simp only [encipher_round]
  refine ⟨?_, ?_, ?_⟩ <;> exact Nat.mod_lt _ (by norm_num)

theorem decipher_encipher_round (s : Nat × Nat × Nat)
    (h0 : s.1 < 2 ^ 32) (h1 : s.2.1 < 2 ^ 32) (h2 : s.2.2 < 2 ^ 32) :
    decipher_round (encipher_round s) = s := by
  obtain ⟨v0, v1, sum⟩ := s
  simp only at h0 h1 h2
  simp only [encipher_round, decipher_round, xtea_delta]
  have hs : ((sum + 2654435769) % 2 ^ 32 + (2 ^ 32 - 2654435769)) % 2 ^ 32 = sum := by omega
  have e1 : ∀ m : Nat, ((v1 + m) % 2 ^ 32 + (2 ^ 32 - m % 2 ^ 32)) % 2 ^ 32 = v1 := by
    intro m; omega
  have e0 : ∀ m : Nat, ((v0 + m) % 2 ^ 32 + (2 ^ 32 - m % 2 ^ 32)) % 2 ^ 32 = v0 := by
    intro m; omega
  rw [hs, e1, e0]

theorem encipher_iterate_lt (k : Nat) (s : Nat × Nat × Nat)
    (h0 : s.1 < 2 ^ 32) (h1 : s.2.1 < 2 ^ 32) (h2 : s.2.2 < 2 ^ 32) :
    (encipher_round^[k] s).1 < 2 ^ 32 ∧ (encipher_round^[k] s).2.1 < 2 ^ 32 ∧
    (encipher_round^[k] s).2.2 < 2 ^ 32 := by
  cases k with
  | zero => exact ⟨h0, h1, h2⟩
  | succ k =>
    rw [Function.iterate_succ_apply']
    exact encipher_round_lt _

theorem decipher_encipher_iterate (k : Nat) (s : Nat × Nat × Nat)
    (h0 : s.1 < 2 ^ 32) (h1 : s.2.1 < 2 ^ 32) (h2 : s.2.2 < 2 ^ 32) :
    decipher_round^[k] (encipher_round^[k] s) = s := by
  induction k with
  | zero => rfl
  | succ k ih =>
    obtain ⟨a, b, c⟩ := encipher_iterate_lt k s h0 h1 h2
    rw [Function.iterate_succ_apply, Function.iterate_succ_apply',
      decipher_encipher_round _ a b c, ih]

theorem encipher_iterate_sum (k : Nat) (s : Nat × Nat × Nat) :
    (encipher_round^[k] s).2.2 = (s.2.2 + k * xtea_delta) % 2 ^ 32 ∨ k = 0 := by
  induction k with
  | zero => right; rfl
  | succ k ih =>
    left
    rw [Function.iterate_succ_apply']
    rcases ih with ih | rfl
    · simp only [encipher_round]
      rw [ih]
      have : s.2.2 + (k + 1) * xtea_delta = s.2.2 + k * xtea_delta + xtea_delta := by ring
      rw [this]
      omega
    · simp [encipher_round]

/-- The block decipherment undoes the block encipherment on 32-bit words. -/
theorem decipher_encipher_block (v : Nat × Nat) (h0 : v.1 < 2 ^ 32) (h1 : v.2 < 2 ^ 32) :
    decipher_block (encipher_block v) = v := by
  have hsum : (encipher_round^[32] (v.1, v.2, 0)).2.2 = 0xC6EF3720 := by
    rcases encipher_iterate_sum 32 (v.1, v.2, 0) with h | h
    · rw [h]; simp [xtea_delta]
    · exact absurd h (by norm_num)
  have key := decipher_encipher_iterate 32 (v.1, v.2, 0) h0 h1 (by norm_num)
  simp only [decipher_block, encipher_block]
  rw [← hsum]
  simp only [Prod.mk.eta]
  rw [key]

theorem encipher_block_lt (v : Nat × Nat) :
    (encipher_block v).1 < 2 ^ 32 ∧ (encipher_block v).2 < 2 ^ 32 := by
  simp only [encipher_block]
  rw [Function.iterate_succ_apply']
  exact ⟨(encipher_round_lt _).1, (encipher_round_lt _).2.1⟩

/-! ## Bytes and words -/

theorem shiftLeft_or_lt {b i : Nat} (a : Nat) (h : b < 2 ^ i) :
    a <<< i ||| b = a * 2 ^ i + b := by
  rw [Nat.shiftLeft_eq, mul_comm a, Nat.mul_add_lt_is_or h]

theorem or_bytes {b0 b1 b2 b3 : Nat} (h1 : b1 < 256) (h2 : b2 < 256) (h3 : b3 < 256) :
    b0 <<< 24 ||| b1 <<< 16 ||| b2 <<< 8 ||| b3
      = b0 * 2 ^ 24 + b1 * 2 ^ 16 + b2 * 2 ^ 8 + b3 := by
  rw [Nat.or_assoc, Nat.or_assoc, shiftLeft_or_lt b2 (by omega : b3 < 2 ^ 8),
    shiftLeft_or_lt b1 (by omega : b2 * 2 ^ 8 + b3 < 2 ^ 16),
    shiftLeft_or_lt b0 (by omega : b1 * 2 ^ 16 + (b2 * 2 ^ 8 + b3) < 2 ^ 24)]
  omega

theorem and_ff (w : Nat) : w &&& 0xff = w % 256 :=
  Nat.and_pow_two_sub_one_eq_mod w 8

/-! ## Byte buffers -/

theorem rd_set (v : Bytes) (p a q : Nat) :
    Bytes.rd (v.set p a) q = if q = p ∧ p < v.length then a else Bytes.rd v q := by
  simp only [Bytes.rd, List.getD_eq_getElem?_getD, List.getElem?_set]
  by_cases h : p = q
  · subst h
    by_cases hl : p < v.length
    · simp [hl]
    · simp [hl]
      have : v.length ≤ p := by omega
      simp [List.getElem?_eq_none this]
  · have h' : ¬ (q = p ∧ p < v.length) := fun hh => h hh.1.symm
    simp [h, h']

theorem rd_of_length_le {v : Bytes} {i : Nat} (h : v.length ≤ i) : Bytes.rd v i = 0 := by
  simp [Bytes.rd, List.getD_eq_getElem?_getD, List.getElem?_eq_none h]

theorem ext_rd {v w : Bytes} (hl : v.length = w.length)
    (h : ∀ i, i < v.length → Bytes.rd v i = Bytes.rd w i) : v = w := by
  apply List.ext_getElem hl
  intro n h1 h2
  have := h n h1
  simp only [Bytes.rd, List.getD_eq_getElem?_getD, List.getElem?_eq_getElem h1,
    List.getElem?_eq_getElem h2, Option.getD_some] at this
  exact this

theorem slice_pos_ne {idx len a b : Nat} (hlen : 8 ≤ len) (ha : a < 8) (hb : b < 8)
    (hab : a ≠ b) : (idx + a) % len ≠ (idx + b) % len := by
  intro h
  have h1 : (idx + a) ≡ (idx + b) [MOD len] := h
  have h2 : a ≡ b [MOD len] := Nat.ModEq.add_left_cancel' idx h1
  have h3 : a % len = b % len := h2
  rw [Nat.mod_eq_of_lt (by omega), Nat.mod_eq_of_lt (by omega)] at h3
  exact hab h3

theorem length_encode_slice (v : Bytes) (idx len : Nat) (pb : Nat × Nat → Nat × Nat) :
    (encode_slice v idx len pb).length = v.length := by
  simp [encode_slice, store32]

theorem rd_encode_slice (v : Bytes) (idx len : Nat) (pb : Nat × Nat → Nat × Nat)
    (hlen : 8 ≤ len) (hv : len ≤ v.length) (q : Nat) :
    Bytes.rd (encode_slice v idx len pb) q =
      if q = (idx + 7) % len then (pb (load32 v idx len 0, load32 v idx len 1)).2 % 256
      else if q = (idx + 6) % len then
        ((pb (load32 v idx len 0, load32 v idx len 1)).2 >>> 8) % 256
      else if q = (idx + 5) % len then
        ((pb (load32 v idx len 0, load32 v idx len 1)).2 >>> 16) % 256
      else if q = (idx + 4) % len then
        ((pb (load32 v idx len 0, load32 v idx len 1)).2 >>> 24) % 256
      else if q = (idx + 3) % len then (pb (load32 v idx len 0, load32 v idx len 1)).1 % 256
      else if q = (idx + 2) % len then
        ((pb (load32 v idx len 0, load32 v idx len 1)).1 >>> 8) % 256
      else if q = (idx + 1) % len then
        ((pb (load32 v idx len 0, load32 v idx len 1)).1 >>> 16) % 256
      else if q = idx % len then
        ((pb (load32 v idx len 0, load32 v idx len 1)).1 >>> 24) % 256
      else Bytes.rd v q := by
  have hp : ∀ k, (idx + k) % len < v.length := fun k =>
    lt_of_lt_of_le (Nat.mod_lt _ (by omega)) hv
  have hp0 : idx % len < v.length := by simpa using hp 0
  simp only [encode_slice, store32, rd_set, List.length_set, and_ff, Nat.mul_zero, Nat.mul_one,
    Nat.add_zero, Nat.add_assoc, Nat.reduceAdd, hp, hp0, and_true]

theorem slice_pos_eq_iff {idx len a b : Nat} (hlen : 8 ≤ len) (ha : a < 8) (hb : b < 8) :
    (idx + a) % len = (idx + b) % len ↔ a = b := by
  constructor
  · intro h
    by_contra hab
    exact slice_pos_ne hlen ha hb hab h
  · rintro rfl; rfl

theorem slice_pos_eq_iff_left {idx len b : Nat} (hlen : 8 ≤ len) (hb : b < 8) :
    idx % len = (idx + b) % len ↔ 0 = b := by
  simpa using @slice_pos_eq_iff idx len 0 b hlen (by norm_num : 0 < 8) hb

theorem slice_pos_eq_iff_right {idx len a : Nat} (hlen : 8 ≤ len) (ha : a < 8) :
    (idx + a) % len = idx % len ↔ a = 0 := by
  simpa using @slice_pos_eq_iff idx len a 0 hlen ha (by norm_num : 0 < 8)

theorem rd_encode_slice_at (v : Bytes) (idx len : Nat) (pb : Nat × Nat → Nat × Nat)
    (hlen : 8 ≤ len) (hv : len ≤ v.length) {k : Nat} (hk : k < 8) :
    Bytes.rd (encode_slice v idx len pb) ((idx + k) % len)
      = slice_byte (pb (load32 v idx len 0, load32 v idx len 1)) k := by
  rw [rd_encode_slice v idx len pb hlen hv]
  interval_cases k <;>
    simp [slice_byte, slice_pos_eq_iff hlen, slice_pos_eq_iff_left hlen,
      slice_pos_eq_iff_right hlen]

theorem rd_encode_slice_other (v : Bytes) (idx len : Nat) (pb : Nat × Nat → Nat × Nat)
    (hlen : 8 ≤ len) (hv : len ≤ v.length) {q : Nat}
    (hq : ∀ k, k < 8 → q ≠ (idx + k) % len) :
    Bytes.rd (encode_slice v idx len pb) q = Bytes.rd v q := by
  rw [rd_encode_slice v idx len pb hlen hv]
  have h0 := hq 0 (by norm_num)
  rw [Nat.add_zero] at h0
  rw [if_neg (hq 7 (by norm_num)), if_neg (hq 6 (by norm_num)), if_neg (hq 5 (by norm_num)),
    if_neg (hq 4 (by norm_num)), if_neg (hq 3 (by norm_num)), if_neg (hq 2 (by norm_num)),
    if_neg (hq 1 (by norm_num)), if_neg h0]

theorem slice_byte_lt (w : Nat × Nat) (k : Nat) : slice_byte w k < 256 := by
  simp only [slice_byte]
  split <;> exact Nat.mod_lt _ (by norm_num)

/-- Loading the block from the eight bytes of a block gives the block back. -/
theorem load32_of_slice_bytes (v : Bytes) (idx len : Nat) (w : Nat × Nat)
    (h1 : w.1 < 2 ^ 32) (h2 : w.2 < 2 ^ 32)
    (hb : ∀ k, k < 8 → Bytes.rd v ((idx + k) % len) = slice_byte w k) :
    load32 v idx len 0 = w.1 ∧ load32 v idx len 1 = w.2 := by
  have b0 := hb 0 (by norm_num)
  have b1 := hb 1 (by norm_num)
  have b2 := hb 2 (by norm_num)
  have b3 := hb 3 (by norm_num)
  have b4 := hb 4 (by norm_num)
  have b5 := hb 5 (by norm_num)
  have b6 := hb 6 (by norm_num)
  have b7 := hb 7 (by norm_num)
  simp only [slice_byte, Nat.add_zero] at b0 b1 b2 b3 b4 b5 b6 b7
  norm_num at b0 b1 b2 b3 b4 b5 b6 b7
  constructor
  · simp only [load32, Nat.mul_zero, Nat.add_zero, Nat.zero_add]
    rw [b0, b1, b2, b3, or_bytes (Nat.mod_lt _ (by norm_num)) (Nat.mod_lt _ (by norm_num))
      (Nat.mod_lt _ (by norm_num))]
    omega
  · simp only [load32, Nat.mul_one, Nat.add_assoc, Nat.reduceAdd]
    rw [b4, b5, b6, b7, or_bytes (Nat.mod_lt _ (by norm_num)) (Nat.mod_lt _ (by norm_num))
      (Nat.mod_lt _ (by norm_num))]
    omega

/-- The eight bytes of the block loaded from a buffer of bytes are these bytes. -/
theorem slice_byte_load32 (v : Bytes) (idx len : Nat)
    (hb : ∀ k, k < 8 → Bytes.rd v ((idx + k) % len) < 256) {k : Nat} (hk : k < 8) :
    slice_byte (load32 v idx len 0, load32 v idx len 1) k = Bytes.rd v ((idx + k) % len) := by
  have b0 := hb 0 (by norm_num)
  have b1 := hb 1 (by norm_num)
  have b2 := hb 2 (by norm_num)
  have b3 := hb 3 (by norm_num)
  have b4 := hb 4 (by norm_num)
  have b5 := hb 5 (by norm_num)
  have b6 := hb 6 (by norm_num)
  have b7 := hb 7 (by norm_num)
  simp only [Nat.add_zero] at b0
  have e0 : load32 v idx len 0
      = Bytes.rd v (idx % len) * 2 ^ 24 + Bytes.rd v ((idx + 1) % len) * 2 ^ 16
        + Bytes.rd v ((idx + 2) % len) * 2 ^ 8 + Bytes.rd v ((idx + 3) % len) := by
    simp only [load32, Nat.mul_zero, Nat.add_zero]
    rw [or_bytes b1 b2 b3]
    omega
  have e1 : load32 v idx len 1
      = Bytes.rd v ((idx + 4) % len) * 2 ^ 24 + Bytes.rd v ((idx + 5) % len) * 2 ^ 16
        + Bytes.rd v ((idx + 6) % len) * 2 ^ 8 + Bytes.rd v ((idx + 7) % len) := by
    simp only [load32, Nat.mul_one, Nat.add_assoc, Nat.reduceAdd]
    rw [or_bytes b5 b6 b7]
    omega
  simp only [slice_byte]
  rw [e0, e1]
  interval_cases k <;> norm_num <;> omega

/-! ## Slices and the two loops of `encode_mpz` -/

theorem isBuf_encode_slice {L : Nat} {v : Bytes} (hv : IsBuf L v) (idx len : Nat)
    (pb : Nat × Nat → Nat × Nat) (hlen : 8 ≤ len) (hL : len ≤ L) :
    IsBuf L (encode_slice v idx len pb) := by
  refine ⟨by rw [length_encode_slice]; exact hv.1, ?_⟩
  intro i
  rw [rd_encode_slice v idx len pb hlen (by rw [hv.1]; exact hL)]
  split_ifs <;> first | exact Nat.mod_lt _ (by norm_num) | exact hv.2 i

/-- Deciphering a slice that was just enciphered restores the buffer. -/
theorem decode_encode_slice {L : Nat} {v : Bytes} (hv : IsBuf L v) (idx len : Nat)
    (hlen : 8 ≤ len) (hL : len ≤ L) :
    encode_slice (encode_slice v idx len encipher_block) idx len decipher_block = v := by
  have hvl : len ≤ v.length := by rw [hv.1]; exact hL
  have hv' := isBuf_encode_slice hv idx len encipher_block hlen hL
  have hvl' : len ≤ (encode_slice v idx len encipher_block).length := by rw [hv'.1]; exact hL
  have hlt := encipher_block_lt (load32 v idx len 0, load32 v idx len 1)
  have hload := load32_of_slice_bytes (encode_slice v idx len encipher_block) idx len
    (encipher_block (load32 v idx len 0, load32 v idx len 1)) hlt.1 hlt.2
    (fun k hk => rd_encode_slice_at v idx len encipher_block hlen hvl hk)
  have hin : (load32 v idx len 0, load32 v idx len 1).1 < 2 ^ 32 ∧
      (load32 v idx len 0, load32 v idx len 1).2 < 2 ^ 32 := by
    constructor <;> exact Nat.mod_lt _ (by norm_num)
  apply ext_rd
  · rw [length_encode_slice, length_encode_slice]
  · intro q _
    by_cases hq : ∃ k, k < 8 ∧ q = (idx + k) % len
    · obtain ⟨k, hk, rfl⟩ := hq
      rw [rd_encode_slice_at _ idx len decipher_block hlen hvl' hk, hload.1, hload.2,
        Prod.mk.eta, decipher_encipher_block _ hin.1 hin.2,
        slice_byte_load32 v idx len (fun k _ => hv.2 _) hk]
    · have hq' : ∀ k, k < 8 → q ≠ (idx + k) % len := fun k hk h => hq ⟨k, hk, h⟩
      rw [rd_encode_slice_other _ idx len decipher_block hlen hvl' hq',
        rd_encode_slice_other v idx len encipher_block hlen hvl hq']

theorem encode_loop_succ (len : Nat) :
    ∀ (c i : Nat) (v : Bytes),
      encode_loop len (c + 1) i v
        = encode_slice (encode_loop len c i v) (i + 2 * c) len encipher_block := by
  intro c
  induction c with
  | zero => intro i v; simp [encode_loop]
  | succ c ih =>
    intro i v
    rw [encode_loop, ih (i + 2) _, encode_loop]
    congr 1
    omega

theorem isBuf_encode_loop {L len : Nat} (hlen : 8 ≤ len) (hL : len ≤ L) :
    ∀ (c i : Nat) (v : Bytes), IsBuf L v → IsBuf L (encode_loop len c i v) := by
  intro c
  induction c with
  | zero => intro i v hv; exact hv
  | succ c ih =>
    intro i v hv
    rw [encode_loop]
    exact ih _ _ (isBuf_encode_slice hv i len _ hlen hL)

theorem isBuf_decode_loop {L len : Nat} (hlen : 8 ≤ len) (hL : len ≤ L) :
    ∀ (c : Nat) (v : Bytes), IsBuf L v → IsBuf L (decode_loop len c v) := by
  intro c
  induction c with
  | zero => intro v hv; exact hv
  | succ c ih =>
    intro v hv
    rw [decode_loop]
    exact ih _ (isBuf_encode_slice hv _ len _ hlen hL)

/-- The decoding loop undoes the encoding loop of the same length. -/
theorem decode_encode_loop {L len : Nat} (hlen : 8 ≤ len) (hL : len ≤ L) :
    ∀ (c : Nat) (v : Bytes), IsBuf L v →
      decode_loop len c (encode_loop len c 0 v) = v := by
  intro c
  induction c with
  | zero => intro v _; rfl
  | succ c ih =>
    intro v hv
    rw [encode_loop_succ, decode_loop, Nat.zero_add,
      decode_encode_slice (isBuf_encode_loop hlen hL c 0 v hv) _ _ hlen hL, ih v hv]

/-- A write outside of the cyclic window `[0, len)` commutes with a slice. -/
theorem encode_slice_set {L : Nat} {v : Bytes} (hv : IsBuf L v) (idx len : Nat)
    (pb : Nat × Nat → Nat × Nat) (hlen : 8 ≤ len) (hL : len ≤ L) {q : Nat} (hq : len ≤ q)
    (a : Nat) :
    encode_slice (v.set q a) idx len pb = (encode_slice v idx len pb).set q a := by
  have hvl : len ≤ v.length := by rw [hv.1]; exact hL
  have hvl' : len ≤ (v.set q a).length := by rw [List.length_set]; exact hvl
  have hpos : ∀ p, p % len ≠ q := fun p h => by
    have := Nat.mod_lt p (by omega : 0 < len)
    omega
  have hld : ∀ i, load32 (v.set q a) idx len i = load32 v idx len i := by
    intro i
    simp only [load32, rd_set]
    rw [if_neg (fun h => hpos _ h.1), if_neg (fun h => hpos _ h.1),
      if_neg (fun h => hpos _ h.1), if_neg (fun h => hpos _ h.1)]
  apply ext_rd
  · simp [length_encode_slice]
  · intro r _
    by_cases hr : ∃ k, k < 8 ∧ r = (idx + k) % len
    · obtain ⟨k, hk, rfl⟩ := hr
      rw [rd_encode_slice_at _ idx len pb hlen hvl' hk, rd_set,
        if_neg (fun h => hpos _ h.1), rd_encode_slice_at _ idx len pb hlen hvl hk, hld, hld]
    · have hr' : ∀ k, k < 8 → r ≠ (idx + k) % len := fun k hk h => hr ⟨k, hk, h⟩
      rw [rd_encode_slice_other _ idx len pb hlen hvl' hr', rd_set, rd_set,
        length_encode_slice, rd_encode_slice_other _ idx len pb hlen hvl hr']

theorem isBuf_set {L : Nat} {v : Bytes} (hv : IsBuf L v) (q : Nat) {a : Nat} (ha : a < 256) :
    IsBuf L (v.set q a) := by
  refine ⟨by rw [List.length_set]; exact hv.1, ?_⟩
  intro i
  rw [rd_set]
  split
  · exact ha
  · exact hv.2 i

theorem decode_loop_set {L len : Nat} (hlen : 8 ≤ len) (hL : len ≤ L) {q : Nat}
    (hq : len ≤ q) (a : Nat) :
    ∀ (c : Nat) (v : Bytes), IsBuf L v →
      decode_loop len c (v.set q a) = (decode_loop len c v).set q a := by
  intro c
  induction c with
  | zero => intro v _; rfl
  | succ c ih =>
    intro v hv
    rw [decode_loop, decode_loop, encode_slice_set hv _ _ _ hlen hL hq,
      ih _ (isBuf_encode_slice hv _ len _ hlen hL)]

/-! ## Export and import of the buffer -/

theorem export_byte_lt (x i : Nat) : export_byte x i < 256 := by
  simp only [export_byte]
  split <;> exact Nat.mod_lt _ (by norm_num)

theorem export_byte_zero {x c i : Nat} (hx : x < 2 ^ (16 * c)) (hi : 2 * c ≤ i) :
    export_byte x i = 0 := by
  have h1 : x < 2 ^ (16 * (i / 2)) :=
    lt_of_lt_of_le hx (Nat.pow_le_pow_right (by norm_num) (by omega))
  have h2 : x < 2 ^ (16 * (i / 2) + 8) :=
    lt_of_lt_of_le hx (Nat.pow_le_pow_right (by norm_num) (by omega))
  simp only [export_byte, Nat.shiftRight_eq_div_pow, Nat.div_eq_of_lt h1, Nat.div_eq_of_lt h2]
  split <;> rfl

theorem lt_two_pow_words (x : Nat) : x < 2 ^ (16 * ((mpz_sizeinbits x + 15) / 16)) := by
  rw [sizeinbits_eq_size]
  exact lt_of_lt_of_le (Nat.lt_size_self x) (Nat.pow_le_pow_right (by norm_num) (by omega))

/-- The buffer after `memset` and `mpz_export` holds the bytes of `x`. -/
theorem export_spec {L x : Nat} (hL : 2 * ((mpz_sizeinbits x + 15) / 16) ≤ L) :
    IsBuf L (mpz_export_2be (List.replicate L 0) x) ∧
    ∀ i, Bytes.rd (mpz_export_2be (List.replicate L 0) x) i = export_byte x i := by
  have hlen : (mpz_export_2be (List.replicate L 0) x).length = L := by
    simp only [mpz_export_2be, List.length_map, List.length_range, List.length_replicate]
    omega
  have hrd : ∀ i, Bytes.rd (mpz_export_2be (List.replicate L 0) x) i = export_byte x i := by
    intro i
    by_cases hi : i < L
    · have hi' : i < (List.range (max (List.replicate L 0).length
          (2 * ((mpz_sizeinbits x + 15) / 16)))).length := by
        simp only [List.length_range, List.length_replicate]; omega
      simp only [Bytes.rd, mpz_export_2be, List.getD_eq_getElem?_getD]
      rw [List.getElem?_map, List.getElem?_eq_getElem hi']
      simp only [List.getElem_range, Option.map_some', Option.getD_some]
      split
      · rfl
      · rename_i hc
        rw [export_byte_zero (lt_two_pow_words x) (by omega)]
        simp [List.getElem?_replicate, hi]
    · rw [rd_of_length_le (by rw [hlen]; omega),
        export_byte_zero (lt_two_pow_words x) (by omega)]
  exact ⟨⟨hlen, fun i => by rw [hrd]; exact export_byte_lt x i⟩, hrd⟩

theorem import_lt {v : Bytes} (hv : ∀ i, Bytes.rd v i < 256) (W : Nat) :
    mpz_import_2be W v < 2 ^ (16 * W) := by
  induction W with
  | zero => simp [mpz_import_2be]
  | succ W ih =>
    rw [mpz_import_2be]
    have h1 := hv (2 * W)
    have h2 := hv (2 * W + 1)
    have e : 2 ^ (16 * (W + 1)) = 65536 * 2 ^ (16 * W) := by
      rw [show 16 * (W + 1) = 16 + 16 * W by ring, pow_add]; norm_num
    rw [e]
    have hw : Bytes.rd v (2 * W) * 256 + Bytes.rd v (2 * W + 1) ≤ 65535 := by omega
    have := Nat.mul_le_mul_right (2 ^ (16 * W)) hw
    omega

theorem import_export {v : Bytes} {x : Nat} (W : Nat)
    (hv : ∀ i, i < 2 * W → Bytes.rd v i = export_byte x i) :
    mpz_import_2be W v = x % 2 ^ (16 * W) := by
  induction W with
  | zero => simp [mpz_import_2be, Nat.mod_one]
  | succ W ih =>
    rw [mpz_import_2be, ih (fun i hi => hv i (by omega)), hv (2 * W) (by omega),
      hv (2 * W + 1) (by omega)]
    have e0 : (2 * W) % 2 = 0 := by omega
    have e1 : (2 * W + 1) % 2 = 1 := by omega
    have d0 : (2 * W) / 2 = W := by omega
    have d1 : (2 * W + 1) / 2 = W := by omega
    simp only [export_byte, e0, e1, d0, d1, if_true, one_ne_zero, if_false]
    have e : 2 ^ (16 * (W + 1)) = 2 ^ (16 * W) * 2 ^ 16 := by
      rw [show 16 * (W + 1) = 16 * W + 16 by ring, pow_add]
    rw [e, Nat.mod_mul, Nat.shiftRight_add, Nat.shiftRight_eq_div_pow x (16 * W)]
    have : (x / 2 ^ (16 * W)) >>> 8 % 256 * 256 + x / 2 ^ (16 * W) % 256
        = x / 2 ^ (16 * W) % 2 ^ 16 := by
      generalize x / 2 ^ (16 * W) = y
      omega
    rw [this, mul_comm (2 ^ (16 * W))]

/-- Two buffers of bytes with the same import have the same bytes. -/
theorem import_inj {v w : Bytes} (hv : ∀ i, Bytes.rd v i < 256) (hw : ∀ i, Bytes.rd w i < 256) :
    ∀ W, mpz_import_2be W v = mpz_import_2be W w →
      ∀ i, i < 2 * W → Bytes.rd v i = Bytes.rd w i := by
  intro W
  induction W with
  | zero => intro _ i hi; omega
  | succ W ih =>
    intro h i hi
    rw [mpz_import_2be, mpz_import_2be] at h
    have a1 := import_lt hv W
    have a2 := import_lt hw W
    have hmod := congrArg (fun t => t % 2 ^ (16 * W)) h
    simp only [Nat.add_mul_mod_self_right] at hmod
    rw [Nat.mod_eq_of_lt a1, Nat.mod_eq_of_lt a2] at hmod
    rw [hmod] at h
    have hword := Nat.eq_of_mul_eq_mul_right (Nat.two_pow_pos (16 * W)) (Nat.add_left_cancel h)
    have b1 := hv (2 * W)
    have b2 := hv (2 * W + 1)
    have b3 := hw (2 * W)
    have b4 := hw (2 * W + 1)
    by_cases hlt : i < 2 * W
    · exact ih hmod i hlt
    · have : i = 2 * W ∨ i = 2 * W + 1 := by omega
      rcases this with rfl | rfl <;> omega

/-! ## The diffusion layer is invertible -/

theorem export_import {W : Nat} {v : Bytes} (hv : IsBuf (W * 2) v) :
    mpz_export_2be (List.replicate (W * 2) 0) (mpz_import_2be W v) = v := by
  have hlt := import_lt hv.2 W
  have hc : 2 * ((mpz_sizeinbits (mpz_import_2be W v) + 15) / 16) ≤ W * 2 := by
    rw [sizeinbits_eq_size]
    have : Nat.size (mpz_import_2be W v) ≤ 16 * W := Nat.size_le.mpr hlt
    omega
  obtain ⟨hb, hrd⟩ := export_spec hc
  apply ext_rd (by rw [hb.1, hv.1])
  intro i hi
  rw [hb.1] at hi
  apply import_inj hb.2 hv.2 W _ i (by omega)
  rw [import_export W (fun i _ => hrd i), Nat.mod_eq_of_lt hlt]

theorem export_fits {deg x : Nat} (h8 : deg % 8 = 0) (hx : x < 2 ^ deg) :
    2 * ((mpz_sizeinbits x + 15) / 16) ≤ (deg + 8) / 16 * 2 := by
  rw [sizeinbits_eq_size]
  have : Nat.size x ≤ deg := Nat.size_le.mpr hx
  omega

theorem import_export_self {deg x : Nat} (h8 : deg % 8 = 0) (hx : x < 2 ^ deg) :
    mpz_import_2be ((deg + 8) / 16) (mpz_export_2be (List.replicate ((deg + 8) / 16 * 2) 0) x)
      = x := by
  obtain ⟨_, hrd⟩ := export_spec (export_fits h8 hx)
  rw [import_export _ (fun i _ => hrd i)]
  apply Nat.mod_eq_of_lt
  exact lt_of_lt_of_le hx (Nat.pow_le_pow_right (by norm_num) (by omega))

theorem sizeinbits_le {deg x : Nat} (hx : x < 2 ^ deg) : mpz_sizeinbits x ≤ deg := by
  rw [sizeinbits_eq_size]; exact Nat.size_le.mpr hx

/-- The layouts with `deg mod 16 = 0`: the buffer has `deg / 8` bytes. -/
theorem diffusion_even (F : FieldCtx) {x : Nat} (h16 : F.degree % 16 = 0)
    (h64 : 64 ≤ F.degree) (hx : x < 2 ^ F.degree) :
    ∃ e, encode_mpz F x encdec.ENCODE = some e ∧ encode_mpz F e encdec.DECODE = some x := by
  have h8 : F.degree % 8 = 0 := by omega
  have hne : ¬ F.degree % 16 = 8 := by omega
  have hB : F.degree / 8 = (F.degree + 8) / 16 * 2 := by omega
  have hcnt : (40 * (F.degree / 8) + 1) / 2 = 40 * (F.degree / 8) / 2 := by omega
  obtain ⟨hv0, _⟩ := export_spec (export_fits h8 hx)
  have hu1 := @isBuf_encode_loop ((F.degree + 8) / 16 * 2) (F.degree / 8)
    (by omega) (by omega) ((40 * (F.degree / 8) + 1) / 2) 0 _ hv0
  have he : mpz_import_2be ((F.degree + 8) / 16)
      (encode_loop (F.degree / 8) ((40 * (F.degree / 8) + 1) / 2) 0
        (mpz_export_2be (List.replicate ((F.degree + 8) / 16 * 2) 0) x)) < 2 ^ F.degree := by
    refine lt_of_lt_of_le (import_lt hu1.2 _) (Nat.pow_le_pow_right (by norm_num) (by omega))
  have henc : encode_mpz F x encdec.ENCODE = some (mpz_import_2be ((F.degree + 8) / 16)
      (encode_loop (F.degree / 8) ((40 * (F.degree / 8) + 1) / 2) 0
        (mpz_export_2be (List.replicate ((F.degree + 8) / 16 * 2) 0) x))) := by
    simp only [encode_mpz, if_neg hne, if_true]
    rw [if_pos (sizeinbits_le he)]
  refine ⟨_, henc, ?_⟩
  · simp only [encode_mpz, if_neg hne, reduceCtorEq, if_false]
    rw [export_import hu1, hcnt,
      decode_encode_loop (L := (F.degree + 8) / 16 * 2) (by omega) (by omega) _ _ hv0,
      import_export_self h8 hx, if_pos (sizeinbits_le hx)]

theorem pre_of_post (u : Bytes) {B : Nat} (hB : 1 ≤ B) (hlen : B < u.length) :
    ((u.set B (Bytes.rd u (B - 1))).set (B - 1) 0).set (B - 1)
        (Bytes.rd ((u.set B (Bytes.rd u (B - 1))).set (B - 1) 0) B)
      = u.set B (Bytes.rd u (B - 1)) := by
  apply ext_rd (by simp)
  intro i _
  have hB' : B - 1 < u.length := by omega
  have hne : ¬ (B = B - 1) := by omega
  by_cases h1 : i = B - 1
  · have hne' : ¬ (B - 1 = B) := by omega
    simp [rd_set, h1, hlen, hB', hne, hne']
  · simp [rd_set, h1, hlen, hB', hne]

theorem post_of_pre (v : Bytes) {B : Nat} (a : Nat) (hB : 1 ≤ B) (hlen : B < v.length)
    (hz : Bytes.rd v (B - 1) = 0) :
    (((v.set (B - 1) (Bytes.rd v B)).set B a).set B
        (Bytes.rd ((v.set (B - 1) (Bytes.rd v B)).set B a) (B - 1))).set (B - 1) 0 = v := by
  apply ext_rd (by simp)
  intro i _
  have hB' : B - 1 < v.length := by omega
  have hne : ¬ (B = B - 1) := by omega
  have hne' : ¬ (B - 1 = B) := by omega
  by_cases h1 : i = B - 1
  · simp [rd_set, h1, hlen, hB', hne, hne', hz]
  · by_cases h2 : i = B
    · simp [rd_set, h2, hlen, hB', hne, hne']
    · simp [rd_set, h1, h2, hlen, hB', hne, hne']

/-- The layouts with `deg mod 16 = 8`: the last meaningful byte is moved into the
cyclic window before the passes and back after them. -/
theorem diffusion_odd (F : FieldCtx) {x : Nat} (h16 : F.degree % 16 = 8)
    (h64 : 64 ≤ F.degree) (hx : x < 2 ^ F.degree) :
    ∃ e, encode_mpz F x encdec.ENCODE = some e ∧ encode_mpz F e encdec.DECODE = some x := by
  have h8 : F.degree % 8 = 0 := by omega
  have hL : (F.degree + 8) / 16 * 2 = F.degree / 8 + 1 := by omega
  have hB1 : 1 ≤ F.degree / 8 := by omega
  have hcnt : (40 * (F.degree / 8) + 1) / 2 = 40 * (F.degree / 8) / 2 := by omega
  obtain ⟨hv0, hrd0⟩ := export_spec (export_fits h8 hx)
  generalize hv0def : mpz_export_2be (List.replicate ((F.degree + 8) / 16 * 2) 0) x = v0
    at hv0 hrd0
  have hz : Bytes.rd v0 (F.degree / 8 - 1) = 0 := by
    rw [hrd0]
    have e0 : (F.degree / 8 - 1) % 2 = 0 := by omega
    have e1 : 16 * ((F.degree / 8 - 1) / 2) + 8 = F.degree := by omega
    simp only [export_byte, e0, if_true, e1, Nat.shiftRight_eq_div_pow, Nat.div_eq_of_lt hx]
  have hu0 := isBuf_set hv0 (F.degree / 8 - 1) (hv0.2 (F.degree / 8))
  have hu1 := @isBuf_encode_loop ((F.degree + 8) / 16 * 2) (F.degree / 8)
    (by omega) (by omega) ((40 * (F.degree / 8) + 1) / 2) 0 _ hu0
  generalize hu1def : encode_loop (F.degree / 8) ((40 * (F.degree / 8) + 1) / 2) 0
    (v0.set (F.degree / 8 - 1) (Bytes.rd v0 (F.degree / 8))) = u1 at hu1
  have hv1 := isBuf_set (isBuf_set hu1 (F.degree / 8) (hu1.2 (F.degree / 8 - 1)))
    (F.degree / 8 - 1) (by norm_num : 0 < 256)
  have he : mpz_import_2be ((F.degree + 8) / 16)
      ((u1.set (F.degree / 8) (Bytes.rd u1 (F.degree / 8 - 1))).set (F.degree / 8 - 1) 0)
      < 2 ^ F.degree := by
    obtain ⟨m, hm⟩ : ∃ m, (F.degree + 8) / 16 = m + 1 := ⟨(F.degree + 8) / 16 - 1, by omega⟩
    rw [hm, mpz_import_2be]
    have hm2 : 2 * m = F.degree / 8 - 1 := by omega
    have htop : Bytes.rd ((u1.set (F.degree / 8) (Bytes.rd u1 (F.degree / 8 - 1))).set
        (F.degree / 8 - 1) 0) (2 * m) = 0 := by
      rw [hm2, rd_set, if_pos ⟨rfl, by rw [List.length_set, hu1.1]; omega⟩]
    rw [htop, Nat.zero_mul, Nat.zero_add]
    have h1 := import_lt hv1.2 m
    have h2 := hv1.2 (2 * m + 1)
    have hd : F.degree = 16 * m + 8 := by omega
    have e : 2 ^ F.degree = 256 * 2 ^ (16 * m) := by
      rw [hd, show 16 * m + 8 = 8 + 16 * m by ring, pow_add]; norm_num
    rw [e]
    have := Nat.mul_le_mul_right (2 ^ (16 * m)) (Nat.le_of_lt_succ h2)
    omega
  have henc : encode_mpz F x encdec.ENCODE = some (mpz_import_2be ((F.degree + 8) / 16)
      ((u1.set (F.degree / 8) (Bytes.rd u1 (F.degree / 8 - 1))).set (F.degree / 8 - 1) 0)) := by
    simp only [encode_mpz, if_pos h16, if_true]
    rw [hv0def, hu1def, if_pos (sizeinbits_le he)]
  refine ⟨_, henc, ?_⟩
  simp only [encode_mpz, if_pos h16, reduceCtorEq, if_false]
  have hlen1 : F.degree / 8 < u1.length := by rw [hu1.1]; omega
  have hlen0 : F.degree / 8 < v0.length := by rw [hv0.1]; omega
  rw [export_import hv1, pre_of_post u1 hB1 hlen1,
    decode_loop_set (L := (F.degree + 8) / 16 * 2) (by omega) (by omega) le_rfl _ _ _ hu1,
    ← hu1def, hcnt,
    decode_encode_loop (L := (F.degree + 8) / 16 * 2) (by omega) (by omega) _ _ hu0,
    post_of_pre v0 _ hB1 hlen0 hz, ← hv0def, import_export_self h8 hx,
    if_pos (sizeinbits_le hx)]

/-- C3 (diffusion involution): for every valid `deg >= 64`, in the layouts with
`deg mod 16 = 8` too, and every field element `x` in `[0, 2^deg)`, encoding `x`
passes the final assertion and decoding the result gives `x` back. -/
theorem diffusion_involution (deg x : Nat) (hdeg : field_size_valid deg = true)
    (h64 : 64 ≤ deg) (hx : x < 2 ^ deg) :
    ∃ e, encode_mpz (field_init deg) x encdec.ENCODE = some e ∧
      encode_mpz (field_init deg) e encdec.DECODE = some x := by
  rw [field_size_valid_iff] at hdeg
  have h16 : (field_init deg).degree % 16 = 0 ∨ (field_init deg).degree % 16 = 8 := by
    rw [field_init_degree]; omega
  rcases h16 with h | h
  · exact diffusion_even (field_init deg) h h64 hx
  · exact diffusion_odd (field_init deg) h h64 hx

theorem diffusion_involution_witness :
    field_size_valid 72 = true ∧ 64 ≤ 72 ∧ 0x68656c6c6f < 2 ^ 72 ∧
    ∃ e, encode_mpz (field_init 72) 0x68656c6c6f encdec.ENCODE = some e ∧
      encode_mpz (field_init 72) e encdec.DECODE = some 0x68656c6c6f :=
  ⟨by decide, by decide, by decide,
    diffusion_involution 72 0x68656c6c6f (by decide) (by decide) (by decide)⟩

/-! ## Digits -/

theorem digits_be_aux_eq {base : Nat} (hb : 1 < base) :
    ∀ (fuel x : Nat) (acc : List Nat), x ≤ fuel →
      digits_be_aux base fuel x acc = (Nat.digits base x).reverse ++ acc := by
  intro fuel
  induction fuel with
  | zero =>
    intro x acc hx
    have : x = 0 := by omega
    subst this
    simp [digits_be_aux]
  | succ f ih =>
    intro x acc hx
    rw [digits_be_aux]
    by_cases h0 : x = 0
    · subst h0; simp
    · rw [if_neg h0, ih (x / base) _ (by
        have : x / base < x := Nat.div_lt_self (by omega) hb
        omega), Nat.digits_def' hb (by omega : 0 < x)]
      simp

theorem digits_be_eq {base : Nat} (hb : 1 < base) (x : Nat) :
    digits_be base x = (Nat.digits base x).reverse := by
  rw [digits_be, digits_be_aux_eq hb x x [] le_rfl, List.append_nil]

theorem import_be_eq (s : List Nat) (acc : Nat) :
    s.foldl (fun acc b => acc * 256 + b) acc
      = acc * 256 ^ s.length + Nat.ofDigits 256 s.reverse := by
  induction s generalizing acc with
  | nil => simp
  | cons c t ih =>
    rw [List.foldl_cons, ih, List.reverse_cons, Nat.ofDigits_append, List.length_reverse,
      List.length_cons]
    simp only [Nat.ofDigits_singleton]
    ring

/-- Exporting the bytes of an imported byte string whose first byte is not 0 gives
the string back. -/
theorem export_import_be {s : List Nat} (hlt : ∀ b ∈ s, b < 256)
    (hhead : ∀ h : s ≠ [], s.head h ≠ 0) : mpz_export_be (mpz_import_be s) = s := by
  rw [mpz_export_be, mpz_import_be, digits_be_eq (by norm_num), import_be_eq, Nat.zero_mul,
    Nat.zero_add, Nat.digits_ofDigits 256 (by norm_num) s.reverse
      (fun l hl => hlt l (List.mem_reverse.mp hl))
      (fun h => by
        rw [List.getLast_reverse]
        exact hhead (fun h0 => h (by rw [h0]; rfl))),
    List.reverse_reverse]

/-- C10 (text rendering reverses text import): for a non-empty NUL-free byte string
`s` with at most `deg / 8` bytes, `field_print` in text mode applied to the result of
`field_import` in text mode prints `s` with every byte outside `[0x20, 0x7F)`
replaced by `.`, followed by the newline; it prints `s` itself when all bytes are
printable, whatever the length of `s`. -/
theorem text_round_trip (deg : Nat) (s : List Char) (hdeg : field_size_valid deg = true)
    (hne : s ≠ []) (hbytes : ∀ c ∈ s, c.toNat < 256 ∧ c ≠ '\x00')
    (hlen : s.length ≤ deg / 8) :
    ∃ x, field_import (field_init deg) s false = Except.ok x ∧
      field_print (field_init deg) x false
        = s.map (fun c => if 32 ≤ c.toNat ∧ c.toNat < 127 then c else '.') ++ ['\n'] ∧
      ((∀ c ∈ s, 32 ≤ c.toNat ∧ c.toNat < 127) →
        field_print (field_init deg) x false = s ++ ['\n']) := by
  have hv := hdeg
  have hexp : mpz_export_be (mpz_import_be (s.map Char.toNat)) = s.map Char.toNat := by
    apply export_import_be
    · intro b hb
      obtain ⟨c, hc, rfl⟩ := List.mem_map.mp hb
      exact (hbytes c hc).1
    · intro h
      cases s with
      | nil => exact absurd rfl hne
      | cons c t =>
        simp only [List.map_cons, List.head_cons]
        intro h0
        apply (hbytes c (List.mem_cons_self _ _)).2
        apply Char.ext
        apply UInt32.ext
        simpa [Char.toNat] using h0
  have hprint : field_print (field_init deg) (mpz_import_be (s.map Char.toNat)) false
      = s.map (fun c => if 32 ≤ c.toNat ∧ c.toNat < 127 then c else '.') ++ ['\n'] := by
    simp only [field_print, hexp, List.map_map, Bool.false_eq_true, if_false]
    congr 1
    apply List.map_congr_left
    intro c _
    simp only [Function.comp, Char.ofNat_toNat]
  refine ⟨mpz_import_be (s.map Char.toNat), ?_, hprint, ?_⟩
  · have : ¬ s.length > (field_init deg).degree / 8 := by
      rw [field_init_degree]; omega
    simp only [field_import, if_neg this, Bool.false_eq_true, if_false]
  · intro hp
    rw [hprint]
    congr 1
    conv_rhs => rw [← List.map_id s]
    apply List.map_congr_left
    intro c hc
    rw [if_pos (hp c hc)]
    rfl

theorem text_round_trip_witness :
    field_size_valid 64 = true ∧
    ∃ x, field_import (field_init 64) ['h', 'i', '\x01', '\xe9'] false = Except.ok x ∧
      field_print (field_init 64) x false
        = ['h', 'i', '\x01', '\xe9'].map
            (fun c => if 32 ≤ c.toNat ∧ c.toNat < 127 then c else '.') ++ ['\n'] ∧
      ((∀ c ∈ ['h', 'i', '\x01', '\xe9'], 32 ≤ c.toNat ∧ c.toNat < 127) →
        field_print (field_init 64) x false = ['h', 'i', '\x01', '\xe9'] ++ ['\n']) :=
  ⟨by decide,
    text_round_trip 64 ['h', 'i', '\x01', '\xe9'] (by decide) (by decide) (by decide)
      (by decide)⟩

/-! ## The share line -/

theorem digits_be_lt {base : Nat} (hb : 1 < base) (x : Nat) :
    ∀ d ∈ digits_be base x, d < base := by
  intro d hd
  rw [digits_be_eq hb] at hd
  exact Nat.digits_lt_base hb (List.mem_reverse.mp hd)

theorem ofDigits_digits_be {base : Nat} (hb : 1 < base) (x : Nat) :
    Nat.ofDigits base (digits_be base x).reverse = x := by
  rw [digits_be_eq hb, List.reverse_reverse, Nat.ofDigits_digits]

/-- A number written in digits, with any number of leading zeros. -/
theorem padded_eq_map (base k x : Nat) (hb : 1 < base) :
    List.replicate k '0' ++
        (if x = 0 then ['0'] else (digits_be base x).map Nat.digitChar)
      = (List.replicate k 0 ++ (if x = 0 then [0] else digits_be base x)).map Nat.digitChar ∧
    (∀ d ∈ List.replicate k 0 ++ (if x = 0 then [0] else digits_be base x), d < base) ∧
    Nat.ofDigits base
      (List.replicate k 0 ++ (if x = 0 then [0] else digits_be base x)).reverse = x := by
  refine ⟨?_, ?_, ?_⟩
  · rw [List.map_append, List.map_replicate]
    congr 1
    split <;> rfl
  · intro d hd
    rcases List.mem_append.mp hd with h | h
    · rw [List.eq_of_mem_replicate h]; omega
    · split at h
      · rw [List.mem_singleton.mp h]; omega
      · exact digits_be_lt hb x d h
  · rw [List.reverse_append, Nat.ofDigits_append]
    have hz : Nat.ofDigits base (List.replicate k 0).reverse = 0 := by
      rw [List.reverse_replicate]
      induction k with
      | zero => rfl
      | succ k ih => rw [List.replicate_succ, Nat.ofDigits_cons, ih]; rfl
    rw [hz, Nat.mul_zero, Nat.add_zero]
    split
    · rename_i h0; simp [h0]
    · exact ofDigits_digits_be hb x

/-- The hex text that `field_print` writes for a field element has `deg / 4` hex
digits and reads back as the element. -/
theorem hex_text_spec {deg y : Nat} (hdeg : field_size_valid deg = true) (hy : y < 2 ^ deg) :
    ∃ L : List Nat,
      List.replicate (deg / 4 - mpz_sizeinbase16 y) '0' ++ mpz_out_str16 y
        = L.map Nat.digitChar ∧
      (∀ d ∈ L, d < 16) ∧ Nat.ofDigits 16 L.reverse = y ∧ L.length = deg / 4 := by
  rw [field_size_valid_iff] at hdeg
  obtain ⟨h1, h2, h3⟩ := padded_eq_map 16 (deg / 4 - mpz_sizeinbase16 y) y (by norm_num)
  refine ⟨_, h1, h2, h3, ?_⟩
  rw [List.length_append, List.length_replicate]
  have hsz : (if y = 0 then [0] else digits_be 16 y).length = mpz_sizeinbase16 y := by
    simp only [mpz_sizeinbase16]
    split <;> rfl
  rw [hsz]
  have hle : mpz_sizeinbase16 y ≤ deg / 4 := by
    simp only [mpz_sizeinbase16]
    split
    · omega
    · rename_i h0
      rw [digits_be_eq (by norm_num), List.length_reverse]
      have hp := Nat.base_pow_length_digits_le 16 y (by norm_num) h0
      have hy' : 16 * y < 16 ^ (deg / 4 + 1) := by
        have e : (2 : Nat) ^ deg = 16 ^ (deg / 4) := by
          have : deg = 4 * (deg / 4) := by omega
          conv_lhs => rw [this, pow_mul]
          norm_num
        rw [pow_succ, ← e]
        omega
      have := lt_of_le_of_lt hp hy'
      have := (Nat.pow_lt_pow_iff_right (by norm_num : 1 < 16)).mp this
      omega
  omega

/-- Below the field size the share values are field elements and their hex text has
`deg / 4` digits: this is the part of C8 that the code keeps. -/
theorem share_size_below_field_size (deg T i : Nat) (coeff : Nat → Nat)
    (hdeg : field_size_valid deg = true) (hT : 2 ≤ T)
    (hc : ∀ k, k < T → coeff k < 2 ^ deg) (hi : i + 1 < 2 ^ deg) :
    horner (field_init deg) T (i + 1) coeff < 2 ^ deg ∧
    ∃ yhex, field_print (field_init deg) (horner (field_init deg) T (i + 1) coeff) true
        = yhex ++ ['\n'] ∧ yhex.length = deg / 4 := by
  have h := field_init_ok hdeg
  have hy : horner (field_init deg) T (i + 1) coeff < 2 ^ deg :=
    (horner_spec h (by omega) (show i + 1 < 2 ^ (field_init deg).degree from hi) hc).1
  obtain ⟨L, hL, _, _, hlen⟩ := hex_text_spec hdeg hy
  refine ⟨hy, L.map Nat.digitChar, ?_, by rw [List.length_map, hlen]⟩
  simp only [field_print, if_true, field_init_degree]
  rw [hL]

/-- C8 fails in the code: `split -t 2 -n 257` with an 8-bit field is accepted, and
for the coefficients `0x61, 0x35` the share number 257 has the value `0x155`, which
is no field element; `field_print` writes three hex digits for it where the other
shares have two, and `combine` refuses the line both as a first share and after a
share of the field size 8. -/
theorem share_size_overflow :
    field_size_valid 8 = true ∧
    horner (field_init 8) 2 257 (fun k => if k = 0 then 0x61 else 0x35) = 0x155 ∧
    ¬ (0x155 < 2 ^ 8) ∧
    field_print (field_init 8) 0x155 true = ['1', '5', '5', '\n'] ∧
    field_print (field_init 8)
      (horner (field_init 8) 2 1 (fun k => if k = 0 then 0x61 else 0x35)) true
      = ['5', '5', '\n'] ∧
    (split_lines (field_init 8) none 2 257 (fun k => if k = 0 then 0x61 else 0x35)).getLast?
      = some ['2', '5', '7', '-', '1', '5', '5', '\n'] ∧
    combine_parse 0 ['2', '5', '7', '-', '1', '5', '5', '\n']
      = Except.error "share has illegal length" ∧
    combine_parse 8 ['2', '5', '7', '-', '1', '5', '5', '\n']
      = Except.error "shares have different security levels" := by
  refine ⟨by decide, by decide, by decide, by decide, by decide, ?_, ?_, ?_⟩
  · rfl
  · rfl
  · rfl

/-! ## The block cipher, enciphering after deciphering -/

theorem decipher_round_lt (s : Nat × Nat × Nat) :
    (decipher_round s).1 < 2 ^ 32 ∧ (decipher_round s).2.1 < 2 ^ 32 ∧
    (decipher_round s).2.2 < 2 ^ 32 := by
  simp only [decipher_round]
  refine ⟨?_, ?_, ?_⟩ <;> exact Nat.mod_lt _ (by norm_num)

theorem encipher_decipher_round (s : Nat × Nat × Nat)
    (h0 : s.1 < 2 ^ 32) (h1 : s.2.1 < 2 ^ 32) (h2 : s.2.2 < 2 ^ 32) :
    encipher_round (decipher_round s) = s := by
  obtain ⟨v0, v1, sum⟩ := s
  simp only at h0 h1 h2
  simp only [encipher_round, decipher_round, xtea_delta]
  have hs : ((sum + (2 ^ 32 - 2654435769)) % 2 ^ 32 + 2654435769) % 2 ^ 32 = sum := by omega
  have e1 : ∀ m : Nat, ((v1 + (2 ^ 32 - m % 2 ^ 32)) % 2 ^ 32 + m) % 2 ^ 32 = v1 := by
    intro m; omega
  have e0 : ∀ m : Nat, ((v0 + (2 ^ 32 - m % 2 ^ 32)) % 2 ^ 32 + m) % 2 ^ 32 = v0 := by
    intro m; omega
  rw [hs, e0, e1]

theorem decipher_iterate_lt (k : Nat) (s : Nat × Nat × Nat)
    (h0 : s.1 < 2 ^ 32) (h1 : s.2.1 < 2 ^ 32) (h2 : s.2.2 < 2 ^ 32) :
    (decipher_round^[k] s).1 < 2 ^ 32 ∧ (decipher_round^[k] s).2.1 < 2 ^ 32 ∧
    (decipher_round^[k] s).2.2 < 2 ^ 32 := by
  cases k with
  | zero => exact ⟨h0, h1, h2⟩
  | succ k =>
    rw [Function.iterate_succ_apply']
    exact decipher_round_lt _

theorem encipher_decipher_iterate (k : Nat) (s : Nat × Nat × Nat)
    (h0 : s.1 < 2 ^ 32) (h1 : s.2.1 < 2 ^ 32) (h2 : s.2.2 < 2 ^ 32) :
    encipher_round^[k] (decipher_round^[k] s) = s := by
  induction k with
  | zero => rfl
  | succ k ih =>
    obtain ⟨a, b, c⟩ := decipher_iterate_lt k s h0 h1 h2
    rw [Function.iterate_succ_apply, Function.iterate_succ_apply',
      encipher_decipher_round _ a b c, ih]

theorem decipher_iterate_sum (k : Nat) (s : Nat × Nat × Nat) (h2 : s.2.2 < 2 ^ 32) :
    ((decipher_round^[k] s).2.2 + k * xtea_delta) % 2 ^ 32 = s.2.2 := by
  induction k with
  | zero => simpa using Nat.mod_eq_of_lt h2
  | succ k ih =>
    rw [Function.iterate_succ_apply']
    simp only [decipher_round]
    have e : (k + 1) * xtea_delta = k * xtea_delta + xtea_delta := by ring
    rw [e]
    have hd : xtea_delta < 2 ^ 32 := by norm_num [xtea_delta]
    generalize (decipher_round^[k] s).2.2 = t at ih ⊢
    generalize k * xtea_delta = m at ih ⊢
    generalize xtea_delta = d at hd ⊢
    omega

/-- The block encipherment undoes the block decipherment on 32-bit words. -/
theorem encipher_decipher_block (v : Nat × Nat) (h0 : v.1 < 2 ^ 32) (h1 : v.2 < 2 ^ 32) :
    encipher_block (decipher_block v) = v := by
  have hsum : (decipher_round^[32] (v.1, v.2, 0xC6EF3720)).2.2 = 0 := by
    have h := decipher_iterate_sum 32 (v.1, v.2, 0xC6EF3720) (by norm_num)
    have hlt := (decipher_iterate_lt 32 (v.1, v.2, 0xC6EF3720) h0 h1 (by norm_num)).2.2
    simp only [xtea_delta] at h
    generalize (decipher_round^[32] (v.1, v.2, 0xC6EF3720)).2.2 = t at h hlt ⊢
    omega
  have key := encipher_decipher_iterate 32 (v.1, v.2, 0xC6EF3720) h0 h1 (by norm_num)
  simp only [decipher_block, encipher_block]
  rw [← hsum]
  simp only [Prod.mk.eta]
  rw [key]

/-- C19 (the block pair is mutually inverse): on every pair of 32-bit words
`decipher_block` undoes `encipher_block` and `encipher_block` undoes
`decipher_block`, for the 32 rounds with the arithmetic modulo `2^32`, and the start
value `0xC6EF3720` of the sum in `decipher_block` is `32 * delta` modulo `2^32`. -/
theorem xtea_blocks_inverse (v : Nat × Nat) (h0 : v.1 < 2 ^ 32) (h1 : v.2 < 2 ^ 32) :
    decipher_block (encipher_block v) = v ∧ encipher_block (decipher_block v) = v ∧
    (32 * xtea_delta) % 2 ^ 32 = 0xC6EF3720 ∧ xtea_delta = 0x9E3779B9 :=
  ⟨decipher_encipher_block v h0 h1, encipher_decipher_block v h0 h1,
    by norm_num [xtea_delta], rfl⟩

theorem xtea_blocks_inverse_witness :
    (0x01234567 : Nat) < 2 ^ 32 ∧ (0x89abcdef : Nat) < 2 ^ 32 ∧
    decipher_block (encipher_block (0x01234567, 0x89abcdef)) = (0x01234567, 0x89abcdef) ∧
    encipher_block (decipher_block (0x01234567, 0x89abcdef)) = (0x01234567, 0x89abcdef) ∧
    (32 * xtea_delta) % 2 ^ 32 = 0xC6EF3720 ∧ xtea_delta = 0x9E3779B9 :=
  ⟨by decide, by decide,
    xtea_blocks_inverse (0x01234567, 0x89abcdef) (by decide) (by decide)⟩

/-! ## The table of polynomials -/

theorem size_65579 : Nat.size 65579 = 17 := by
  rw [← sizeinbits_eq_size]; decide

set_option maxRecDepth 100000 in
theorem no_small_divisor_deg16 : ∀ a, a < 512 → 2 ≤ a → polymod 65579 a ≠ 0 := by
  decide

/-- The polynomial `x^16 + x^5 + x^3 + x + 1` of the 16-bit field is irreducible. -/
theorem gf2Irreducible_deg16 : GF2Irreducible (field_init 16).poly := by
  have hp : (field_init 16).poly = 65579 := by decide
  rw [hp]
  apply gf2Irreducible_of_no_small_divisor (by norm_num)
  rw [size_65579]
  intro a h2 hlt
  exact no_small_divisor_deg16 a (by simpa using hlt) h2

/-- C16 (irreducibility at small degree): for `deg = 8` and `deg = 16` the
polynomial that `field_init` builds from the table is `x^8+x^4+x^3+x+1` and
`x^16+x^5+x^3+x+1`, and it is irreducible over GF(2): it is not the carry-less
product of two polynomials of degree at least 1. -/
theorem table_irreducible_small :
    (field_init 8).poly = 2 ^ 8 + 2 ^ 4 + 2 ^ 3 + 2 ^ 1 + 2 ^ 0 ∧
    (field_init 16).poly = 2 ^ 16 + 2 ^ 5 + 2 ^ 3 + 2 ^ 1 + 2 ^ 0 ∧
    (∀ a b : Nat, 2 ≤ a → 2 ≤ b → clmul a b ≠ (field_init 8).poly) ∧
    (∀ a b : Nat, 2 ≤ a → 2 ≤ b → clmul a b ≠ (field_init 16).poly) ∧
    Irreducible (toPoly (field_init 8).poly) ∧ Irreducible (toPoly (field_init 16).poly) :=
  ⟨by decide, by decide, gf2Irreducible_deg8.2, gf2Irreducible_deg16.2,
    irreducible_toPoly gf2Irreducible_deg8, irreducible_toPoly gf2Irreducible_deg16⟩

set_option maxRecDepth 100000 in
theorem irred_coeff_length : irred_coeff.length = 384 := by
  decide

set_option maxRecDepth 100000 in
theorem irred_coeff_shape : ∀ k, k < 128 →
    3 * k + 2 < irred_coeff.length ∧
    irred_coeff.getD (3 * k + 1) 0 < irred_coeff.getD (3 * k) 0 ∧
    irred_coeff.getD (3 * k + 2) 0 < irred_coeff.getD (3 * k + 1) 0 ∧
    0 < irred_coeff.getD (3 * k + 2) 0 ∧
    irred_coeff.getD (3 * k) 0 < 8 * (k + 1) := by
  decide

theorem countP_range_eq_card (n : Nat) (p : Nat → Bool) :
    (List.range n).countP p = ((Finset.range n).filter (fun i => p i = true)).card := by
  rw [List.countP_eq_length_filter, ← List.toFinset_card_of_nodup
    ((List.nodup_range n).filter _)]
  congr 1
  ext i
  simp

/-- A number with the bits `deg > a > b > c > 0` and bit 0 set has five set bits
and `deg + 1` binary digits. -/
theorem five_bits {deg a b c : Nat} (h1 : a < deg) (h2 : b < a) (h3 : c < b) (h4 : 0 < c) :
    bit_count (2 ^ deg ||| 2 ^ a ||| 2 ^ b ||| 2 ^ c ||| 2 ^ 0) = 5 ∧
    mpz_sizeinbits (2 ^ deg ||| 2 ^ a ||| 2 ^ b ||| 2 ^ c ||| 2 ^ 0) = deg + 1 := by
  have hbit : ∀ i, (2 ^ deg ||| 2 ^ a ||| 2 ^ b ||| 2 ^ c ||| 2 ^ 0).testBit i = true ↔
      i = deg ∨ i = a ∨ i = b ∨ i = c ∨ i = 0 := by
    intro i
    simp only [Nat.testBit_or, Nat.testBit_two_pow, Bool.or_eq_true, decide_eq_true_eq]
    omega
  have hsize : mpz_sizeinbits (2 ^ deg ||| 2 ^ a ||| 2 ^ b ||| 2 ^ c ||| 2 ^ 0) = deg + 1 := by
    rw [sizeinbits_eq_size]
    apply le_antisymm
    · apply Nat.size_le.mpr
      apply Nat.lt_pow_two_of_testBit
      intro i hi
      by_contra hc
      rw [Bool.not_eq_false] at hc
      have := (hbit i).mp hc
      omega
    · apply Nat.lt_size.mpr
      exact Nat.testBit_implies_ge ((hbit deg).mpr (Or.inl rfl))
  refine ⟨?_, hsize⟩
  rw [bit_count, hsize, countP_range_eq_card]
  have hset : (Finset.range (deg + 1)).filter
      (fun i => mpz_tstbit (2 ^ deg ||| 2 ^ a ||| 2 ^ b ||| 2 ^ c ||| 2 ^ 0) i = true)
      = {deg, a, b, c, 0} := by
    ext i
    simp only [Finset.mem_filter, Finset.mem_range, mpz_tstbit, hbit, Finset.mem_insert,
      Finset.mem_singleton]
    omega
  rw [hset]
  rw [Finset.card_insert_of_not_mem, Finset.card_insert_of_not_mem,
    Finset.card_insert_of_not_mem, Finset.card_insert_of_not_mem, Finset.card_singleton]
  all_goals simp only [Finset.mem_insert, Finset.mem_singleton]; omega

/-- C17 (table shape): for every valid `deg` the three exponents that `field_init`
reads at `3 * (deg / 8 - 1)` are inside the table of 384 entries, strictly
decreasing and strictly between 0 and `deg`, so that `poly` has exactly five set
bits and `deg + 1` binary digits, that is degree `deg`. -/
theorem table_shape (deg : Nat) (hdeg : field_size_valid deg = true) :
    irred_coeff.length = 384 ∧ deg / 8 - 1 < 128 ∧
    3 * (deg / 8 - 1) + 2 < irred_coeff.length ∧
    irred_coeff.getD (3 * (deg / 8 - 1) + 1) 0 < irred_coeff.getD (3 * (deg / 8 - 1) + 0) 0 ∧
    irred_coeff.getD (3 * (deg / 8 - 1) + 2) 0 < irred_coeff.getD (3 * (deg / 8 - 1) + 1) 0 ∧
    0 < irred_coeff.getD (3 * (deg / 8 - 1) + 2) 0 ∧
    irred_coeff.getD (3 * (deg / 8 - 1) + 0) 0 < deg ∧
    bit_count (field_init deg).poly = 5 ∧
    mpz_sizeinbits (field_init deg).poly = deg + 1 ∧
    (∀ i, mpz_tstbit (field_init deg).poly i = true ↔
      i = deg ∨ i = irred_coeff.getD (3 * (deg / 8 - 1) + 0) 0 ∨
      i = irred_coeff.getD (3 * (deg / 8 - 1) + 1) 0 ∨
      i = irred_coeff.getD (3 * (deg / 8 - 1) + 2) 0 ∨ i = 0) := by
  rw [field_size_valid_iff] at hdeg
  obtain ⟨h8, h1024, hmod⟩ := hdeg
  have hk : deg / 8 - 1 < 128 := by omega
  have hd : 8 * (deg / 8 - 1 + 1) = deg := by omega
  obtain ⟨t1, t2, t3, t4, t5⟩ := irred_coeff_shape _ hk
  rw [hd] at t5
  have hpoly : (field_init deg).poly
      = 2 ^ deg ||| 2 ^ irred_coeff.getD (3 * (deg / 8 - 1) + 0) 0
        ||| 2 ^ irred_coeff.getD (3 * (deg / 8 - 1) + 1) 0
        ||| 2 ^ irred_coeff.getD (3 * (deg / 8 - 1) + 2) 0 ||| 2 ^ 0 := by
    simp only [field_init, mpz_setbit, Nat.zero_or]
  obtain ⟨f1, f2⟩ := five_bits t5 t2 t3 t4
  refine ⟨irred_coeff_length, hk, t1, t2, t3, t4, t5, ?_, ?_, ?_⟩
  · rw [hpoly]; exact f1
  · rw [hpoly]; exact f2
  · intro i
    rw [hpoly]
    simp only [mpz_tstbit, Nat.testBit_or, Nat.testBit_two_pow, Bool.or_eq_true,
      decide_eq_true_eq]
    omega

theorem table_shape_witness :
    field_size_valid 1024 = true ∧
    irred_coeff.getD (3 * (1024 / 8 - 1) + 0) 0 = 19 ∧
    irred_coeff.getD (3 * (1024 / 8 - 1) + 1) 0 = 6 ∧
    irred_coeff.getD (3 * (1024 / 8 - 1) + 2) 0 = 1 ∧
    bit_count (field_init 1024).poly = 5 ∧
    mpz_sizeinbits (field_init 1024).poly = 1024 + 1 :=
  ⟨by decide, by decide, by decide, by decide,
    (table_shape 1024 (by decide)).2.2.2.2.2.2.2.1,
    (table_shape 1024 (by decide)).2.2.2.2.2.2.2.2.1⟩

/-! ## The random source -/

theorem cprng_read_loop_done (need : Nat) (rest : List ReadResult) (buf : Bytes) :
    cprng_read_loop need rest need buf = some (Except.ok buf, rest) := by
  cases rest with
  | nil => simp [cprng_read_loop]
  | cons r rest => simp [cprng_read_loop]

/-- Reads that together deliver fewer bytes than are missing are all consumed. -/
theorem cprng_read_loop_chunks (need : Nat) (rest : List ReadResult) :
    ∀ (chunks : List (List Nat)) (count : Nat) (buf : Bytes),
      count + chunks.flatten.length < need →
      cprng_read_loop need (chunks.map ReadResult.bytes ++ rest) count buf
        = cprng_read_loop need rest (count + chunks.flatten.length) (buf ++ chunks.flatten) := by
  intro chunks
  induction chunks with
  | nil => intro count buf _; simp
  | cons bs chunks ih =>
    intro count buf h
    simp only [List.flatten_cons, List.length_append] at h
    have htake : bs.take (need - count) = bs := List.take_of_length_le (by omega)
    rw [List.map_cons, List.cons_append, cprng_read_loop, if_pos (by omega)]
    simp only [htake]
    rw [ih _ _ (by omega)]
    simp only [List.flatten_cons, List.length_append, List.append_assoc, Nat.add_assoc]

theorem cprng_read_loop_full (need : Nat) (rest : List ReadResult)
    (chunks : List (List Nat)) (last : List Nat) (hlast : last ≠ [])
    (hlen : chunks.flatten.length + last.length = need) :
    cprng_read_loop need (chunks.map ReadResult.bytes ++ ReadResult.bytes last :: rest) 0 []
      = some (Except.ok (chunks.flatten ++ last), rest) := by
  have hpos : 0 < last.length := List.length_pos.mpr hlast
  rw [cprng_read_loop_chunks need _ chunks 0 [] (by omega), cprng_read_loop,
    if_pos (by omega)]
  have htake : last.take (need - (0 + chunks.flatten.length)) = last :=
    List.take_of_length_le (by omega)
  simp only [htake]
  have e : 0 + chunks.flatten.length + last.length = need := by omega
  rw [e, cprng_read_loop_done]
  simp

theorem cprng_read_loop_failed (need : Nat) (rest : List ReadResult)
    (chunks : List (List Nat)) (hlen : chunks.flatten.length < need) :
    cprng_read_loop need (chunks.map ReadResult.bytes ++ ReadResult.failed :: rest) 0 []
      = some (Except.error "couldn't read from /dev/urandom", rest) := by
  rw [cprng_read_loop_chunks need _ chunks 0 [] (by omega), cprng_read_loop,
    if_pos (by omega)]

theorem cprng_read_loop_blocked (need : Nat)
    (chunks : List (List Nat)) (hlen : chunks.flatten.length < need) :
    cprng_read_loop need (chunks.map ReadResult.bytes) 0 [] = none := by
  have := cprng_read_loop_chunks need [] chunks 0 [] (by omega)
  rw [List.append_nil] at this
  rw [this, cprng_read_loop, if_pos (by omega)]

/-- C14, amended (reads from the random source): `cprng_read` ends in the fatal
error when a call of `read` returns an error before the `degree / 8` bytes are
there; a call that returns fewer bytes than it asked for, or none, is not fatal:
further calls ask for the missing bytes, and the field element is assembled from
the bytes of all the calls. While the bytes are missing and no call fails,
`cprng_read` does not return. -/
theorem cprng_read_accumulates (F : FieldCtx) (chunks : List (List Nat)) (last : List Nat)
    (rest : List ReadResult) (hlast : last ≠ [])
    (hlen : chunks.flatten.length + last.length = F.degree / 8) :
    cprng_read F (chunks.map ReadResult.bytes ++ ReadResult.bytes last :: rest)
      = some (Except.ok (mpz_import_be (chunks.flatten ++ last)), rest) ∧
    cprng_read F (chunks.map ReadResult.bytes ++ ReadResult.failed :: rest)
      = some (Except.error "couldn't read from /dev/urandom", rest) ∧
    cprng_read F (chunks.map ReadResult.bytes) = none := by
  have hpos : 0 < last.length := List.length_pos.mpr hlast
  refine ⟨?_, ?_, ?_⟩
  · rw [cprng_read, cprng_read_loop_full _ _ _ _ hlast hlen]
    simp only
    rw [List.take_of_length_le (by rw [List.length_append]; omega)]
  · rw [cprng_read, cprng_read_loop_failed _ _ _ (by omega)]
  · rw [cprng_read, cprng_read_loop_blocked _ _ (by omega)]

theorem cprng_read_accumulates_witness :
    [0x56] ≠ ([] : List Nat) ∧
    ([[0x12], [], [0x34]] : List (List Nat)).flatten.length + [0x56].length
      = (field_init 24).degree / 8 ∧
    cprng_read (field_init 24)
        ([[0x12], [], [0x34]].map ReadResult.bytes ++ ReadResult.bytes [0x56] :: [])
      = some (Except.ok (mpz_import_be ([[0x12], [], [0x34]].flatten ++ [0x56])), []) ∧
    cprng_read (field_init 24)
        ([[0x12], [], [0x34]].map ReadResult.bytes ++ ReadResult.failed :: [])
      = some (Except.error "couldn't read from /dev/urandom", []) ∧
    cprng_read (field_init 24) ([[0x12], [], [0x34]].map ReadResult.bytes) = none :=
  ⟨by decide, by decide,
    cprng_read_accumulates (field_init 24) [[0x12], [], [0x34]] [0x56] [] (by decide)
      (by decide)⟩

/-- C14 as stated fails: at the field size 16 a first `read` that delivers one
byte of the two asked for is not fatal, and neither is one that delivers none;
the field element `0x1234` is assembled from the bytes of two calls. -/
theorem cprng_read_short_counterexample :
    (field_init 16).degree / 8 = 2 ∧
    cprng_read (field_init 16) [ReadResult.bytes [0x12], ReadResult.bytes [0x34]]
      = some (Except.ok 0x1234, []) ∧
    cprng_read (field_init 16) [ReadResult.bytes [], ReadResult.bytes [0x12, 0x34]]
      = some (Except.ok 0x1234, []) := by
  refine ⟨by decide, rfl, rfl⟩

/-- What `cprng_read` returns is below `256` to the number of bytes. -/
theorem cprng_read_loop_bytes (need : Nat) :
    ∀ (reads : List ReadResult) (count : Nat) (buf out : Bytes) (rest : List ReadResult),
      (∀ r ∈ reads, ∀ bs, r = ReadResult.bytes bs → ∀ b ∈ bs, b < 256) →
      (∀ b ∈ buf, b < 256) →
      cprng_read_loop need reads count buf = some (Except.ok out, rest) →
      ∀ b ∈ out, b < 256 := by
  intro reads
  induction reads with
  | nil =>
    intro count buf out rest _ hbuf h
    simp only [cprng_read_loop] at h
    split at h
    · exact absurd h (by simp)
    · simp only [Option.some.injEq, Prod.mk.injEq, Except.ok.injEq] at h
      rw [← h.1]; exact hbuf
  | cons r reads ih =>
    intro count buf out rest hr hbuf h
    simp only [cprng_read_loop] at h
    split at h
    · cases r with
      | failed => simp at h
      | bytes bs =>
        simp only at h
        apply ih _ _ _ _ (fun r' hr' => hr r' (List.mem_cons_of_mem _ hr')) _ h
        intro b hb
        rcases List.mem_append.mp hb with hb | hb
        · exact hbuf b hb
        · exact hr _ (List.mem_cons_self _ _) bs rfl b (List.mem_of_mem_take hb)
    · simp only [Option.some.injEq, Prod.mk.injEq, Except.ok.injEq] at h
      rw [← h.1]; exact hbuf

theorem mpz_import_be_lt (s : List Nat) (hs : ∀ b ∈ s, b < 256) :
    mpz_import_be s < 256 ^ s.length := by
  have key : ∀ (s : List Nat) (acc k : Nat), (∀ b ∈ s, b < 256) → acc < 256 ^ k →
      s.foldl (fun acc b => acc * 256 + b) acc < 256 ^ (k + s.length) := by
    intro s
    induction s with
    | nil => intro acc k _ h; simpa using h
    | cons b s ih =>
      intro acc k hs h
      rw [List.foldl_cons, List.length_cons]
      have hb := hs b (List.mem_cons_self _ _)
      have := ih (acc * 256 + b) (k + 1) (fun b hb => hs b (List.mem_cons_of_mem _ hb))
        (by rw [pow_succ]; omega)
      rw [show k + (s.length + 1) = k + 1 + s.length by ring]
      exact this
  have := key s 0 0 hs (by norm_num)
  simpa [mpz_import_be] using this

theorem cprng_read_lt {deg : Nat} (h8 : deg % 8 = 0) (F : FieldCtx) (hF : F.degree = deg)
    (reads rest : List ReadResult) (x : Nat)
    (hr : ∀ r ∈ reads, ∀ bs, r = ReadResult.bytes bs → ∀ b ∈ bs, b < 256)
    (h : cprng_read F reads = some (Except.ok x, rest)) : x < 2 ^ deg := by
  subst hF
  rw [cprng_read] at h
  split at h
  · simp at h
  · simp at h
  · rename_i buf rest' heq
    simp only [Option.some.injEq, Prod.mk.injEq, Except.ok.injEq] at h
    have hb := cprng_read_loop_bytes _ _ _ _ _ _ hr (by simp) heq
    rw [← h.1]
    refine lt_of_lt_of_le (mpz_import_be_lt _ (fun b hb' => hb b (List.mem_of_mem_take hb'))) ?_
    have : (256 : Nat) = 2 ^ 8 := by norm_num
    rw [this, ← pow_mul]
    apply Nat.pow_le_pow_right (by norm_num)
    have := List.length_take_le (F.degree / 8) buf
    omega

/-! ## The range of the coefficients -/

theorem set_str_digits_lt :
    ∀ (s : List Char) (acc v : Nat), set_str_digits 16 s acc = some v →
      v < (acc + 1) * 16 ^ s.length := by
  intro s
  induction s with
  | nil =>
    intro acc v h
    simp only [set_str_digits, Option.some.injEq] at h
    simp only [List.length_nil, pow_zero, Nat.mul_one]
    omega
  | cons c cs ih =>
    intro acc v h
    rw [set_str_digits] at h
    have hpos : 0 < 16 ^ cs.length := pow_pos (by norm_num) _
    rw [List.length_cons, pow_succ]
    split at h
    · have := ih acc v h
      nlinarith
    · split at h
      · rename_i d _
        split at h
        · rename_i hd
          have := ih (acc * 16 + d) v h
          nlinarith
        · exact absurd h (by simp)
      · exact absurd h (by simp)

theorem mpz_set_str_lt (s : List Char) (x : Int) (h : mpz_set_str s 16 = some x)
    (hx : 0 ≤ x) : x.toNat < 16 ^ s.length := by
  have hdrop : (s.dropWhile isspace).length ≤ s.length :=
    (List.dropWhile_sublist _).length_le
  have hmono : ∀ t : List Char, t.length ≤ s.length → 16 ^ t.length ≤ 16 ^ s.length :=
    fun t ht => Nat.pow_le_pow_right (by norm_num) ht
  simp only [mpz_set_str] at h
  split at h
  · exact absurd h (by simp)
  · split at h
    · split at h
      · rename_i v hv
        have hlt := set_str_digits_lt _ 0 v hv
        rw [Nat.zero_add, Nat.one_mul] at hlt
        simp only [Option.some.injEq] at h
        split at h
        · have hv0 : v = 0 := by omega
          rw [← h, hv0]
          simp only [Nat.cast_zero, neg_zero, Int.toNat_zero]
          exact pow_pos (by norm_num) _
        · rw [← h, Int.toNat_ofNat]
          refine lt_of_lt_of_le hlt (hmono _ ?_)
          split
          · rw [List.length_tail]; omega
          · exact hdrop
      · exact absurd h (by simp)
    · exact absurd h (by simp)

/-- What `field_import` returns is a field element. -/
theorem field_import_lt {deg : Nat} (hdeg : field_size_valid deg = true) (s : List Char)
    (hexmode : Bool) (x : Nat) (hbytes : hexmode = false → ∀ c ∈ s, c.toNat < 256)
    (h : field_import (field_init deg) s hexmode = Except.ok x) : x < 2 ^ deg := by
  rw [field_size_valid_iff] at hdeg
  simp only [field_import, field_init_degree] at h
  cases hexmode with
  | true =>
    simp only [if_true] at h
    split at h
    · exact absurd h (by simp)
    · rename_i hlen
      split at h
      · exact absurd h (by simp)
      · rename_i v hv
        split at h
        · exact absurd h (by simp)
        · rename_i hneg
          simp only [Except.ok.injEq] at h
          rw [← h]
          refine lt_of_lt_of_le (mpz_set_str_lt s v hv (by omega)) ?_
          have e : (16 : Nat) = 2 ^ 4 := by norm_num
          rw [e, ← pow_mul]
          exact Nat.pow_le_pow_right (by norm_num) (by omega)
  | false =>
    simp only [Bool.false_eq_true, if_false] at h
    split at h
    · exact absurd h (by simp)
    · rename_i hlen
      simp only [Except.ok.injEq] at h
      rw [← h]
      have hb : ∀ b ∈ s.map Char.toNat, b < 256 := by
        intro b hb
        obtain ⟨c, hc, rfl⟩ := List.mem_map.mp hb
        exact hbytes rfl c hc
      refine lt_of_lt_of_le (mpz_import_be_lt _ hb) ?_
      rw [List.length_map]
      have e : (256 : Nat) = 2 ^ 8 := by norm_num
      rw [e, ← pow_mul]
      exact Nat.pow_le_pow_right (by norm_num) (by omega)

theorem import_even_lt {deg : Nat} (h16 : deg % 16 = 0) {u : Bytes}
    (hu : IsBuf ((deg + 8) / 16 * 2) u) : mpz_import_2be ((deg + 8) / 16) u < 2 ^ deg :=
  lt_of_lt_of_le (import_lt hu.2 _) (Nat.pow_le_pow_right (by norm_num) (by omega))

theorem import_odd_lt {deg : Nat} (h16 : deg % 16 = 8) {u : Bytes}
    (hu : IsBuf ((deg + 8) / 16 * 2) u) :
    mpz_import_2be ((deg + 8) / 16)
      ((u.set (deg / 8) (Bytes.rd u (deg / 8 - 1))).set (deg / 8 - 1) 0) < 2 ^ deg := by
  have hv1 := isBuf_set (isBuf_set hu (deg / 8) (hu.2 (deg / 8 - 1)))
    (deg / 8 - 1) (by norm_num : 0 < 256)
  obtain ⟨m, hm⟩ : ∃ m, (deg + 8) / 16 = m + 1 := ⟨(deg + 8) / 16 - 1, by omega⟩
  rw [hm, mpz_import_2be]
  have hm2 : 2 * m = deg / 8 - 1 := by omega
  have htop : Bytes.rd ((u.set (deg / 8) (Bytes.rd u (deg / 8 - 1))).set
      (deg / 8 - 1) 0) (2 * m) = 0 := by
    rw [hm2, rd_set, if_pos ⟨rfl, by rw [List.length_set, hu.1]; omega⟩]
  rw [htop, Nat.zero_mul, Nat.zero_add]
  have h1 := import_lt hv1.2 m
  have h2 := hv1.2 (2 * m + 1)
  have hd : deg = 16 * m + 8 := by omega
  have e : 2 ^ deg = 256 * 2 ^ (16 * m) := by
    rw [hd, show 16 * m + 8 = 8 + 16 * m by ring, pow_add]; norm_num
  rw [e]
  have := Nat.mul_le_mul_right (2 ^ (16 * m)) (Nat.le_of_lt_succ h2)
  omega

/-- In both directions `encode_mpz` passes its final assertion on a field element
and returns a field element. -/
theorem encode_mpz_total (F : FieldCtx) (mode : encdec) {x : Nat} (h8 : F.degree % 8 = 0)
    (h64 : 64 ≤ F.degree) (hx : x < 2 ^ F.degree) :
    ∃ e, encode_mpz F x mode = some e ∧ e < 2 ^ F.degree := by
  obtain ⟨hv0, _⟩ := export_spec (export_fits h8 hx)
  have hloop : ∀ v, IsBuf ((F.degree + 8) / 16 * 2) v →
      IsBuf ((F.degree + 8) / 16 * 2)
        (if mode = encdec.ENCODE then
          encode_loop (F.degree / 8) ((40 * (F.degree / 8) + 1) / 2) 0 v
        else decode_loop (F.degree / 8) ((40 * (F.degree / 8)) / 2) v) := by
    intro v hv
    split
    · exact @isBuf_encode_loop ((F.degree + 8) / 16 * 2) (F.degree / 8)
        (by omega) (by omega) _ 0 _ hv
    · exact @isBuf_decode_loop ((F.degree + 8) / 16 * 2) (F.degree / 8)
        (by omega) (by omega) _ _ hv
  have hsome : ∀ e, e < 2 ^ F.degree →
      (if mpz_sizeinbits e ≤ F.degree then some e else none) = some e :=
    fun e he => if_pos (sizeinbits_le he)
  rcases (by omega : F.degree % 16 = 0 ∨ F.degree % 16 = 8) with h16 | h16
  · have hne : ¬ F.degree % 16 = 8 := by omega
    have he := import_even_lt h16 (hloop _ hv0)
    refine ⟨_, ?_, he⟩
    simp only [encode_mpz, if_neg hne]
    exact hsome _ he
  · have hu0 := isBuf_set hv0 (F.degree / 8 - 1) (hv0.2 (F.degree / 8))
    have he := import_odd_lt h16 (hloop _ hu0)
    refine ⟨_, ?_, he⟩
    simp only [encode_mpz, if_pos h16]
    exact hsome _ he

/-- C11 (coefficients stay in field range): at a valid `deg`, what `field_import`
returns in hex or text mode when it does not fail is in `[0, 2^deg)`; for
`deg >= 64` `encode_mpz` passes its final assertion in either direction on an
in-range input and returns a value in `[0, 2^deg)`; and what `cprng_read` makes
of `deg / 8` bytes is in `[0, 2^deg)`. -/
theorem coefficients_in_range (deg : Nat) (hdeg : field_size_valid deg = true) :
    (∀ (s : List Char) (hexmode : Bool) (x : Nat),
      (hexmode = false → ∀ c ∈ s, c.toNat < 256) →
      field_import (field_init deg) s hexmode = Except.ok x → x < 2 ^ deg) ∧
    (64 ≤ deg → ∀ (x : Nat) (mode : encdec), x < 2 ^ deg →
      ∃ e, encode_mpz (field_init deg) x mode = some e ∧ e < 2 ^ deg) ∧
    (∀ (reads rest : List ReadResult) (x : Nat),
      (∀ r ∈ reads, ∀ bs, r = ReadResult.bytes bs → ∀ b ∈ bs, b < 256) →
      cprng_read (field_init deg) reads = some (Except.ok x, rest) → x < 2 ^ deg) := by
  have hv := (field_size_valid_iff deg).mp hdeg
  refine ⟨?_, ?_, ?_⟩
  · intro s hexmode x hbytes h
    exact field_import_lt hdeg s hexmode x hbytes h
  · intro h64 x mode hx
    have h8 : deg % 8 = 0 := by omega
    exact encode_mpz_total (field_init deg) mode h8 h64 hx
  · intro reads rest x hr h
    exact @cprng_read_lt deg (by omega) (field_init deg) rfl reads rest x hr h

theorem coefficients_in_range_witness :
    field_size_valid 64 = true ∧
    field_import (field_init 64) ['f', 'f', 'f', 'f', 'f', 'f', 'f', 'f', 'f', 'f', 'f', 'f',
      'f', 'f', 'f', 'f'] true = Except.ok 0xffffffffffffffff ∧
    0xffffffffffffffff < 2 ^ 64 ∧
    (∃ e, encode_mpz (field_init 64) 0xffffffffffffffff encdec.DECODE = some e ∧
      e < 2 ^ 64) ∧
    cprng_read (field_init 64)
        [ReadResult.bytes [0xff, 0xff, 0xff], ReadResult.bytes [0xff, 0xff, 0xff, 0xff, 0xff]]
      = some (Except.ok 0xffffffffffffffff, []) :=
  ⟨by decide, rfl, by decide,
    (coefficients_in_range 64 (by decide)).2.1 (by decide) 0xffffffffffffffff encdec.DECODE
      (by decide), rfl⟩

/-! ## The secret line of `split` -/

theorem cut_line_empty (line : List Char)
    (h : line = [] ∨ line.head? = some '\r' ∨ line.head? = some '\n' ∨
      line.head? = some '\x00') :
    cut_line line = [] := by
  cases line with
  | nil => rfl
  | cons c cs =>
    rcases h with h | h | h | h
    · exact absurd h (by simp)
    · have : c = '\r' := by simpa using h
      subst this
      rfl
    · have : c = '\n' := by simpa using h
      subst this
      rfl
    · have : c = '\x00' := by simpa using h
      subst this
      rfl

theorem split_security_empty (opt_hex : Bool) :
    split_security opt_hex 0 [] = Except.error "security level invalid (secret too long?)" := by
  cases opt_hex <;> rfl

theorem split_security_explicit (opt_hex : Bool) {opt_security : Nat} (h : opt_security ≠ 0)
    (buf : List Char) : split_security opt_hex opt_security buf = Except.ok opt_security := by
  rw [split_security, if_neg h]

theorem field_import_empty (F : FieldCtx) :
    field_import F [] true = Except.error "invalid syntax" ∧
    field_import F [] false = Except.ok 0 := by
  constructor
  · simp [field_import, mpz_set_str]
  · simp [field_import, mpz_import_be]

/-- C12, amended (empty secret): an empty secret line makes `split` fail fatally
when the security level is inferred from the secret length, in hex and in text
mode, and in hex mode with an explicit security level; in text mode with an
explicit security level `split` imports the empty line as `coeff[0] = 0` and goes
on with the diffusion layer and the shares for it. -/
theorem empty_secret (o : Opts) (line : List Char) (reads : List ReadResult)
    (hempty : line = [] ∨ line.head? = some '\r' ∨ line.head? = some '\n') :
    (o.opt_security = 0 →
      split o (some line) reads
        = some (Except.error "security level invalid (secret too long?)")) ∧
    (o.opt_security ≠ 0 → field_size_valid o.opt_security = true → o.opt_hex = true →
      split o (some line) reads = some (Except.error "invalid syntax")) ∧
    (o.opt_security ≠ 0 → field_size_valid o.opt_security = true → o.opt_hex = false →
      field_import (field_init o.opt_security) [] false = Except.ok 0 ∧
      split o (some line) reads = split_shares o (field_init o.opt_security) 0 reads) := by
  have ht := cut_line_empty line (by
    rcases hempty with h | h | h
    · exact Or.inl h
    · exact Or.inr (Or.inl h)
    · exact Or.inr (Or.inr (Or.inl h)))
  refine ⟨?_, ?_, ?_⟩
  · intro h0
    simp only [split, ht, h0, split_security_empty]
  · intro h0 hv hhex
    simp only [split, ht, split_security_explicit _ h0, hv, if_true, hhex,
      (field_import_empty _).1]
  · intro h0 hv hhex
    refine ⟨(field_import_empty _).2, ?_⟩
    simp only [split, ht, split_security_explicit _ h0, hv, if_true, hhex,
      (field_import_empty _).2]

theorem empty_secret_witness :
    (['\r', '\n'] = ([] : List Char) ∨ ['\r', '\n'].head? = some '\r' ∨
      ['\r', '\n'].head? = some '\n') ∧
    split ⟨true, true, 0, 2, 3, none⟩ (some ['\r', '\n']) []
      = some (Except.error "security level invalid (secret too long?)") ∧
    split ⟨true, true, 128, 2, 3, none⟩ (some ['\r', '\n']) []
      = some (Except.error "invalid syntax") ∧
    split ⟨false, true, 128, 2, 3, none⟩ (some ['\r', '\n']) []
      = split_shares ⟨false, true, 128, 2, 3, none⟩ (field_init 128) 0 [] :=
  ⟨by decide,
    (empty_secret ⟨true, true, 0, 2, 3, none⟩ ['\r', '\n'] [] (by decide)).1 rfl,
    (empty_secret ⟨true, true, 128, 2, 3, none⟩ ['\r', '\n'] [] (by decide)).2.1
      (by decide) (by decide) rfl,
    ((empty_secret ⟨false, true, 128, 2, 3, none⟩ ['\r', '\n'] [] (by decide)).2.2
      (by decide) (by decide) rfl).2⟩

/-- C12 as stated fails: `ssss-split -t 2 -n 3 -s 8` in text mode accepts the empty
secret line, imports it as `coeff[0] = 0` and prints three shares for it (the
random coefficient is `0x35` here). -/
theorem empty_secret_counterexample :
    field_import (field_init 8) (['\n'].takeWhile (fun c => c != '\r' && c != '\n')) false
      = Except.ok 0 ∧
    main_split ⟨false, true, 8, 2, 3, none⟩ (some ['\n']) [ReadResult.bytes [0x35]]
      = some (Except.ok [['1', '-', '3', '4', '\n'], ['2', '-', '6', 'e', '\n'],
          ['3', '-', '5', 'a', '\n']]) :=
  ⟨rfl, rfl⟩

/-! ## The inferred security level -/

/-- C15, amended (inference scenario): in hex mode with no explicit security
level the secret line `abcd` gives the field degree 16, four bits for each of the
four hex digits, and the diffusion layer is skipped because 16 is below 64: with
`T = 2` and `N = 3` the run with the diffusion layer switched on prints what the
run with the layer switched off prints, three shares of four hex digits. -/
theorem inferred_level_abcd (reads : List ReadResult) :
    split_security true 0 ['a', 'b', 'c', 'd'] = Except.ok 16 ∧
    ¬ (64 ≤ (field_init 16).degree) ∧
    main_split ⟨true, true, 0, 2, 3, none⟩ (some ['a', 'b', 'c', 'd', '\n']) reads
      = main_split ⟨true, false, 0, 2, 3, none⟩ (some ['a', 'b', 'c', 'd', '\n']) reads ∧
    main_split ⟨true, true, 0, 2, 3, none⟩ (some ['a', 'b', 'c', 'd', '\n'])
        [ReadResult.bytes [0x35, 0x36]]
      = some (Except.ok [['1', '-', '9', 'e', 'f', 'a', '\n'],
          ['2', '-', 'c', '1', 'a', '5', '\n'], ['3', '-', 'f', '4', '9', '2', '\n']]) :=
  ⟨rfl, by decide, rfl, rfl⟩

/-- C15 as stated fails: for the secret line `abcd` the inferred field degree is
16 and not 8. -/
theorem inferred_level_counterexample :
    split_security true 0 ['a', 'b', 'c', 'd'] = Except.ok 16 ∧
    split_security true 0 ['a', 'b', 'c', 'd'] ≠ Except.ok 8 := by
  refine ⟨rfl, ?_⟩
  have h : split_security true 0 ['a', 'b', 'c', 'd'] = Except.ok 16 := rfl
  rw [h]
  intro hc
  exact absurd (Except.ok.inj hc) (by decide)

/-! ## Share numbers that are multiples of `2^deg` -/

theorem testBit_of_low_zero {deg x j : Nat} (hx : x % 2 ^ deg = 0) (hj : j < deg) :
    mpz_tstbit x j = false := by
  have h := Nat.testBit_mod_two_pow x deg j
  rw [hx, Nat.zero_testBit] at h
  simpa [mpz_tstbit, hj] using h.symm

theorem field_mult_loop_zero (F : FieldCtx) (x : Nat) :
    ∀ (k i b : Nat), (∀ j, i ≤ j → j < i + k → mpz_tstbit x j = false) →
      field_mult_loop F x k i b 0 = 0 := by
  intro k
  induction k with
  | zero => intro i b _; rfl
  | succ k ih =>
    intro i b h
    rw [field_mult_loop]
    simp only [h i le_rfl (by omega), Bool.false_eq_true, if_false]
    exact ih _ _ (fun j h1 h2 => h j (by omega) (by omega))

/-- A product by a second factor whose low `degree` bits are zero is 0. -/
theorem field_mult_low_zero (F : FieldCtx) (hF : 1 ≤ F.degree) {x : Nat}
    (hx : x % 2 ^ F.degree = 0) (y : Nat) : field_mult F y x = 0 := by
  rw [field_mult]
  simp only [testBit_of_low_zero hx (by omega : 0 < F.degree), Bool.false_eq_true, if_false]
  exact field_mult_loop_zero F x _ _ _ (fun j _ h2 => testBit_of_low_zero hx (by omega))

theorem horner_loop_low_zero (F : FieldCtx) (hF : 1 ≤ F.degree) {x : Nat}
    (hx : x % 2 ^ F.degree = 0) (coeff : Nat → Nat) :
    ∀ (i y : Nat), horner_loop F x coeff (i + 1) y = 0 := by
  intro i
  induction i with
  | zero =>
    intro y
    rw [horner_loop, horner_loop]
    exact field_mult_low_zero F hF hx _
  | succ i ih =>
    intro y
    rw [horner_loop]
    exact ih _

theorem horner_low_zero (F : FieldCtx) (hF : 1 ≤ F.degree) {x T : Nat}
    (hx : x % 2 ^ F.degree = 0) (hT : 2 ≤ T) (coeff : Nat → Nat) :
    horner F T x coeff = coeff 0 := by
  obtain ⟨i, rfl⟩ : ∃ i, T = i + 2 := ⟨T - 2, by omega⟩
  rw [horner, show i + 2 - 1 = i + 1 by omega, horner_loop_low_zero F hF hx, field_add,
    Nat.zero_xor]

theorem split_read_coeff_head (F : FieldCtx) :
    ∀ (c : Nat) (reads : List ReadResult) (acc coeff : List Nat),
      split_read_coeff F c reads acc = some (Except.ok coeff) →
      ∃ more, coeff = acc ++ more := by
  intro c
  induction c with
  | zero =>
    intro reads acc coeff h
    simp only [split_read_coeff, Option.some.injEq, Except.ok.injEq] at h
    exact ⟨[], by simp [h]⟩
  | succ c ih =>
    intro reads acc coeff h
    rw [split_read_coeff] at h
    split at h
    · exact absurd h (by simp)
    · exact absurd h (by simp)
    · rename_i v rest _
      obtain ⟨more, hm⟩ := ih _ _ _ h
      exact ⟨v :: more, by rw [hm]; simp⟩

/-- C20 (a share number that is a multiple of `2^deg` exposes the constant term):
for an index `x` whose low `deg` bits are zero (`x > 0` or not) every `field_mult(_, x)` is 0
and `horner(T, x, coeff)` is `coeff[0]` for every `T >= 2` and every coefficient
vector; `main` passes every `N >= T` on to `split` without a bound by the field
size, and when `N >= 2^deg` the share numbered `2^deg` that `split` prints has the
value `coeff[0]`, the imported (and diffused) secret. -/
theorem index_multiple_exposes_secret (deg T x : Nat) (coeff : Nat → Nat)
    (hdeg : field_size_valid deg = true) (hT : 2 ≤ T) (hx : x % 2 ^ deg = 0) :
    (∀ y, field_mult (field_init deg) y x = 0) ∧
    horner (field_init deg) T x coeff = coeff 0 ∧
    (∀ (o : Opts) (line : Option (List Char)) (reads : List ReadResult),
      2 ≤ o.opt_threshold → o.opt_threshold ≤ o.opt_number →
      (o.opt_security = 0 ∨ field_size_valid o.opt_security = true) →
      (∀ t, o.opt_token = some t → t.length ≤ MAXTOKENLEN) →
      main_split o line reads = split o line reads) ∧
    (∀ (N : Nat) (tok : Option (List Char)), 2 ^ deg ≤ N →
      (split_lines (field_init deg) tok T N coeff).get? (2 ^ deg - 1)
        = some (print_share (field_init deg) tok (fmt_len N) (2 ^ deg - 1) (coeff 0))) ∧
    (∀ (o : Opts) (c0 : Nat) (reads : List ReadResult) (lines : List (List Char)),
      o.opt_threshold.toNat = T → 2 ^ deg ≤ o.opt_number.toNat →
      split_shares o (field_init deg) c0 reads = some (Except.ok lines) →
      ∃ c, (if o.opt_diffusion = true ∧ 64 ≤ deg then
              encode_mpz (field_init deg) c0 encdec.ENCODE else some c0) = some c ∧
        lines.get? (2 ^ deg - 1)
          = some (print_share (field_init deg) o.opt_token (fmt_len o.opt_number.toNat)
              (2 ^ deg - 1) c)) := by
  have hv := (field_size_valid_iff deg).mp hdeg
  have hF : 1 ≤ (field_init deg).degree := by rw [field_init_degree]; omega
  have hpow : 0 < 2 ^ deg := Nat.two_pow_pos deg
  have hself : 2 ^ deg % 2 ^ (field_init deg).degree = 0 := by
    rw [field_init_degree, Nat.mod_self]
  have hline : ∀ (N : Nat) (tok : Option (List Char)) (cf : Nat → Nat), 2 ^ deg ≤ N →
      (split_lines (field_init deg) tok T N cf).get? (2 ^ deg - 1)
        = some (print_share (field_init deg) tok (fmt_len N) (2 ^ deg - 1) (cf 0)) := by
    intro N tok cf hN
    rw [split_lines, List.get?_eq_getElem?, List.getElem?_map,
      List.getElem?_range (by omega)]
    simp only [Option.map_some']
    rw [show 2 ^ deg - 1 + 1 = 2 ^ deg by omega, horner_low_zero _ hF hself hT]
  refine ⟨?_, ?_, ?_, ?_, ?_⟩
  · intro y
    exact field_mult_low_zero _ hF hx y
  · exact horner_low_zero _ hF hx hT coeff
  · intro o line reads h1 h2 h3 h4
    rw [main_split, if_neg (by omega), if_neg (by omega)]
    have h3' : ¬ (o.opt_security ≠ 0 ∧ field_size_valid o.opt_security = false) := by
      rintro ⟨ha, hb⟩
      rcases h3 with h | h
      · exact ha h
      · rw [h] at hb; exact absurd hb (by decide)
    rw [if_neg h3']
    split
    · rename_i hc
      exfalso
      cases ht : o.opt_token with
      | none => rw [ht] at hc; simp at hc
      | some t =>
        rw [ht] at hc
        have := h4 t ht
        simp only [decide_eq_true_eq] at hc
        omega
    · rfl
  · intro N tok hN
    exact hline N tok coeff hN
  · intro o c0 reads lines hTo hN h
    rw [field_init_degree] at *
    simp only [split_shares, field_init_degree] at h
    split at h
    · exact absurd h (by simp)
    · rename_i c hc
      split at h
      · exact absurd h (by simp)
      · exact absurd h (by simp)
      · rename_i cf hcf
        obtain ⟨more, hm⟩ := split_read_coeff_head _ _ _ _ _ hcf
        simp only [Option.some.injEq, Except.ok.injEq] at h
        refine ⟨c, hc, ?_⟩
        rw [← h, hTo, hline _ _ _ hN, hm]
        rfl

theorem index_multiple_exposes_secret_witness :
    field_size_valid 8 = true ∧ 2 ≤ 2 ∧ 256 % 2 ^ 8 = 0 ∧
    horner (field_init 8) 2 256 (fun k => if k = 0 then 0x61 else 0x35) = 0x61 ∧
    (split_lines (field_init 8) none 2 300 (fun k => if k = 0 then 0x61 else 0x35)).get?
        (2 ^ 8 - 1)
      = some (print_share (field_init 8) none (fmt_len 300) (2 ^ 8 - 1) 0x61) ∧
    print_share (field_init 8) none (fmt_len 300) (2 ^ 8 - 1) 0x61
      = ['2', '5', '6', '-', '6', '1', '\n'] :=
  ⟨by decide, by decide, by decide,
    (index_multiple_exposes_secret 8 2 256 (fun k => if k = 0 then 0x61 else 0x35)
      (by decide) (by decide) (by decide)).2.1,
    (index_multiple_exposes_secret 8 2 256 (fun k => if k = 0 then 0x61 else 0x35)
      (by decide) (by decide) (by decide)).2.2.2.1 300 none (by decide),
    rfl⟩

/-! ## Malformed share lines -/

theorem field_invert_loop_mono :
    ∀ (fuel u v z g r : Nat), field_invert_loop fuel u v z g = some r →
      ∀ k, field_invert_loop (fuel + k) u v z g = some r := by
  intro fuel
  induction fuel with
  | zero => intro u v z g r h; simp [field_invert_loop] at h
  | succ fuel ih =>
    intro u v z g r h k
    rw [show fuel + 1 + k = (fuel + k) + 1 by omega, field_invert_loop]
    rw [field_invert_loop] at h
    by_cases hu : u = 1
    · rw [if_pos hu] at h ⊢
      exact h
    · rw [if_neg hu] at h ⊢
      dsimp only at h ⊢
      split
      · rename_i hi
        rw [if_pos hi] at h
        exact ih _ _ _ _ _ h k
      · rename_i hi
        rw [if_neg hi] at h
        exact ih _ _ _ _ _ h k

/-- Whenever `field_invert` returns, it returns the inverse. -/
theorem field_invert_partial {F : FieldCtx} (h : PolyOK F) (hirr : GF2Irreducible F.poly)
    {x : Nat} (hx0 : x ≠ 0) (hx : x < 2 ^ F.degree) {fuel z : Nat}
    (hz : field_invert F fuel x = some z) :
    z < 2 ^ F.degree ∧ toField F z * toField F x = 1 := by
  obtain ⟨z', hz', hlt, hinv⟩ :=
    @field_invert_spec F h hirr x hx0 hx (fuel + 2 * F.degree) (by omega)
  rw [field_invert, if_neg hx0] at hz hz'
  rw [field_invert_loop_mono _ _ _ _ _ _ hz (2 * F.degree)] at hz'
  have : z = z' := Option.some.inj hz'
  rw [this]
  exact ⟨hlt, hinv⟩

theorem elim_sum_range {F : FieldCtx} (h : PolyOK F) {n i : Nat} {A : Mat}
    (hrange : ∀ r c, i ≤ r → r < n → i ≤ c → c < n → A r c < 2 ^ F.degree) (hi : i < n)
    (w : Nat → AdjoinRoot (toPoly F.poly)) {c : Nat} (hc : i + 1 ≤ c) (hcn : c < n) :
    ∑ r in Finset.Ico (i + 1) n,
        toField F (elim_mat F n i (i + 1) (n - (i + 1)) A r c) * w r
      = if A i c ≠ 0 then
          toField F (A i i) * (∑ r in Finset.Ico (i + 1) n, toField F (A r c) * w r)
            + toField F (A i c) * (∑ r in Finset.Ico (i + 1) n, toField F (A r i) * w r)
        else ∑ r in Finset.Ico (i + 1) n, toField F (A r c) * w r := by
  by_cases hq : A i c ≠ 0
  · rw [if_pos hq, Finset.mul_sum, Finset.mul_sum, ← Finset.sum_add_distrib]
    apply Finset.sum_congr rfl
    intro r hr
    obtain ⟨hr1, hr2⟩ := Finset.mem_Ico.mp hr
    rw [elim_mat_live F A hr1 hr2 hc hcn, if_pos hq, elim_entry, field_add, toField_xor,
      toField_mult h (hrange r c (by omega) hr2 (by omega) hcn)
        (hrange i i le_rfl hi le_rfl hi),
      toField_mult h (hrange r i (by omega) hr2 le_rfl hi)
        (hrange i c le_rfl hi (by omega) hcn)]
    ring
  · rw [if_neg hq]
    apply Finset.sum_congr rfl
    intro r hr
    obtain ⟨hr1, hr2⟩ := Finset.mem_Ico.mp hr
    rw [elim_mat_live F A hr1 hr2 hc hcn, if_neg hq]

theorem solInv_elim {F : FieldCtx} (h : PolyOK F)
    {n i : Nat} {U : Nat → AdjoinRoot (toPoly F.poly)}
    {A : Mat} {b : Vec} (hinv : SolInv F n i U A b) (hi : i < n) :
    SolInv F n (i + 1) U (elim_mat F n i (i + 1) (n - (i + 1)) A)
      (elim_vec F i (i + 1) (n - (i + 1)) A b) := by
  have hpr := hinv.range i i le_rfl hi le_rfl hi
  have h2 := two_eq_zero_field F
  refine ⟨?_, ?_, ?_⟩
  · intro r c hr hrn hc hcn
    rw [elim_mat_live F A hr hrn hc hcn]
    split
    · exact Nat.xor_lt_two_pow
        (field_mult_lt h (hinv.range r c (by omega) hrn (by omega) hcn) hpr)
        (field_mult_lt h (hinv.range r i (by omega) hrn le_rfl hi)
          (hinv.range i c le_rfl hi (by omega) hcn))
    · exact hinv.range r c (by omega) hrn (by omega) hcn
  · intro c hc hcn
    rw [elim_vec_live F A b hc hcn]
    split
    · exact Nat.xor_lt_two_pow
        (field_mult_lt h (hinv.brange c (by omega) hcn) hpr)
        (field_mult_lt h (hinv.brange i le_rfl hi) (hinv.range i c le_rfl hi (by omega) hcn))
    · exact hinv.brange c (by omega) hcn
  · intro c hc hcn
    have s1 := hinv.sol c (by omega) hcn
    have s2 := hinv.sol i le_rfl hi
    rw [Finset.sum_eq_sum_Ico_succ_bot hi] at s1 s2
    rw [elim_sum_range h hinv.range hi U hc hcn, elim_vec_live F A b hc hcn]
    by_cases hq : A i c ≠ 0
    · rw [if_pos hq, if_pos hq, field_add, toField_xor,
        toField_mult h (hinv.brange c (by omega) hcn) hpr,
        toField_mult h (hinv.brange i le_rfl hi) (hinv.range i c le_rfl hi (by omega) hcn),
        ← s1, ← s2]
      linear_combination (-(toField F (A i i) * toField F (A i c) * U i)) * h2
    · rw [if_neg hq, if_neg hq, ← s1]
      have : A i c = 0 := by simpa using hq
      rw [this, toField_zero, zero_mul, zero_add]

theorem solInv_swap {F : FieldCtx} {n i j : Nat} {U : Nat → AdjoinRoot (toPoly F.poly)}
    {A : Mat} {b : Vec} (hinv : SolInv F n i U A b) (hij : i < j) (hj : j < n) :
    SolInv F n i U (swapped i j i (n - i) A) ((b.set i (b j)).set j (b i)) := by
  refine ⟨?_, ?_, ?_⟩
  · intro r c hr hrn hc hcn
    rw [swapped_live A hr hrn]
    obtain ⟨h1, h2⟩ := transp_mem hij hj hc hcn
    exact hinv.range r _ hr hrn h1 h2
  · intro c hc hcn
    rw [swap_vec (by omega)]
    obtain ⟨h1, h2⟩ := transp_mem hij hj hc hcn
    exact hinv.brange _ h1 h2
  · intro c hc hcn
    have hsum : ∑ r in Finset.Ico i n, toField F (swapped i j i (n - i) A r c) * U r
        = ∑ r in Finset.Ico i n, toField F (A r (transp i j c)) * U r := by
      apply Finset.sum_congr rfl
      intro r hr
      obtain ⟨h1, h2⟩ := Finset.mem_Ico.mp hr
      rw [swapped_live A h1 h2]
    rw [hsum, swap_vec (by omega)]
    obtain ⟨h1, h2⟩ := transp_mem hij hj hc hcn
    exact hinv.sol _ h1 h2

/-- A step of the outer loop that does not return `false` keeps the invariant and
leaves a non-zero pivot. -/
theorem solInv_step {F : FieldCtx} (h : PolyOK F)
    {n i : Nat} {U : Nat → AdjoinRoot (toPoly F.poly)}
    {A A' : Mat} {b b' : Vec} (hinv : SolInv F n i U A b) (hi : i < n)
    (hs : restore_step F n i (A, b) = some (A', b')) :
    SolInv F n (i + 1) U A' b' ∧ PivotFact F n i U A' b' := by
  have main : ∀ (A : Mat) (b : Vec), SolInv F n i U A b → A i i ≠ 0 →
      SolInv F n (i + 1) U (elim_mat F n i (i + 1) (n - (i + 1)) A)
        (elim_vec F i (i + 1) (n - (i + 1)) A b) ∧
      PivotFact F n i U (elim_mat F n i (i + 1) (n - (i + 1)) A)
        (elim_vec F i (i + 1) (n - (i + 1)) A b) := by
    intro A b hinv hp
    refine ⟨solInv_elim h hinv hi, ?_, ?_, ?_, ?_⟩
    · rw [elim_mat_pivot_col]; exact hp
    · rw [elim_mat_pivot_col]; exact hinv.range i i le_rfl hi le_rfl hi
    · rw [elim_vec_pivot]; exact hinv.brange i le_rfl hi
    · rw [elim_vec_pivot, ← hinv.sol i le_rfl hi]
      apply Finset.sum_congr rfl
      intro r _
      rw [elim_mat_pivot_col]
  rw [restore_step_eq] at hs
  by_cases hp : A i i = 0
  · rw [if_pos hp] at hs
    cases hf : find_pivot A i (n - (i + 1)) (i + 1) with
    | none => rw [hf] at hs; exact absurd hs (by simp)
    | some j =>
      rw [hf] at hs
      obtain ⟨h1, h2, h3⟩ := find_pivot_some _ _ _ hf
      have hij : i < j := by omega
      have hjn : j < n := by omega
      simp only [Option.some.injEq, Prod.mk.injEq] at hs
      rw [← hs.1, ← hs.2, swap_cols_loop_eq (by omega)]
      apply main _ _ (solInv_swap hinv hij hjn)
      rw [swapped_live A le_rfl hi]
      simpa [transp] using h3
  · rw [if_neg hp] at hs
    simp only [Option.some.injEq, Prod.mk.injEq] at hs
    rw [← hs.1, ← hs.2]
    exact main A b hinv hp

theorem solInv_loop {F : FieldCtx} (h : PolyOK F)
    {n : Nat} {U : Nat → AdjoinRoot (toPoly F.poly)} :
    ∀ (c i : Nat) (A A' : Mat) (b b' : Vec), i + (c + 1) = n → SolInv F n i U A b →
      restore_loop F n (c + 1) i (A, b) = some (A', b') →
      PivotFact F n (n - 1) U A' b' := by
  intro c
  induction c with
  | zero =>
    intro i A A' b b' hi hinv hl
    rw [restore_loop] at hl
    cases hs : restore_step F n i (A, b) with
    | none => rw [hs] at hl; exact absurd hl (by simp)
    | some s' =>
      obtain ⟨A1, b1⟩ := s'
      rw [hs] at hl
      simp only [restore_loop, Option.some.injEq, Prod.mk.injEq] at hl
      have := (solInv_step h hinv (by omega) hs).2
      rw [← hl.1, ← hl.2, show n - 1 = i by omega]
      exact this
  | succ c ih =>
    intro i A A' b b' hi hinv hl
    rw [restore_loop] at hl
    cases hs : restore_step F n i (A, b) with
    | none => rw [hs] at hl; exact absurd hl (by simp)
    | some s' =>
      obtain ⟨A1, b1⟩ := s'
      rw [hs] at hl
      exact ih (i + 1) A1 A' b1 b' (by omega) (solInv_step h hinv (by omega) hs).1 hl

/-- The system `sum over r of A[r][j] * u[r] = b[j]`, in the arithmetic of the
code, is the invariant of the solver before the first pivot. -/
theorem solInv_init {F : FieldCtx} (h : PolyOK F) {n : Nat} {A : Mat} {b u : Vec}
    (hA : ∀ r c, r < n → c < n → A r c < 2 ^ F.degree)
    (hb : ∀ c, c < n → b c < 2 ^ F.degree) (hu : ∀ r, r < n → u r < 2 ^ F.degree)
    (hsol : ∀ j, j < n → xor_sum (fun r => field_mult F (A r j) (u r)) n = b j) :
    SolInv F n 0 (fun r => toField F (u r)) A b := by
  refine ⟨fun r c _ hr _ hc => hA r c hr hc, fun c _ hc => hb c hc, ?_⟩
  intro c _ hc
  rw [← hsol c hc, toField_xor_sum, ← Finset.range_eq_Ico]
  apply Finset.sum_congr rfl
  intro r hr
  have hr' := Finset.mem_range.mp hr
  rw [toField_mult h (hA r c hr' hc) (hu r hr')]

/-- C18 (solver soundness for arbitrary systems): for a valid `deg` whose table
polynomial is irreducible, `n >= 1`, a matrix `A` and a vector `b` of in-range
field elements and a vector `u` of field elements with
`sum over r of A[r][j] * u[r] = b[j]` for every column `j`: if `restore_secret`
returns `true`, then it leaves `b[n-1] = u[n-1]`; and it does return, `true` or
`false`, once `field_invert` is given `2 * deg` iterations. -/
theorem solver_sound (deg n fuel : Nat) (A : Mat) (b u : Vec)
    (hdeg : field_size_valid deg = true) (hirr : GF2Irreducible (field_init deg).poly)
    (hn : 1 ≤ n) (hA : ∀ r c, r < n → c < n → A r c < 2 ^ deg)
    (hb : ∀ c, c < n → b c < 2 ^ deg) (hu : ∀ r, r < n → u r < 2 ^ deg)
    (hsol : ∀ j, j < n →
      xor_sum (fun r => field_mult (field_init deg) (A r j) (u r)) n = b j) :
    (∀ A' b', restore_secret (field_init deg) fuel n A b = RestoreResult.returned_true A' b' →
      b' (n - 1) = u (n - 1)) ∧
    (2 * deg ≤ fuel →
      restore_secret (field_init deg) fuel n A b ≠ RestoreResult.no_return) := by
  have h := field_init_ok hdeg
  have hinv := solInv_init h hA hb hu hsol
  obtain ⟨m, rfl⟩ : ∃ m, n = m + 1 := ⟨n - 1, by omega⟩
  simp only [Nat.add_sub_cancel]
  constructor
  · intro A' b' hr
    simp only [restore_secret, Nat.add_sub_cancel] at hr
    cases hl : restore_loop (field_init deg) (m + 1) (m + 1) 0 (A, b) with
    | none => rw [hl] at hr; exact absurd hr (by simp)
    | some s' =>
      obtain ⟨A1, b1⟩ := s'
      rw [hl] at hr
      dsimp only at hr
      obtain ⟨hp0, hpr, hbr, hs⟩ := solInv_loop h m 0 A A1 b b1 (by omega) hinv hl
      simp only [Nat.add_sub_cancel] at hp0 hpr hbr hs
      cases hz : field_invert (field_init deg) fuel (A1 m m) with
      | none => rw [hz] at hr; exact absurd hr (by simp)
      | some z =>
        rw [hz] at hr
        simp only [RestoreResult.returned_true.injEq] at hr
        obtain ⟨hzlt, hzx⟩ := field_invert_partial h hirr hp0 hpr hz
        rw [← hr.2]
        simp only [Vec.set, if_true]
        apply toField_inj h (field_mult_lt h hbr hzlt) (hu m (by omega))
        rw [toField_mult h hbr hzlt, ← hs]
        have : Finset.Ico m (m + 1) = {m} := by
          ext x; simp only [Finset.mem_Ico, Finset.mem_singleton]; omega
        rw [this, Finset.sum_singleton]
        calc toField (field_init deg) (A1 m m) * toField (field_init deg) (u m)
              * toField (field_init deg) z
            = (toField (field_init deg) z * toField (field_init deg) (A1 m m))
              * toField (field_init deg) (u m) := by ring
          _ = toField (field_init deg) (u m) := by rw [hzx, one_mul]
  · intro hfuel
    simp only [restore_secret, Nat.add_sub_cancel]
    cases hl : restore_loop (field_init deg) (m + 1) (m + 1) 0 (A, b) with
    | none => simp
    | some s' =>
      obtain ⟨A1, b1⟩ := s'
      dsimp only
      obtain ⟨hp0, hpr, _, _⟩ := solInv_loop h m 0 A A1 b b1 (by omega) hinv hl
      simp only [Nat.add_sub_cancel] at hp0 hpr
      obtain ⟨z, hz, _, _⟩ := @field_invert_spec _ h hirr _ hp0 hpr fuel hfuel
      rw [hz]
      simp

theorem solver_sound_witness :
    field_size_valid 8 = true ∧ GF2Irreducible (field_init 8).poly ∧
    (∀ A' b',
      restore_secret (field_init 8) 16 2 (fun r c => (r + c) % 2) (fun j => 7 - 2 * j)
        = RestoreResult.returned_true A' b' → b' (2 - 1) = 5 + 2 * (2 - 1)) ∧
    (2 * 8 ≤ 16 →
      restore_secret (field_init 8) 16 2 (fun r c => (r + c) % 2) (fun j => 7 - 2 * j)
        ≠ RestoreResult.no_return) :=
  ⟨by decide, gf2Irreducible_deg8,
    solver_sound 8 2 16 (fun r c => (r + c) % 2) (fun j => 7 - 2 * j) (fun r => 5 + 2 * r)
      (by decide) gf2Irreducible_deg8 (by decide)
      (fun r c _ _ => lt_of_lt_of_le (Nat.mod_lt (r + c) (by decide)) (by decide))
      (fun c _ => lt_of_le_of_lt (Nat.sub_le 7 (2 * c)) (by decide))
      (fun r hr => by
        have : 5 + 2 * r < 8 := by omega
        exact lt_of_lt_of_le this (by decide))
      (fun j hj => by
        rcases (by omega : j = 0 ∨ j = 1) with rfl | rfl <;> rfl)⟩

/-! ## The final pivot -/

/-- A step of the outer loop of `restore_secret` that does not return `false`
leaves a non-zero entry at the pivot position, whatever the matrix holds. -/
theorem restore_step_pivot (F : FieldCtx) {n i : Nat} {A A' : Mat} {b b' : Vec} (hi : i < n)
    (hs : restore_step F n i (A, b) = some (A', b')) : A' i i ≠ 0 := by
  rw [restore_step_eq] at hs
  by_cases hp : A i i = 0
  · rw [if_pos hp] at hs
    cases hf : find_pivot A i (n - (i + 1)) (i + 1) with
    | none => rw [hf] at hs; exact absurd hs (by simp)
    | some j =>
      rw [hf] at hs
      obtain ⟨h1, h2, h3⟩ := find_pivot_some _ _ _ hf
      simp only [Option.some.injEq, Prod.mk.injEq] at hs
      rw [← hs.1, elim_mat_pivot_col, swap_cols_loop_eq (by omega), swapped_live A le_rfl hi]
      simpa [transp] using h3
  · rw [if_neg hp] at hs
    simp only [Option.some.injEq, Prod.mk.injEq] at hs
    rw [← hs.1, elim_mat_pivot_col]
    exact hp

/-- When the outer loop of `restore_secret` runs to its end, the last pivot is not
zero. -/
theorem restore_loop_pivot (F : FieldCtx) {n : Nat} :
    ∀ (c i : Nat) (A A' : Mat) (b b' : Vec), i + (c + 1) = n →
      restore_loop F n (c + 1) i (A, b) = some (A', b') → A' (n - 1) (n - 1) ≠ 0 := by
  intro c
  induction c with
  | zero =>
    intro i A A' b b' hi hl
    rw [restore_loop] at hl
    cases hs : restore_step F n i (A, b) with
    | none => rw [hs] at hl; exact absurd hl (by simp)
    | some s' =>
      obtain ⟨A1, b1⟩ := s'
      rw [hs] at hl
      simp only [restore_loop, Option.some.injEq, Prod.mk.injEq] at hl
      have := restore_step_pivot F (by omega : i < n) hs
      rw [← hl.1, show n - 1 = i by omega]
      exact this
  | succ c ih =>
    intro i A A' b b' hi hl
    rw [restore_loop] at hl
    cases hs : restore_step F n i (A, b) with
    | none => rw [hs] at hl; exact absurd hl (by simp)
    | some s' =>
      obtain ⟨A1, b1⟩ := s'
      rw [hs] at hl
      exact ih (i + 1) A1 A' b1 b' (by omega) hl

/-- C21 (`restore_secret` never inverts zero): for every `n >= 1`, every matrix `A`
and vector `b`, in every field context: when the outer loop of `restore_secret`
ends without `return false`, so that `field_invert(h, AA[n-1][n-1])` is called, the
entry `AA[n-1][n-1]` is not zero and the assertion `x != 0` of `field_invert` holds:
the call goes on to the loop of `field_invert`. A zero final pivot makes the last
step of the outer loop return `false`. -/
theorem never_inverts_zero (F : FieldCtx) (fuel n : Nat) (A : Mat) (b : Vec) (hn : 1 ≤ n) :
    (∀ A' b', restore_loop F n n 0 (A, b) = some (A', b') →
      A' (n - 1) (n - 1) ≠ 0 ∧
      field_invert F fuel (A' (n - 1) (n - 1))
        = field_invert_loop fuel (A' (n - 1) (n - 1)) F.poly 1 0) ∧
    (restore_loop F n n 0 (A, b) = none →
      restore_secret F fuel n A b = RestoreResult.returned_false) ∧
    (∀ (A1 : Mat) (b1 : Vec), A1 (n - 1) (n - 1) = 0 →
      restore_step F n (n - 1) (A1, b1) = none) := by
  obtain ⟨m, rfl⟩ : ∃ m, n = m + 1 := ⟨n - 1, by omega⟩
  refine ⟨?_, ?_, ?_⟩
  · intro A' b' hl
    have hp := restore_loop_pivot F m 0 A A' b b' (by omega) hl
    exact ⟨hp, by rw [field_invert, if_neg hp]⟩
  · intro hl
    simp only [restore_secret, hl]
  · intro A1 b1 h0
    simp only [Nat.add_sub_cancel] at h0 ⊢
    rw [restore_step_eq, if_pos h0, Nat.sub_self]
    rfl

theorem never_inverts_zero_witness :
    1 ≤ 2 ∧
    (∀ A' b',
      restore_loop (field_init 8) 2 2 0 (fun r c => (r + c) % 2, fun j => 7 - 2 * j)
        = some (A', b') →
      A' (2 - 1) (2 - 1) ≠ 0 ∧
      field_invert (field_init 8) 16 (A' (2 - 1) (2 - 1))
        = field_invert_loop 16 (A' (2 - 1) (2 - 1)) (field_init 8).poly 1 0) ∧
    (∃ A' b',
      restore_loop (field_init 8) 2 2 0 (fun r c => (r + c) % 2, fun j => 7 - 2 * j)
        = some (A', b')) ∧
    restore_secret (field_init 8) 16 2 (fun r c => r * c) (fun j => 7 - 2 * j)
      = RestoreResult.returned_false :=
  ⟨by decide,
    (never_inverts_zero (field_init 8) 16 2 (fun r c => (r + c) % 2) (fun j => 7 - 2 * j)
      (by decide)).1,
    ⟨_, _, rfl⟩,
    (never_inverts_zero (field_init 8) 16 2 (fun r c => r * c) (fun j => 7 - 2 * j)
      (by decide)).2.1 rfl⟩

end SSSS
